import Mathlib

/-
Shallow embedding of dgryski/go-clockpro (src/clockpro.go).

The Go implementation stores metadata records in a `container/list` doubly
linked list.  List elements are modelled by natural-number identities
(`Nat` ids, allocated from a `nextId` counter); the list itself is the
sequence of ids from front to back.  A Go `*list.Element` pointer is an
`Option Nat` (Go `nil` = `none`; a pointer to a removed element is an id
that is no longer a member of the list).  Go interface values are
`Option Int` with `none` playing the role of Go `nil`.  Go `int` fields are
`Int`.  Go map accesses and the panics of nil-pointer dereferences are
reproduced exactly; fallible operations return `Res`.  Loops and the
mutual recursion of the three clock hands are modelled with explicit fuel:
`Res.timeout` means the fuel ran out, so an execution that yields
`Res.timeout` for every fuel diverges.
-/

set_option maxHeartbeats 1000000

namespace Clockpro

inductive pageType where
  | ptTest : pageType
  | ptCold : pageType
  | ptHot : pageType
deriving DecidableEq, Repr

structure metaEntry where
  ptype : pageType
  key : String
  val : Option Int
  ref : Bool
deriving DecidableEq, Repr

inductive Res (α : Type) where
  | ok : α → Res α
  | panic : Res α
  | timeout : Res α
deriving DecidableEq, Repr

/-- Association-list lookup, first binding wins (models a Go map read). -/
def alookup {κ α : Type} [DecidableEq κ] : List (κ × α) → κ → Option α
  | [], _ => none
  | (k', a) :: t, k => if k' = k then some a else alookup t k

/-- Association-list insert-or-replace in place (models a Go map write). -/
def ains {κ α : Type} [DecidableEq κ] : List (κ × α) → κ → α → List (κ × α)
  | [], k, a => [(k, a)]
  | (k', b) :: t, k, a => if k' = k then (k, a) :: t else (k', b) :: ains t k a

/-- Association-list delete of the first binding (models a Go map delete). -/
def aerase {κ α : Type} [DecidableEq κ] : List (κ × α) → κ → List (κ × α)
  | [], _ => []
  | (k', b) :: t, k => if k' = k then t else (k', b) :: aerase t k

/-- Successor of element `id` in the ring order, `none` at the back or when
`id` is not a member (a removed element's `Next` returns nil in Go). -/
def listNext : List Nat → Nat → Option Nat
  | [], _ => none
  | [a], id => if a = id then none else none
  | a :: b :: t, id => if a = id then some b else listNext (b :: t) id

/-- Helper for `listPrev`: the element before `id` when `p` precedes the list. -/
def listPrevAux (p : Nat) : List Nat → Nat → Option Nat
  | [], _ => none
  | a :: t, id => if a = id then some p else listPrevAux a t id

/-- Predecessor of element `id` in the ring order, `none` at the front or
when `id` is not a member. -/
def listPrev : List Nat → Nat → Option Nat
  | [], _ => none
  | a :: t, id => if a = id then none else listPrevAux a t id

/-- Position of `id` counted from the front, or the length when absent
(this is exactly what the scanning loop in `meta_del` computes). -/
def idxAux : List Nat → Nat → Int
  | [], _ => 0
  | a :: t, id => if a = id then 0 else 1 + idxAux t id

/-- Go scan `for e := Front(); e != nil; e = e.Next()` looking for `elt`. -/
def idxScan (l : List Nat) (elt : Option Nat) : Int :=
  match elt with
  | none => (l.length : Int)
  | some id => idxAux l id

/-- Insert `fresh` immediately before `mark`; unchanged when `mark` is absent
(Go `InsertBefore` refuses a mark that is not an element of the list). -/
def insertBeforeL : List Nat → Nat → Nat → List Nat
  | [], _, _ => []
  | a :: t, mark, fresh => if a = mark then fresh :: a :: t else a :: insertBeforeL t mark fresh

structure Cache where
  mem_max : Int
  mem_cold : Int
  meta : List Nat
  entries : List (Nat × metaEntry)
  metaKeys : List (String × Option Nat)
  hand_pos_hot : Option Nat
  hand_pos_cold : Option Nat
  hand_pos_test : Option Nat
  hand_idx_hot : Int
  hand_idx_cold : Int
  hand_idx_test : Int
  count_hot : Int
  count_cold : Int
  count_test : Int
  nextId : Nat
deriving DecidableEq, Repr

def defaultEntry : metaEntry := ⟨pageType.ptTest, "", none, false⟩

/-- Dereference `elt.Value.(*metaEntry)`: the record attached to element `id`. -/
def entryOf (s : Cache) (id : Nat) : metaEntry :=
  (alookup s.entries id).getD defaultEntry

/-- Mutation through the shared `*metaEntry` pointer of element `id`. -/
def setEntry (s : Cache) (id : Nat) (e : metaEntry) : Cache :=
  { s with entries := ains s.entries id e }

/-- Go map read `c.metaKeys[key]`: yields nil both when the key is absent
and when a nil element was stored under it. -/
def mapGet (s : Cache) (key : String) : Option Nat :=
  (alookup s.metaKeys key).getD none

def front (s : Cache) : Option Nat := s.meta.head?

def back (s : Cache) : Option Nat := s.meta.getLast?

def New (size : Int) : Cache :=
  { mem_max := size, mem_cold := size, meta := [], entries := [], metaKeys := [],
    hand_pos_hot := none, hand_pos_cold := none, hand_pos_test := none,
    hand_idx_hot := 0, hand_idx_cold := 0, hand_idx_test := 0,
    count_hot := 0, count_cold := 0, count_test := 0, nextId := 0 }

def Get (s : Cache) (key : String) : Cache × Option Int :=
  match mapGet s key with
  | none => (s, none)
  | some id =>
    let val := entryOf s id
    if val.val = none then (s, none)
    else (setEntry s id { val with ref := true }, val.val)

/-- Go: `if elt == hand { hand = hand.Prev(); if hand == nil { hand = Back() } }`;
dereferencing a nil hand panics. -/
def fixDelHand (s : Cache) (elt h : Option Nat) : Res (Option Nat) :=
  if elt = h then
    match h with
    | none => Res.panic
    | some id =>
      match listPrev s.meta id with
      | none => Res.ok (back s)
      | some q => Res.ok (some q)
  else Res.ok h

/-- Go: `if i >= idx { i--; if i < 0 { i = max_pos } }`. -/
def fixDelIdx (i idx max_pos : Int) : Int :=
  if idx ≤ i then (if i - 1 < 0 then max_pos else i - 1) else i

/-- Transcription of `meta_del`.  The element looked up under `key` may be a
stored nil or point to a removed element; the Go code then dereferences nil
or silently fails to remove, and both behaviours are reproduced. -/
def meta_del (s : Cache) (key : String) : Res Cache :=
  match alookup s.metaKeys key with
  | none => Res.panic
  | some elt =>
    let s1 := { s with metaKeys := aerase s.metaKeys key }
    let idx : Int := idxScan s1.meta elt
    match fixDelHand s1 elt s1.hand_pos_hot with
    | Res.ok ph =>
      match fixDelHand s1 elt s1.hand_pos_cold with
      | Res.ok pc =>
        match fixDelHand s1 elt s1.hand_pos_test with
        | Res.ok pt =>
          match elt with
          | none => Res.panic
          | some id =>
            let s2 := { s1 with meta := s1.meta.erase id,
                                hand_pos_hot := ph, hand_pos_cold := pc, hand_pos_test := pt }
            let max_pos : Int := (s2.meta.length : Int) - 1
            Res.ok { s2 with
              hand_idx_hot := fixDelIdx s2.hand_idx_hot idx max_pos,
              hand_idx_cold := fixDelIdx s2.hand_idx_cold idx max_pos,
              hand_idx_test := fixDelIdx s2.hand_idx_test idx max_pos }
        | Res.panic => Res.panic
        | Res.timeout => Res.timeout
      | Res.panic => Res.panic
      | Res.timeout => Res.timeout
    | Res.panic => Res.panic
    | Res.timeout => Res.timeout

/-- Go hand advance: `idx++; pos = pos.Next(); if pos == nil { pos, idx = Front(), 0 }`;
dereferencing a nil hand panics. -/
def advanceHand (s : Cache) (h : Option Nat) (i : Int) : Res (Option Nat × Int) :=
  match h with
  | none => Res.panic
  | some id =>
    match listNext s.meta id with
    | none => Res.ok (front s, 0)
    | some q => Res.ok (some q, i + 1)

/-- The advance of the cold hand at the end of `hand_cold`. -/
def coldAdvance (s1 : Cache) : Res Cache :=
  match advanceHand s1 s1.hand_pos_cold s1.hand_idx_cold with
  | Res.ok pi => Res.ok { s1 with hand_pos_cold := pi.1, hand_idx_cold := pi.2 }
  | Res.panic => Res.panic
  | Res.timeout => Res.timeout

/-- The body of `hand_hot` after the possible recursive `hand_test` call:
examine the node under the hot hand, clear its ref bit or demote it, then
advance the hot hand. -/
def hotBody (s0 : Cache) : Res Cache :=
  match s0.hand_pos_hot with
  | none => Res.panic
  | some hid =>
    let m := entryOf s0 hid
    let s1 :=
      if m.ptype = pageType.ptHot then
        if m.ref then setEntry s0 hid { m with ref := false }
        else setEntry { s0 with count_hot := s0.count_hot - 1, count_cold := s0.count_cold + 1 }
          hid { m with ptype := pageType.ptCold }
      else s0
    match advanceHand s1 s1.hand_pos_hot s1.hand_idx_hot with
    | Res.ok pi => Res.ok { s1 with hand_pos_hot := pi.1, hand_idx_hot := pi.2 }
    | Res.panic => Res.panic
    | Res.timeout => Res.timeout

/-- The body of `hand_test` after the possible recursive `hand_cold` call:
remove the node under the test hand when it is a Test node (remembering its
predecessor and shrinking `mem_cold`), then advance the test hand. -/
def testBody (s0 : Cache) : Res Cache :=
  match s0.hand_pos_test with
  | none => Res.panic
  | some tid =>
    let m := entryOf s0 tid
    let r1 : Res Cache :=
      if m.ptype = pageType.ptTest then
        let p0 := listPrev s0.meta tid
        let prev := match p0 with | none => back s0 | some q => some q
        let pidx : Int :=
          match p0 with | none => (s0.meta.length : Int) | some _ => s0.hand_idx_test - 1
        match meta_del s0 m.key with
        | Res.ok s2 =>
          Res.ok { s2 with hand_pos_test := prev, hand_idx_test := pidx,
                           count_test := s2.count_test - 1,
                           mem_cold := if 1 < s2.mem_cold then s2.mem_cold - 1 else s2.mem_cold }
        | r => r
      else Res.ok s0
    match r1 with
    | Res.ok s1 =>
      match advanceHand s1 s1.hand_pos_test s1.hand_idx_test with
      | Res.ok pi => Res.ok { s1 with hand_pos_test := pi.1, hand_idx_test := pi.2 }
      | Res.panic => Res.panic
      | Res.timeout => Res.timeout
    | r => r

inductive HandCall where
  | evictC : HandCall
  | coldC : HandCall
  | hotC : HandCall
  | testC : HandCall
  | testLoopC : HandCall
  | hotLoopC : HandCall
deriving DecidableEq, Repr

/-- The eviction engine: `evict`, `hand_cold`, `hand_hot`, `hand_test` and the
two inner `while` loops of `hand_cold`, as one fuel-indexed mutual recursion.
Each case is a line-by-line transcription of the corresponding Go function. -/
def engine : Nat → HandCall → Cache → Res Cache
  | 0, _, _ => Res.timeout
  | fuel + 1, c, s =>
    match c with
    | HandCall.evictC =>
      if s.mem_max ≤ s.count_hot + s.count_cold then
        match engine fuel HandCall.coldC s with
        | Res.ok t => engine fuel HandCall.evictC t
        | r => r
      else Res.ok s
    | HandCall.testLoopC =>
      if s.mem_max < s.count_test then
        match engine fuel HandCall.testC s with
        | Res.ok t => engine fuel HandCall.testLoopC t
        | r => r
      else Res.ok s
    | HandCall.hotLoopC =>
      if s.mem_max - s.mem_cold < s.count_hot then
        match engine fuel HandCall.hotC s with
        | Res.ok t => engine fuel HandCall.hotLoopC t
        | r => r
      else Res.ok s
    | HandCall.coldC =>
      match s.hand_pos_cold with
      | none => Res.panic
      | some cid =>
        let m := entryOf s cid
        let r1 : Res Cache :=
          if m.ptype = pageType.ptCold then
            if m.ref then
              Res.ok (setEntry { s with count_cold := s.count_cold - 1, count_hot := s.count_hot + 1 }
                cid { m with ptype := pageType.ptHot, ref := false })
            else
              engine fuel HandCall.testLoopC
                (setEntry { s with count_cold := s.count_cold - 1, count_test := s.count_test + 1 }
                  cid { m with ptype := pageType.ptTest, val := none })
          else Res.ok s
        match r1 with
        | Res.ok s1 =>
          match coldAdvance s1 with
          | Res.ok s2 => engine fuel HandCall.hotLoopC s2
          | Res.panic => Res.panic
          | Res.timeout => Res.timeout
        | r => r
    | HandCall.hotC =>
      match (if s.hand_pos_hot = s.hand_pos_test then engine fuel HandCall.testC s else Res.ok s) with
      | Res.ok s0 => hotBody s0
      | r => r
    | HandCall.testC =>
      match (if s.hand_pos_test = s.hand_pos_cold then engine fuel HandCall.coldC s else Res.ok s) with
      | Res.ok s0 => testBody s0
      | r => r

def evict (fuel : Nat) (s : Cache) : Res Cache := engine fuel HandCall.evictC s

def hand_cold (fuel : Nat) (s : Cache) : Res Cache := engine fuel HandCall.coldC s

def hand_hot (fuel : Nat) (s : Cache) : Res Cache := engine fuel HandCall.hotC s

def hand_test (fuel : Nat) (s : Cache) : Res Cache := engine fuel HandCall.testC s

/-- First part of the `meta_add` tail:
`if hand_idx_cold > hand_idx_hot { advance the cold hand, wrapping }`. -/
def tailAdvCold (s : Cache) : Res Cache :=
  if s.hand_idx_hot < s.hand_idx_cold then
    match s.hand_pos_cold with
    | none => Res.panic
    | some id =>
      match listNext s.meta id with
      | none => Res.ok { s with hand_idx_cold := 0, hand_pos_cold := front s }
      | some q => Res.ok { s with hand_idx_cold := s.hand_idx_cold + 1, hand_pos_cold := some q }
  else Res.ok s

/-- Second part of the `meta_add` tail:
`if hand_idx_test >= hand_idx_hot { advance the test hand, wrapping }`. -/
def tailAdvTest (s : Cache) : Res Cache :=
  if s.hand_idx_hot ≤ s.hand_idx_test then
    match s.hand_pos_test with
    | none => Res.panic
    | some id =>
      match listNext s.meta id with
      | none => Res.ok { s with hand_idx_test := 0, hand_pos_test := front s }
      | some q => Res.ok { s with hand_idx_test := s.hand_idx_test + 1, hand_pos_test := some q }
  else Res.ok s

/-- Last part of the `meta_add` tail: unconditionally advance the hot hand,
wrapping; a nil hot hand is dereferenced and panics. -/
def tailAdvHot (s : Cache) : Res Cache :=
  match s.hand_pos_hot with
  | none => Res.panic
  | some id =>
    match listNext s.meta id with
    | none => Res.ok { s with hand_idx_hot := 0, hand_pos_hot := front s }
    | some q => Res.ok { s with hand_idx_hot := s.hand_idx_hot + 1, hand_pos_hot := some q }

/-- The shared tail of `meta_add` that repositions the three hands after the
insertion (the Go code runs it in both the first-element and the general case). -/
def metaAddTail (s : Cache) : Res Cache :=
  match tailAdvCold s with
  | Res.ok s1 =>
    match tailAdvTest s1 with
    | Res.ok s2 => tailAdvHot s2
    | r => r
  | r => r

/-- The insertion part of `meta_add`, everything after the call to `evict`:
insert the new element before `hand_pos_hot` (or as the sole element), then
run the hand-repositioning tail. -/
def metaAddCore (s0 : Cache) (mentry : metaEntry) : Res Cache :=
  match s0.hand_pos_hot with
  | none =>
    let fresh := s0.nextId
    metaAddTail { s0 with
      meta := fresh :: s0.meta,
      entries := ains s0.entries fresh mentry,
      metaKeys := ains s0.metaKeys mentry.key (some fresh),
      nextId := fresh + 1,
      hand_pos_hot := some fresh, hand_pos_cold := some fresh, hand_pos_test := some fresh }
  | some hid =>
    let s1 :=
      if hid ∈ s0.meta then
        let fresh := s0.nextId
        { s0 with meta := insertBeforeL s0.meta hid fresh,
                  entries := ains s0.entries fresh mentry,
                  metaKeys := ains s0.metaKeys mentry.key (some fresh),
                  nextId := fresh + 1 }
      else { s0 with metaKeys := ains s0.metaKeys mentry.key none }
    let r2 : Res (Option Nat) :=
      if s1.hand_idx_hot ≤ s1.hand_idx_cold then
        match s1.hand_pos_cold with
        | none => Res.panic
        | some cid => Res.ok (listPrev s1.meta cid)
      else Res.ok s1.hand_pos_cold
    match r2 with
    | Res.ok pc =>
      let r3 : Res (Option Nat) :=
        if s1.hand_idx_hot ≤ s1.hand_idx_test then
          match s1.hand_pos_test with
          | none => Res.panic
          | some tid => Res.ok (listPrev s1.meta tid)
        else Res.ok s1.hand_pos_test
      match r3 with
      | Res.ok pt =>
        metaAddTail { s1 with hand_pos_cold := pc, hand_pos_test := pt,
                              hand_pos_hot := listPrev s1.meta hid }
      | Res.panic => Res.panic
      | Res.timeout => Res.timeout
    | Res.panic => Res.panic
    | Res.timeout => Res.timeout

/-- Transcription of `meta_add`: evict, then run the insertion. -/
def meta_add (fuel : Nat) (s : Cache) (mentry : metaEntry) : Res Cache :=
  match fuel with
  | 0 => Res.timeout
  | fuel + 1 =>
    match engine fuel HandCall.evictC s with
    | Res.ok s0 => metaAddCore s0 mentry
    | r => r

/-- Transcription of `Set`. -/
def Set (fuel : Nat) (s : Cache) (key : String) (value : Option Int) : Res Cache :=
  match mapGet s key with
  | some id =>
    let val := entryOf s id
    if val.val = none then
      let sa := if s.mem_cold < s.mem_max then { s with mem_cold := s.mem_cold + 1 } else s
      let sb := setEntry sa id { val with ptype := pageType.ptHot, val := value, ref := false }
      let sc := { sb with count_test := sb.count_test - 1 }
      match meta_del sc val.key with
      | Res.ok sd =>
        match meta_add fuel sd { val with ptype := pageType.ptHot, val := value, ref := false } with
        | Res.ok se => Res.ok { se with count_hot := se.count_hot + 1 }
        | r => r
      | r => r
    else
      Res.ok (setEntry s id { val with val := value, ref := true })
  | none =>
    match meta_add fuel s ⟨pageType.ptCold, key, value, false⟩ with
    | Res.ok s1 => Res.ok { s1 with count_cold := s1.count_cold + 1 }
    | r => r

/-- Reachability by public calls: `Reaches s t` holds when some sequence of
`Get` and `Set` calls that all return carries the cache from `s` to `t`. -/
inductive Reaches : Cache → Cache → Prop where
  | refl (s : Cache) : Reaches s s
  | get (s t : Cache) (k : String) : Reaches s t → Reaches s (Get t k).1
  | set (s t u : Cache) (f : Nat) (k : String) (v : Option Int) :
      Reaches s t → Set f t k v = Res.ok u → Reaches s u

/-- Reachability by public calls that store only non-nil values. -/
inductive ReachesNN : Cache → Cache → Prop where
  | refl (s : Cache) : ReachesNN s s
  | get (s t : Cache) (k : String) : ReachesNN s t → ReachesNN s (Get t k).1
  | set (s t u : Cache) (f : Nat) (k : String) (v : Int) :
      ReachesNN s t → Set f t k (some v) = Res.ok u → ReachesNN s u

/-- A `Set` call that runs out of every amount of fuel: the Go call diverges. -/
def SetDiverges (s : Cache) (key : String) (value : Option Int) : Prop :=
  ∀ fuel : Nat, Set fuel s key value = Res.timeout

/-- Run a list of `Set` calls, each with the given fuel, stopping at the
first call that does not return. -/
def runSets (fuel : Nat) (s : Cache) : List (String × Option Int) → Res Cache
  | [] => Res.ok s
  | (k, v) :: t =>
    match Set fuel s k v with
    | Res.ok s' => runSets fuel s' t
    | r => r

/-- The cache `New 1` after `Set "a" 1`: one cold resident. -/
def c2a : Cache :=
  { mem_max := 1, mem_cold := 1, meta := [0],
    entries := [(0, ⟨pageType.ptCold, "a", some 1, false⟩)],
    metaKeys := [("a", some 0)],
    hand_pos_hot := some 0, hand_pos_cold := some 0, hand_pos_test := some 0,
    hand_idx_hot := 0, hand_idx_cold := 0, hand_idx_test := 0,
    count_hot := 0, count_cold := 1, count_test := 0, nextId := 1 }

/-- `c2a` after `Get "a"`: the reference bit of the sole resident is set. -/
def c2b : Cache :=
  { mem_max := 1, mem_cold := 1, meta := [0],
    entries := [(0, ⟨pageType.ptCold, "a", some 1, true⟩)],
    metaKeys := [("a", some 0)],
    hand_pos_hot := some 0, hand_pos_cold := some 0, hand_pos_test := some 0,
    hand_idx_hot := 0, hand_idx_cold := 0, hand_idx_test := 0,
    count_hot := 0, count_cold := 1, count_test := 0, nextId := 1 }

/-- The state the eviction engine reaches from `c2b`: the referenced cold
page was promoted, and every hand sits on the single hot node.  `hand_cold`
maps this state to itself while the `evict` guard stays true, so the engine
cycles through it forever. -/
def c2cycle : Cache :=
  { mem_max := 1, mem_cold := 1, meta := [0],
    entries := [(0, ⟨pageType.ptHot, "a", some 1, false⟩)],
    metaKeys := [("a", some 0)],
    hand_pos_hot := some 0, hand_pos_cold := some 0, hand_pos_test := some 0,
    hand_idx_hot := 0, hand_idx_cold := 0, hand_idx_test := 0,
    count_hot := 1, count_cold := 0, count_test := 0, nextId := 1 }

/-- The cache `New 1` after `Set "a" nil`: a resident cold node whose stored
value is Go nil, indistinguishable from a missing value at the interface. -/
def coldNilState : Cache :=
  { mem_max := 1, mem_cold := 1, meta := [0],
    entries := [(0, ⟨pageType.ptCold, "a", none, false⟩)],
    metaKeys := [("a", some 0)],
    hand_pos_hot := some 0, hand_pos_cold := some 0, hand_pos_test := some 0,
    hand_idx_hot := 0, hand_idx_cold := 0, hand_idx_test := 0,
    count_hot := 0, count_cold := 1, count_test := 0, nextId := 1 }
/-- A concrete resident node with a real value, used to exercise the amended
`get` description. -/
def c3w : Cache :=
  { mem_max := 1, mem_cold := 1, meta := [0],
    entries := [(0, ⟨pageType.ptCold, "a", some 5, false⟩)],
    metaKeys := [("a", some 0)],
    hand_pos_hot := some 0, hand_pos_cold := some 0, hand_pos_test := some 0,
    hand_idx_hot := 0, hand_idx_cold := 0, hand_idx_test := 0,
    count_hot := 0, count_cold := 1, count_test := 0, nextId := 1 }
/-- `New 2` after `set a 1`: all hands on the single node. -/
def c8pre : Cache :=
  { mem_max := 2, mem_cold := 2, meta := [0],
    entries := [(0, ⟨pageType.ptCold, "a", some 1, false⟩)],
    metaKeys := [("a", some 0)],
    hand_pos_hot := some 0, hand_pos_cold := some 0, hand_pos_test := some 0,
    hand_idx_hot := 0, hand_idx_cold := 0, hand_idx_test := 0,
    count_hot := 0, count_cold := 1, count_test := 0, nextId := 1 }
/-- `c8pre` after `set b 2`: node 1 was inserted before node 0, and the cold
hand now denotes the brand-new node 1. -/
def c8post : Cache :=
  { mem_max := 2, mem_cold := 2, meta := [1, 0],
    entries := [(0, ⟨pageType.ptCold, "a", some 1, false⟩),
                (1, ⟨pageType.ptCold, "b", some 2, false⟩)],
    metaKeys := [("a", some 0), ("b", some 1)],
    hand_pos_hot := some 0, hand_pos_cold := some 1, hand_pos_test := some 0,
    hand_idx_hot := 1, hand_idx_cold := 0, hand_idx_test := 1,
    count_hot := 0, count_cold := 2, count_test := 0, nextId := 2 }
/-- `New 2` after `set a 1; set b 2; set c 3`: key `b` has been demoted into
Test shadow and the cache is at capacity. -/
def c5pre : Cache :=
  { mem_max := 2, mem_cold := 2, meta := [1, 2, 0],
    entries := [(0, ⟨pageType.ptCold, "a", some 1, false⟩),
                (1, ⟨pageType.ptTest, "b", none, false⟩),
                (2, ⟨pageType.ptCold, "c", some 3, false⟩)],
    metaKeys := [("a", some 0), ("b", some 1), ("c", some 2)],
    hand_pos_hot := some 0, hand_pos_cold := some 2, hand_pos_test := some 0,
    hand_idx_hot := 2, hand_idx_cold := 1, hand_idx_test := 2,
    count_hot := 0, count_cold := 2, count_test := 1, nextId := 3 }
/-- `c5pre` after `set b 99`: the Test node was promoted, but the eviction
that made room demoted `c` into Test shadow, so `count_test` is unchanged. -/
def c5post : Cache :=
  { mem_max := 2, mem_cold := 2, meta := [2, 3, 0],
    entries := [(0, ⟨pageType.ptCold, "a", some 1, false⟩),
                (1, ⟨pageType.ptHot, "b", some 99, false⟩),
                (2, ⟨pageType.ptTest, "c", none, false⟩),
                (3, ⟨pageType.ptHot, "b", some 99, false⟩)],
    metaKeys := [("a", some 0), ("c", some 2), ("b", some 3)],
    hand_pos_hot := some 0, hand_pos_cold := some 3, hand_pos_test := some 0,
    hand_idx_hot := 2, hand_idx_cold := 1, hand_idx_test := 2,
    count_hot := 1, count_cold := 1, count_test := 1, nextId := 4 }

/-- The ring-length bookkeeping defect: number of ring nodes minus the sum
of the three counters.  It is zero in every reachable state. -/
def Dval (s : Cache) : Int :=
  (s.meta.length : Int) - (s.count_hot + s.count_cold + s.count_test)

/-- Structural well-formedness of the id allocation and the key index that
holds in every reachable state, even when nil values are stored: ids are
unique and fresh, and every element stored in the key index is a live ring
node, held by at most one key. -/
structure INV0 (s : Cache) : Prop where
  nodup : s.meta.Nodup
  bound : ∀ id ∈ s.meta, id < s.nextId
  keysNodup : (s.metaKeys.map Prod.fst).Nodup
  stored : ∀ k id, alookup s.metaKeys k = some (some id) → id ∈ s.meta ∧ id < s.nextId
  inj : ∀ k1 k2 id, alookup s.metaKeys k1 = some (some id) →
    alookup s.metaKeys k2 = some (some id) → k1 = k2

/-- Fields that the hand-repositioning tail of `meta_add` never touches. -/
def TailFrame (s s' : Cache) : Prop :=
  s'.mem_max = s.mem_max ∧ s'.mem_cold = s.mem_cold ∧ s'.meta = s.meta ∧
  s'.entries = s.entries ∧ s'.metaKeys = s.metaKeys ∧
  s'.count_hot = s.count_hot ∧ s'.count_cold = s.count_cold ∧
  s'.count_test = s.count_test ∧ s'.nextId = s.nextId

/-- Facts carried across every successful call into the eviction engine:
`mem_max` and the id allocator never change, the `mem_cold` bounds and the
`count_test` capacity bound are preserved, the resident total never grows,
and on structurally sound states the structural invariant and the
length-versus-counters defect are preserved. -/
def EngineStep (s s' : Cache) : Prop :=
  s'.mem_max = s.mem_max ∧ s'.nextId = s.nextId ∧
  (1 ≤ s.mem_cold → 1 ≤ s'.mem_cold) ∧
  (s.mem_cold ≤ s.mem_max → s'.mem_cold ≤ s'.mem_max) ∧
  (s.count_test ≤ s.mem_max → s'.count_test ≤ s'.mem_max) ∧
  s'.count_hot + s'.count_cold ≤ s.count_hot + s.count_cold ∧
  (INV0 s → INV0 s' ∧ Dval s' = Dval s)

/-- The invariant carried across every public call on a cache built by
`New size` with `1 ≤ size`: structural soundness, the sizing bounds, the
agreement of the ring length with the three counters, and the `mem_cold`
bounds. -/
def CallInv (s : Cache) : Prop :=
  INV0 s ∧ s.count_hot + s.count_cold ≤ s.mem_max ∧ s.count_test ≤ s.mem_max ∧
  Dval s = 0 ∧ 1 ≤ s.mem_cold ∧ s.mem_cold ≤ s.mem_max

/-- The cache `New 2` after `Set "a" 1`: one cold resident. -/
def c1w : Cache :=
  { mem_max := 2, mem_cold := 2, meta := [0],
    entries := [(0, ⟨pageType.ptCold, "a", some 1, false⟩)],
    metaKeys := [("a", some 0)],
    hand_pos_hot := some 0, hand_pos_cold := some 0, hand_pos_test := some 0,
    hand_idx_hot := 0, hand_idx_cold := 0, hand_idx_test := 0,
    count_hot := 0, count_cold := 1, count_test := 0, nextId := 1 }

/-- The cache `New 2` after `Set "a" nil`: one cold resident holding nil. -/
def c10w : Cache :=
  { mem_max := 2, mem_cold := 2, meta := [0],
    entries := [(0, ⟨pageType.ptCold, "a", none, false⟩)],
    metaKeys := [("a", some 0)],
    hand_pos_hot := some 0, hand_pos_cold := some 0, hand_pos_test := some 0,
    hand_idx_hot := 0, hand_idx_cold := 0, hand_idx_test := 0,
    count_hot := 0, count_cold := 1, count_test := 0, nextId := 1 }

/-- The cache `c1w` after `meta_add` of a fresh cold entry for `"b"`. -/
def c8w2 : Cache :=
  { mem_max := 2, mem_cold := 2, meta := [1, 0],
    entries := [(0, ⟨pageType.ptCold, "a", some 1, false⟩),
                (1, ⟨pageType.ptCold, "b", some 7, false⟩)],
    metaKeys := [("a", some 0), ("b", some 1)],
    hand_pos_hot := some 0, hand_pos_cold := some 1, hand_pos_test := some 0,
    hand_idx_hot := 1, hand_idx_cold := 0, hand_idx_test := 1,
    count_hot := 0, count_cold := 1, count_test := 0, nextId := 2 }

/-- A cache with one Test shadow (key `"a"`) and one cold resident (key
`"b"`), with free capacity, for exercising the promotion path of `Set`. -/
def c5wpre : Cache :=
  { mem_max := 3, mem_cold := 3, meta := [0, 1],
    entries := [(0, ⟨pageType.ptTest, "a", none, false⟩),
                (1, ⟨pageType.ptCold, "b", some 2, false⟩)],
    metaKeys := [("a", some 0), ("b", some 1)],
    hand_pos_hot := some 1, hand_pos_cold := some 1, hand_pos_test := some 0,
    hand_idx_hot := 1, hand_idx_cold := 1, hand_idx_test := 0,
    count_hot := 0, count_cold := 1, count_test := 1, nextId := 2 }

/-- `c5wpre` after `Set "a" 55`: the Test shadow was promoted to a fresh Hot
node. -/
def c5wpost : Cache :=
  { mem_max := 3, mem_cold := 3, meta := [2, 1],
    entries := [(0, ⟨pageType.ptHot, "a", some 55, false⟩),
                (1, ⟨pageType.ptCold, "b", some 2, false⟩),
                (2, ⟨pageType.ptHot, "a", some 55, false⟩)],
    metaKeys := [("b", some 1), ("a", some 2)],
    hand_pos_hot := some 1, hand_pos_cold := some 2, hand_pos_test := some 1,
    hand_idx_hot := 1, hand_idx_cold := 0, hand_idx_test := 1,
    count_hot := 1, count_cold := 1, count_test := 0, nextId := 3 }

/-- Number of elements of `l` whose attached record has page type `p`. -/
def cntPL (s : Cache) (p : pageType) : List Nat → Int
  | [] => 0
  | id :: t => (if (entryOf s id).ptype = p then 1 else 0) + cntPL s p t

/-- Number of ring nodes of page type `p`. -/
def cntP (s : Cache) (p : pageType) : Int := cntPL s p s.meta

/-- The accounting invariant: on caches driven only by calls that store
non-nil values, a node is a Test shadow exactly when it holds no value, the
three counters count the ring nodes of their type, every ring node's key
maps back to that node, and every hand is either a live ring node or a
leftover pointer to a just-removed Test node of an emptied ring. -/
structure ACCe (s : Cache) : Prop where
  inv : INV0 s
  tv : ∀ id ∈ s.meta, ((entryOf s id).ptype = pageType.ptTest ↔ (entryOf s id).val = none)
  ch : s.count_hot = cntP s pageType.ptHot
  cc : s.count_cold = cntP s pageType.ptCold
  ct : s.count_test = cntP s pageType.ptTest
  ki : ∀ id ∈ s.meta, alookup s.metaKeys (entryOf s id).key = some (some id)
  lh : ∀ x, s.hand_pos_hot = some x →
    x ∈ s.meta ∨ (s.meta = [] ∧ (entryOf s x).ptype = pageType.ptTest)
  lc : ∀ x, s.hand_pos_cold = some x →
    x ∈ s.meta ∨ (s.meta = [] ∧ (entryOf s x).ptype = pageType.ptTest)
  lt : ∀ x, s.hand_pos_test = some x →
    x ∈ s.meta ∨ (s.meta = [] ∧ (entryOf s x).ptype = pageType.ptTest)

theorem c2cycle_timeout (f : Nat) :
    engine f HandCall.coldC c2cycle = Res.timeout ∧
    engine f HandCall.hotLoopC c2cycle = Res.timeout ∧
    engine f HandCall.hotC c2cycle = Res.timeout ∧
    engine f HandCall.testC c2cycle = Res.timeout := by
  induction f with
  | zero => exact ⟨rfl, rfl, rfl, rfl⟩
  | succ f ih =>
    refine ⟨?_, ?_, ?_, ?_⟩
    · have h : engine (f + 1) HandCall.coldC c2cycle = engine f HandCall.hotLoopC c2cycle := rfl
      rw [h]
      exact ih.2.1
    · simp only [engine]
      rw [ih.2.2.1]
      rfl
    · simp only [engine]
      rw [ih.2.2.2]
      rfl
    · simp only [engine]
      rw [ih.1]
      rfl

theorem c2b_cold_timeout (f : Nat) : engine f HandCall.coldC c2b = Res.timeout := by
  cases f with
  | zero => rfl
  | succ f =>
    have h : engine (f + 1) HandCall.coldC c2b = engine f HandCall.hotLoopC c2cycle := rfl
    rw [h]
    exact (c2cycle_timeout f).2.1

theorem c2b_evict_timeout (f : Nat) : engine f HandCall.evictC c2b = Res.timeout := by
  cases f with
  | zero => rfl
  | succ f =>
    simp only [engine]
    rw [c2b_cold_timeout f]
    rfl

theorem meta_add_evict_timeout (f : Nat) (s : Cache) (e : metaEntry)
    (h : engine f HandCall.evictC s = Res.timeout) :
    meta_add (f + 1) s e = Res.timeout := by
  simp only [meta_add, h]

theorem c2b_diverges : SetDiverges c2b "b" (some 2) := by
  intro fuel
  have h : Set fuel c2b "b" (some 2) =
      (match meta_add fuel c2b ⟨pageType.ptCold, "b", some 2, false⟩ with
       | Res.ok s1 => Res.ok { s1 with count_cold := s1.count_cold + 1 }
       | r => r) := rfl
  rw [h]
  cases fuel with
  | zero => rfl
  | succ f =>
    rw [meta_add_evict_timeout f c2b _ (c2b_evict_timeout f)]

/-- C2: the claim states that every call to `set` on a cache built with
`new(size)`, `size ≥ 1`, terminates.  The code violates it: on a cache of
size 1 holding one referenced cold page, inserting a fresh key promotes the
page to hot and then `evict` livelocks — `hand_cold` skips the hot node and
returns the state unchanged while the guard `mem_max ≤ count_hot+count_cold`
stays true, and the `hand_hot`/`hand_test`/`hand_cold` mutual recursion never
advances.  The trace `New 1; set a 1; get a; set b 2` reaches the divergence:
the final `set` times out for every amount of fuel. -/
theorem C2_set_livelock :
    Set 2 (New 1) "a" (some 1) = Res.ok c2a ∧
    Get c2a "a" = (c2b, some 1) ∧
    SetDiverges c2b "b" (some 2) :=
  ⟨by decide, by decide, c2b_diverges⟩

/-- C3 (counterexample): the claim says `get` returns the miss sentinel iff
the key is absent or its node is in Test state, and otherwise sets the ref
bit.  After `New 1; set a nil` the key `a` is present with a Cold node, yet
`get a` returns the miss sentinel and does not set the ref bit. -/
theorem C3_counterexample :
    Set 2 (New 1) "a" none = Res.ok coldNilState ∧
    mapGet coldNilState "a" = some 0 ∧
    (entryOf coldNilState 0).ptype = pageType.ptCold ∧
    (Get coldNilState "a").2 = none ∧
    (Get coldNilState "a").1 = coldNilState := by decide

/-- C3 (amended): `get(key)` returns the miss sentinel iff the key is absent
from the index or its node has no stored value (every Test node, but also a
resident node whose stored value is nil); otherwise it sets the node's ref
bit to true and returns the stored value. -/
theorem C3_get_miss_iff (s : Cache) (k : String) :
    ((Get s k).2 = none ↔
      mapGet s k = none ∨ ∃ id, mapGet s k = some id ∧ (entryOf s id).val = none) ∧
    (∀ id, mapGet s k = some id → (entryOf s id).val ≠ none →
      (Get s k).2 = (entryOf s id).val ∧
      (Get s k).1 = setEntry s id { entryOf s id with ref := true }) := by
  cases h : mapGet s k with
  | none =>
    constructor
    · simp [Get, h]
    · intro id hid
      exact absurd hid (by simp)
  | some id0 =>
    by_cases hv : (entryOf s id0).val = none
    · constructor
      · simp [Get, h, hv]
      · intro id hid hne
        injection hid with hh
        subst hh
        exact absurd hv hne
    · constructor
      · simp [Get, h, hv]
      · intro id hid hne
        injection hid with hh
        subst hh
        simp [Get, h, hv]

theorem C3_get_miss_iff_witness :
    (Get c3w "a").2 = (entryOf c3w 0).val ∧
    (Get c3w "a").1 = setEntry c3w 0 { entryOf c3w 0 with ref := true } :=
  (C3_get_miss_iff c3w "a").2 0 rfl (by decide)

/-- C4: `get` leaves the ring sequence, all three hands and their indices,
all three counters, `mem_max`, `mem_cold` and the key index unchanged; the
only possible mutation is setting the ref bit of the looked-up node. -/
theorem C4_get_frame (s : Cache) (k : String) :
    (Get s k).1.meta = s.meta ∧
    (Get s k).1.hand_pos_hot = s.hand_pos_hot ∧
    (Get s k).1.hand_pos_cold = s.hand_pos_cold ∧
    (Get s k).1.hand_pos_test = s.hand_pos_test ∧
    (Get s k).1.hand_idx_hot = s.hand_idx_hot ∧
    (Get s k).1.hand_idx_cold = s.hand_idx_cold ∧
    (Get s k).1.hand_idx_test = s.hand_idx_test ∧
    (Get s k).1.count_hot = s.count_hot ∧
    (Get s k).1.count_cold = s.count_cold ∧
    (Get s k).1.count_test = s.count_test ∧
    (Get s k).1.mem_max = s.mem_max ∧
    (Get s k).1.mem_cold = s.mem_cold ∧
    (Get s k).1.metaKeys = s.metaKeys ∧
    ((Get s k).1 = s ∨
      ∃ id, mapGet s k = some id ∧
        (Get s k).1 = setEntry s id { entryOf s id with ref := true }) := by
  cases h : mapGet s k with
  | none =>
    simp [Get, h]
  | some id =>
    by_cases hv : (entryOf s id).val = none
    · simp [Get, h, hv]
    · simp [Get, h, hv, setEntry]

/-- C7 (counterexample): the claim says that after every public call, a ring
node has `ptype = Test` iff its value is absent.  After `New 1; set a nil`
the sole ring node is Cold with an absent value. -/
theorem C7_counterexample :
    Set 2 (New 1) "a" none = Res.ok coldNilState ∧
    (0 : Nat) ∈ coldNilState.meta ∧
    (entryOf coldNilState 0).ptype = pageType.ptCold ∧
    (entryOf coldNilState 0).val = none := by decide

/-- C8 (counterexample): the claim says that after `meta_add` on a non-empty
ring each of the three hands still denotes the node it denoted before the
insertion.  Inserting `b` into a one-node ring (no eviction is needed, so
the insertion is the whole of `meta_add`) moves `hand_pos_cold` onto the
newly created node 1, a node that did not exist before the call, because the
cold hand coincided with the hot hand. -/
theorem C8_counterexample :
    Set 3 (New 2) "a" (some 1) = Res.ok c8pre ∧
    c8pre.count_hot + c8pre.count_cold < c8pre.mem_max ∧
    c8pre.hand_pos_cold = some 0 ∧
    c8pre.hand_pos_hot = some 0 ∧
    Set 3 c8pre "b" (some 2) = Res.ok c8post ∧
    c8post.meta = [1, 0] ∧
    (1 : Nat) ∉ c8pre.meta ∧
    c8post.hand_pos_cold = some 1 := by decide

/-- C5 (counterexample): the claim says `set` of a key in Test state
decrements `count_test`.  When the cache is at capacity the re-insertion
first evicts, and the eviction can demote a cold page into Test shadow, so
the net change of `count_test` over the call is zero, not a decrement. -/
theorem C5_counterexample :
    runSets 9 (New 2) [("a", some 1), ("b", some 2), ("c", some 3)] = Res.ok c5pre ∧
    mapGet c5pre "b" = some 1 ∧
    (entryOf c5pre 1).ptype = pageType.ptTest ∧
    c5pre.count_test = 1 ∧
    Set 9 c5pre "b" (some 99) = Res.ok c5post ∧
    c5post.count_test = 1 := by decide

/-- C9 (counterexample): the claim says `new` with `size < 1` fails at
construction rather than returning a usable handle.  The code performs no
validation: `New 0` returns an ordinary cache record and `get` operates on
it, returning the miss sentinel. -/
theorem C9_counterexample :
    New 0 = { mem_max := 0, mem_cold := 0, meta := [], entries := [], metaKeys := [],
              hand_pos_hot := none, hand_pos_cold := none, hand_pos_test := none,
              hand_idx_hot := 0, hand_idx_cold := 0, hand_idx_test := 0,
              count_hot := 0, count_cold := 0, count_test := 0, nextId := 0 } ∧
    Get (New 0) "x" = (New 0, none) := by decide

/-- C9 (amended): `new` performs no size validation.  For every `size < 1`
it returns the handle `{mem_max = mem_cold = size, empty ring and index,
nil hands, zero counts}`; the misuse becomes fatal only at the first `set`
call, which dereferences the nil cold hand and panics (given enough fuel to
reach the dereference; with less fuel the model times out). -/
theorem C9_new_no_validation (size : Int) (hsz : size ≤ 0) (k : String) (v : Option Int)
    (fuel : Nat) (hf : 3 ≤ fuel) :
    New size = { mem_max := size, mem_cold := size, meta := [], entries := [], metaKeys := [],
                 hand_pos_hot := none, hand_pos_cold := none, hand_pos_test := none,
                 hand_idx_hot := 0, hand_idx_cold := 0, hand_idx_test := 0,
                 count_hot := 0, count_cold := 0, count_test := 0, nextId := 0 } ∧
    Set fuel (New size) k v = Res.panic := by
  refine ⟨rfl, ?_⟩
  obtain ⟨f, rfl⟩ : ∃ f, fuel = f + 3 := ⟨fuel - 3, by omega⟩
  have h1 : Set (f + 3) (New size) k v =
      (match meta_add (f + 3) (New size) ⟨pageType.ptCold, k, v, false⟩ with
       | Res.ok s1 => Res.ok { s1 with count_cold := s1.count_cold + 1 }
       | r => r) := rfl
  have h2 : engine (f + 2) HandCall.evictC (New size) = Res.panic := by
    simp only [engine, New]
    rw [if_pos (show size ≤ 0 + 0 by omega)]
  have h4 : meta_add (f + 3) (New size) (⟨pageType.ptCold, k, v, false⟩ : metaEntry) =
      Res.panic := by
    simp only [meta_add, h2]
  rw [h1, h4]

theorem alookup_ains_self {κ α : Type} [DecidableEq κ] (l : List (κ × α)) (k : κ) (a : α) :
    alookup (ains l k a) k = some a := by
  induction l with
  | nil => simp [ains, alookup]
  | cons p t ih =>
    by_cases hk : p.1 = k
    · simp [ains, hk, alookup]
    · simp [ains, hk, alookup, ih]

theorem alookup_ains_ne {κ α : Type} [DecidableEq κ] (l : List (κ × α)) (k k' : κ) (a : α)
    (h : k' ≠ k) : alookup (ains l k a) k' = alookup l k' := by
  induction l with
  | nil =>
    show alookup [(k, a)] k' = alookup [] k'
    simp only [alookup]
    rw [if_neg (fun hh : k = k' => h hh.symm)]
  | cons p t ih =>
    by_cases hk : p.1 = k
    · rw [ains, if_pos hk]
      show alookup ((k, a) :: t) k' = alookup (p :: t) k'
      simp only [alookup]
      rw [if_neg (fun hh : k = k' => h hh.symm),
        if_neg (fun hh : p.1 = k' => h (hh.symm.trans hk))]
    · rw [ains, if_neg hk]
      show alookup ((p.1, p.2) :: ains t k a) k' = alookup (p :: t) k'
      by_cases hk' : p.1 = k'
      · simp only [alookup]
        rw [if_pos hk', if_pos hk']
      · simp only [alookup]
        rw [if_neg hk', if_neg hk', ih]

theorem alookup_aerase_ne {κ α : Type} [DecidableEq κ] (l : List (κ × α)) (k k' : κ)
    (h : k' ≠ k) : alookup (aerase l k) k' = alookup l k' := by
  induction l with
  | nil => rfl
  | cons p t ih =>
    by_cases hk : p.1 = k
    · rw [aerase, if_pos hk]
      show alookup t k' = alookup (p :: t) k'
      conv_rhs => rw [alookup]
      rw [if_neg (fun hh : p.1 = k' => h (hh.symm.trans hk))]
    · rw [aerase, if_neg hk]
      show alookup ((p.1, p.2) :: aerase t k) k' = alookup (p :: t) k'
      by_cases hk' : p.1 = k'
      · simp only [alookup]
        rw [if_pos hk', if_pos hk']
      · simp only [alookup]
        rw [if_neg hk', if_neg hk', ih]

theorem alookup_eq_none_of_not_mem_keys {κ α : Type} [DecidableEq κ]
    (l : List (κ × α)) (k : κ) (h : k ∉ l.map Prod.fst) : alookup l k = none := by
  induction l with
  | nil => rfl
  | cons p t ih =>
    simp only [List.map_cons, List.mem_cons, not_or] at h
    rw [alookup, if_neg (fun hh => h.1 hh.symm)]
    exact ih h.2

theorem alookup_aerase_self {κ α : Type} [DecidableEq κ] (l : List (κ × α)) (k : κ)
    (h : (l.map Prod.fst).Nodup) : alookup (aerase l k) k = none := by
  induction l with
  | nil => rfl
  | cons p t ih =>
    simp only [List.map_cons, List.nodup_cons] at h
    by_cases hk : p.1 = k
    · rw [aerase, if_pos hk]
      exact alookup_eq_none_of_not_mem_keys t k (hk ▸ h.1)
    · rw [aerase, if_neg hk, alookup, if_neg hk]
      exact ih h.2

theorem mem_of_mem_aerase {κ α : Type} [DecidableEq κ]
    {x : κ × α} {l : List (κ × α)} {k : κ} (hx : x ∈ aerase l k) : x ∈ l := by
  induction l with
  | nil => simp [aerase] at hx
  | cons q u ihq =>
    by_cases hq : q.1 = k
    · rw [aerase, if_pos hq] at hx
      exact List.mem_cons_of_mem q hx
    · rw [aerase, if_neg hq] at hx
      rcases List.mem_cons.mp hx with h1 | h2
      · exact h1 ▸ List.mem_cons_self q u
      · exact List.mem_cons_of_mem q (ihq h2)

theorem keys_nodup_aerase {κ α : Type} [DecidableEq κ] (l : List (κ × α)) (k : κ)
    (h : (l.map Prod.fst).Nodup) : ((aerase l k).map Prod.fst).Nodup := by
  induction l with
  | nil => simp [aerase]
  | cons p t ih =>
    simp only [List.map_cons, List.nodup_cons] at h
    by_cases hk : p.1 = k
    · rw [aerase, if_pos hk]
      exact h.2
    · rw [aerase, if_neg hk]
      simp only [List.map_cons, List.nodup_cons]
      refine ⟨fun hm => ?_, ih h.2⟩
      obtain ⟨x, hx1, hx2⟩ := List.mem_map.mp hm
      exact h.1 (List.mem_map.mpr ⟨x, mem_of_mem_aerase hx1, hx2⟩)

theorem mem_of_mem_ains {κ α : Type} [DecidableEq κ]
    {x : κ × α} {l : List (κ × α)} {k : κ} {a : α} (hx : x ∈ ains l k a) :
    x ∈ l ∨ x = (k, a) := by
  induction l with
  | nil => simpa [ains] using hx
  | cons q u ihq =>
    by_cases hq : q.1 = k
    · rw [ains, if_pos hq] at hx
      rcases List.mem_cons.mp hx with h1 | h2
      · exact Or.inr h1
      · exact Or.inl (List.mem_cons_of_mem q h2)
    · rw [ains, if_neg hq] at hx
      rcases List.mem_cons.mp hx with h1 | h2
      · exact Or.inl (h1 ▸ List.mem_cons_self q u)
      · rcases ihq h2 with h3 | h3
        · exact Or.inl (List.mem_cons_of_mem q h3)
        · exact Or.inr h3

theorem keys_nodup_ains {κ α : Type} [DecidableEq κ] (l : List (κ × α)) (k : κ) (a : α)
    (h : (l.map Prod.fst).Nodup) : ((ains l k a).map Prod.fst).Nodup := by
  induction l with
  | nil => simp [ains]
  | cons p t ih =>
    simp only [List.map_cons, List.nodup_cons] at h
    by_cases hk : p.1 = k
    · rw [ains, if_pos hk]
      simp only [List.map_cons, List.nodup_cons]
      exact ⟨hk ▸ h.1, h.2⟩
    · rw [ains, if_neg hk]
      simp only [List.map_cons, List.nodup_cons]
      refine ⟨fun hm => ?_, ih h.2⟩
      obtain ⟨x, hx1, hx2⟩ := List.mem_map.mp hm
      rcases mem_of_mem_ains hx1 with h3 | h3
      · exact h.1 (List.mem_map.mpr ⟨x, h3, hx2⟩)
      · exact hk (by rw [← hx2, h3])

theorem length_insertBeforeL (l : List Nat) (mark fresh : Nat) (h : mark ∈ l) :
    (insertBeforeL l mark fresh).length = l.length + 1 := by
  induction l with
  | nil => simp at h
  | cons a t ih =>
    by_cases ha : a = mark
    · simp [insertBeforeL, ha]
    · rcases List.mem_cons.mp h with h1 | h2
      · exact absurd h1.symm ha
      · simp [insertBeforeL, ha, ih h2]

theorem insertBeforeL_of_not_mem (l : List Nat) (mark fresh : Nat) (h : mark ∉ l) :
    insertBeforeL l mark fresh = l := by
  induction l with
  | nil => rfl
  | cons a t ih =>
    simp only [List.mem_cons, not_or] at h
    rw [insertBeforeL, if_neg (fun hh : a = mark => h.1 hh.symm), ih h.2]

theorem mem_insertBeforeL {x : Nat} (l : List Nat) (mark fresh : Nat)
    (h : x ∈ insertBeforeL l mark fresh) : x ∈ l ∨ x = fresh := by
  induction l with
  | nil => simp [insertBeforeL] at h
  | cons a t ih =>
    by_cases ha : a = mark
    · rw [insertBeforeL, if_pos ha] at h
      rcases List.mem_cons.mp h with h1 | h2
      · exact Or.inr h1
      · exact Or.inl h2
    · rw [insertBeforeL, if_neg ha] at h
      rcases List.mem_cons.mp h with h1 | h2
      · exact Or.inl (List.mem_cons.mpr (Or.inl h1))
      · rcases ih h2 with h3 | h3
        · exact Or.inl (List.mem_cons.mpr (Or.inr h3))
        · exact Or.inr h3

theorem mem_insertBeforeL_of_mem {x : Nat} (l : List Nat) (mark fresh : Nat)
    (h : x ∈ l) : x ∈ insertBeforeL l mark fresh := by
  induction l with
  | nil => simp at h
  | cons a t ih =>
    by_cases ha : a = mark
    · rw [insertBeforeL, if_pos ha]
      exact List.mem_cons_of_mem fresh h
    · rw [insertBeforeL, if_neg ha]
      rcases List.mem_cons.mp h with h1 | h2
      · exact List.mem_cons.mpr (Or.inl h1)
      · exact List.mem_cons.mpr (Or.inr (ih h2))

theorem nodup_insertBeforeL (l : List Nat) (mark fresh : Nat)
    (hn : l.Nodup) (hf : fresh ∉ l) : (insertBeforeL l mark fresh).Nodup := by
  induction l with
  | nil => simp [insertBeforeL]
  | cons a t ih =>
    simp only [List.nodup_cons] at hn
    have hf1 : fresh ≠ a := fun hh => hf (by rw [hh]; exact List.mem_cons_self a t)
    have hf2 : fresh ∉ t := fun hh => hf (List.mem_cons_of_mem a hh)
    by_cases ha : a = mark
    · rw [insertBeforeL, if_pos ha]
      exact List.nodup_cons.mpr ⟨hf, List.nodup_cons.mpr ⟨hn.1, hn.2⟩⟩
    · rw [insertBeforeL, if_neg ha]
      refine List.nodup_cons.mpr ⟨?_, ih hn.2 hf2⟩
      intro hm
      rcases mem_insertBeforeL t mark fresh hm with h1 | h1
      · exact hn.1 h1
      · exact hf1 h1.symm

theorem listPrev_of_not_mem (l : List Nat) (id : Nat) (h : id ∉ l) :
    listPrev l id = none := by
  cases l with
  | nil => rfl
  | cons a t =>
    simp only [List.mem_cons, not_or] at h
    rw [listPrev, if_neg (fun hh => h.1 hh.symm)]
    have aux : ∀ (p : Nat) (u : List Nat), id ∉ u → listPrevAux p u id = none := by
      intro p u
      induction u generalizing p with
      | nil => intro _; rfl
      | cons b v ih =>
        intro hu
        simp only [List.mem_cons, not_or] at hu
        rw [listPrevAux, if_neg (fun hh => hu.1 hh.symm)]
        exact ih b hu.2
    exact aux a t h.2

theorem tailAdvCold_frame (s s' : Cache) (h : tailAdvCold s = Res.ok s') :
    TailFrame s s' ∧ s'.hand_pos_hot = s.hand_pos_hot := by
  simp only [tailAdvCold] at h
  repeat' split at h
  all_goals first
    | exact Res.noConfusion h
    | (injection h with h2; subst h2;
       exact ⟨⟨rfl, rfl, rfl, rfl, rfl, rfl, rfl, rfl, rfl⟩, rfl⟩)

theorem tailAdvTest_frame (s s' : Cache) (h : tailAdvTest s = Res.ok s') :
    TailFrame s s' ∧ s'.hand_pos_hot = s.hand_pos_hot := by
  simp only [tailAdvTest] at h
  repeat' split at h
  all_goals first
    | exact Res.noConfusion h
    | (injection h with h2; subst h2;
       exact ⟨⟨rfl, rfl, rfl, rfl, rfl, rfl, rfl, rfl, rfl⟩, rfl⟩)

theorem tailAdvHot_frame (s s' : Cache) (h : tailAdvHot s = Res.ok s') :
    TailFrame s s' := by
  simp only [tailAdvHot] at h
  repeat' split at h
  all_goals first
    | exact Res.noConfusion h
    | (injection h with h2; subst h2;
       exact ⟨rfl, rfl, rfl, rfl, rfl, rfl, rfl, rfl, rfl⟩)

theorem TailFrame.comp {s t u : Cache} (h1 : TailFrame s t) (h2 : TailFrame t u) :
    TailFrame s u := by
  obtain ⟨a1, a2, a3, a4, a5, a6, a7, a8, a9⟩ := h1
  obtain ⟨b1, b2, b3, b4, b5, b6, b7, b8, b9⟩ := h2
  exact ⟨b1.trans a1, b2.trans a2, b3.trans a3, b4.trans a4, b5.trans a5,
    b6.trans a6, b7.trans a7, b8.trans a8, b9.trans a9⟩

theorem metaAddTail_frame (s s' : Cache) (h : metaAddTail s = Res.ok s') :
    TailFrame s s' := by
  simp only [metaAddTail] at h
  split at h
  case h_1 s1 h1 =>
    split at h
    case h_1 s2 h2 =>
      exact ((tailAdvCold_frame s s1 h1).1.comp (tailAdvTest_frame s1 s2 h2).1).comp
        (tailAdvHot_frame s2 s' h)
    all_goals (rename_i hno; exact absurd h (hno s'))
  all_goals (rename_i hno; exact absurd h (hno s'))

theorem metaAddTail_no_hot (s : Cache) (h0 : s.hand_pos_hot = none) (s' : Cache) :
    metaAddTail s ≠ Res.ok s' := by
  intro h
  simp only [metaAddTail] at h
  split at h
  case h_1 s1 h1 =>
    split at h
    case h_1 s2 h2 =>
      have e1 := (tailAdvCold_frame s s1 h1).2
      have e2 := (tailAdvTest_frame s1 s2 h2).2
      have e0 : s2.hand_pos_hot = none := by rw [e2, e1, h0]
      simp only [tailAdvHot, e0] at h
      exact Res.noConfusion h
    all_goals (rename_i hno; exact absurd h (hno s'))
  all_goals (rename_i hno; exact absurd h (hno s'))

theorem meta_del_spec (s : Cache) (k : String) (s' : Cache) (h : meta_del s k = Res.ok s') :
    s'.mem_max = s.mem_max ∧ s'.mem_cold = s.mem_cold ∧
    s'.count_hot = s.count_hot ∧ s'.count_cold = s.count_cold ∧
    s'.count_test = s.count_test ∧ s'.nextId = s.nextId ∧
    s'.entries = s.entries ∧ s'.metaKeys = aerase s.metaKeys k ∧
    ∃ id, alookup s.metaKeys k = some (some id) ∧ s'.meta = s.meta.erase id := by
  simp only [meta_del] at h
  repeat' split at h
  all_goals first
    | exact Res.noConfusion h
    | (injection h with h2; subst h2
       refine ⟨rfl, rfl, rfl, rfl, rfl, rfl, rfl, rfl, ⟨_, ?_, rfl⟩⟩
       assumption)

theorem INV0.transport {s s' : Cache} (hI : INV0 s) (h6 : s'.meta = s.meta)
    (h7 : s'.metaKeys = s.metaKeys) (h2 : s'.nextId = s.nextId) : INV0 s' := by
  constructor
  · rw [h6]; exact hI.nodup
  · intro i hi
    rw [h2]
    exact hI.bound i (h6 ▸ hi)
  · rw [h7]; exact hI.keysNodup
  · intro k id hl
    rw [h7] at hl
    have h3 := hI.stored k id hl
    exact ⟨h6.symm ▸ h3.1, h2.symm ▸ h3.2⟩
  · intro k1 k2 id ha hb
    rw [h7] at ha hb
    exact hI.inj k1 k2 id ha hb

theorem EngineStep.refl (s : Cache) : EngineStep s s :=
  ⟨rfl, rfl, id, id, id, le_refl _, fun hI => ⟨hI, rfl⟩⟩

theorem EngineStep.trans {s t u : Cache} (h1 : EngineStep s t) (h2 : EngineStep t u) :
    EngineStep s u := by
  obtain ⟨a1, a2, a3, a4, a5, a6, a7⟩ := h1
  obtain ⟨b1, b2, b3, b4, b5, b6, b7⟩ := h2
  refine ⟨b1.trans a1, b2.trans a2, fun h => b3 (a3 h), ?_, ?_, le_trans b6 a6, ?_⟩
  · intro h
    have := a4 h
    exact (b1.trans a1) ▸ (b4 (by rw [a1] at this ⊢; exact this))
  · intro h
    have := a5 h
    exact b5 this
  · intro hI
    obtain ⟨hI2, hd⟩ := a7 hI
    obtain ⟨hI3, hd2⟩ := b7 hI2
    exact ⟨hI3, hd2.trans hd⟩

theorem engineStep_local {s s' : Cache}
    (h1 : s'.mem_max = s.mem_max) (h2 : s'.nextId = s.nextId)
    (h3 : s'.mem_cold = s.mem_cold) (h4 : s'.count_test = s.count_test)
    (h5 : s'.count_hot + s'.count_cold ≤ s.count_hot + s.count_cold)
    (h6 : s'.meta = s.meta) (h7 : s'.metaKeys = s.metaKeys)
    (h8 : Dval s' = Dval s) :
    EngineStep s s' := by
  refine ⟨h1, h2, ?_, ?_, ?_, h5, ?_⟩
  · intro hh; rw [h3]; exact hh
  · intro hh; rw [h3, h1]; exact hh
  · intro hh; rw [h4, h1]; exact hh
  · intro hI
    exact ⟨INV0.transport hI h6 h7 h2, h8⟩

theorem meta_del_INV0 (s : Cache) (k : String) (s' : Cache)
    (h : meta_del s k = Res.ok s') (hI : INV0 s) :
    INV0 s' ∧ (s'.meta.length : Int) = (s.meta.length : Int) - 1 := by
  obtain ⟨_, _, _, _, _, hnext, _, hmk, id, hlook, hmeta⟩ := meta_del_spec s k s' h
  have hidmem : id ∈ s.meta := (hI.stored k id hlook).1
  constructor
  · constructor
    · rw [hmeta]; exact hI.nodup.erase id
    · intro i hi
      rw [hnext]
      exact hI.bound i (List.mem_of_mem_erase (hmeta ▸ hi))
    · rw [hmk]; exact keys_nodup_aerase _ _ hI.keysNodup
    · intro k' id' hl
      rw [hmk] at hl
      by_cases hk : k' = k
      · subst hk
        rw [alookup_aerase_self _ _ hI.keysNodup] at hl
        exact Option.noConfusion hl
      · rw [alookup_aerase_ne _ _ _ hk] at hl
        have h2 := hI.stored k' id' hl
        have hne : id' ≠ id := by
          intro he
          subst he
          exact hk (hI.inj k' k id' hl hlook)
        refine ⟨?_, by rw [hnext]; exact h2.2⟩
        rw [hmeta]
        exact (List.mem_erase_of_ne hne).mpr h2.1
    · intro k1 k2 id' h1 h2
      rw [hmk] at h1 h2
      by_cases hk1 : k1 = k
      · subst hk1
        rw [alookup_aerase_self _ _ hI.keysNodup] at h1
        exact Option.noConfusion h1
      · by_cases hk2 : k2 = k
        · subst hk2
          rw [alookup_aerase_self _ _ hI.keysNodup] at h2
          exact Option.noConfusion h2
        · rw [alookup_aerase_ne _ _ _ hk1] at h1
          rw [alookup_aerase_ne _ _ _ hk2] at h2
          exact hI.inj k1 k2 id' h1 h2
  · rw [hmeta]
    have h3 := List.length_erase_of_mem hidmem
    have hpos : 0 < s.meta.length := List.length_pos_of_mem hidmem
    omega

theorem coldAdvance_step (s1 s2 : Cache) (h : coldAdvance s1 = Res.ok s2) :
    EngineStep s1 s2 := by
  simp only [coldAdvance] at h
  repeat' split at h
  all_goals first
    | exact Res.noConfusion h
    | (injection h with h2; subst h2
       exact engineStep_local rfl rfl rfl rfl (le_refl _) rfl rfl rfl)

theorem hotBody_step (s0 s' : Cache) (h : hotBody s0 = Res.ok s') : EngineStep s0 s' := by
  simp only [hotBody] at h
  repeat' split at h
  all_goals first
    | exact Res.noConfusion h
    | (injection h with h2; subst h2
       refine engineStep_local rfl rfl rfl rfl ?_ rfl rfl ?_ <;>
         (try simp only [setEntry, Dval]) <;> omega)

theorem testLoop_exit : ∀ (f : Nat) (s s' : Cache),
    engine f HandCall.testLoopC s = Res.ok s' → s'.count_test ≤ s'.mem_max := by
  intro f
  induction f with
  | zero => intro s s' h; exact Res.noConfusion h
  | succ f ih =>
    intro s s' h
    simp only [engine] at h
    split at h
    · split at h
      case h_1 t ht => exact ih t s' h
      all_goals (rename_i hno; exact absurd h (hno s'))
    · rename_i hguard
      injection h with h2
      subst h2
      omega

theorem evict_exit : ∀ (f : Nat) (s s' : Cache),
    engine f HandCall.evictC s = Res.ok s' → s'.count_hot + s'.count_cold < s'.mem_max := by
  intro f
  induction f with
  | zero => intro s s' h; exact Res.noConfusion h
  | succ f ih =>
    intro s s' h
    simp only [engine] at h
    split at h
    · split at h
      case h_1 t ht => exact ih t s' h
      all_goals (rename_i hno; exact absurd h (hno s'))
    · rename_i hguard
      injection h with h2
      subst h2
      omega

theorem demote_testLoop_step {s dem s1 : Cache}
    (hd : EngineStep dem s1) (hx : s1.count_test ≤ s1.mem_max)
    (hmm : dem.mem_max = s.mem_max) (hni : dem.nextId = s.nextId)
    (hmc : dem.mem_cold = s.mem_cold)
    (hsum : dem.count_hot + dem.count_cold ≤ s.count_hot + s.count_cold)
    (hmeta : dem.meta = s.meta) (hmk : dem.metaKeys = s.metaKeys)
    (hD : Dval dem = Dval s) :
    EngineStep s s1 := by
  obtain ⟨d1, d2, d3, d4, d5, d6, d7⟩ := hd
  refine ⟨d1.trans hmm, d2.trans hni, ?_, ?_, fun _ => hx, by omega, ?_⟩
  · intro hh
    exact d3 (by omega)
  · intro hh
    exact d4 (by omega)
  · intro hI
    obtain ⟨hI2, hDd⟩ := d7 (INV0.transport hI hmeta hmk hni)
    exact ⟨hI2, hDd.trans hD⟩

theorem testDelete_step (s0 s2 : Cache) (key : String) (prev : Option Nat) (pidx : Int)
    (hdel : meta_del s0 key = Res.ok s2) :
    EngineStep s0 { s2 with hand_pos_test := prev, hand_idx_test := pidx,
                            count_test := s2.count_test - 1,
                            mem_cold := if 1 < s2.mem_cold then s2.mem_cold - 1 else s2.mem_cold } := by
  obtain ⟨e1, e2, e3, e4, e5, e6, e7, e8, idd, hlook, hmeta⟩ := meta_del_spec _ _ _ hdel
  refine ⟨by rw [e1], by rw [e6], ?_, ?_, ?_,
    by show s2.count_hot + s2.count_cold ≤ s0.count_hot + s0.count_cold; omega, ?_⟩
  · intro hh
    show 1 ≤ (if 1 < s2.mem_cold then s2.mem_cold - 1 else s2.mem_cold)
    split <;> omega
  · intro hh
    show (if 1 < s2.mem_cold then s2.mem_cold - 1 else s2.mem_cold) ≤ s2.mem_max
    split <;> omega
  · intro hh
    show s2.count_test - 1 ≤ s2.mem_max
    omega
  · intro hI
    obtain ⟨hI2, hlen⟩ := meta_del_INV0 _ _ _ hdel hI
    refine ⟨INV0.transport hI2 rfl rfl rfl, ?_⟩
    show (s2.meta.length : Int) - (s2.count_hot + s2.count_cold + (s2.count_test - 1))
      = Dval s0
    simp only [Dval]
    omega

theorem testBody_step (s0 s' : Cache) (h : testBody s0 = Res.ok s') : EngineStep s0 s' := by
  simp only [testBody] at h
  split at h
  case h_1 => exact Res.noConfusion h
  case h_2 tid htid =>
    split at h
    case h_1 s1 heq1 =>
      have hstep2 : EngineStep s1 s' := by
        repeat' split at h
        all_goals first
          | exact Res.noConfusion h
          | (injection h with h2; subst h2
             exact engineStep_local rfl rfl rfl rfl (le_refl _) rfl rfl rfl)
      have hstep1 : EngineStep s0 s1 := by
        split at heq1
        · split at heq1
          case h_1 s2 hdel =>
            injection heq1 with h2
            subst h2
            exact testDelete_step s0 s2 _ _ _ hdel
          all_goals first
            | exact Res.noConfusion heq1
            | (rename_i hno; exact absurd heq1 (hno s1))
        · injection heq1 with h2
          subst h2
          exact EngineStep.refl _
      exact hstep1.trans hstep2
    all_goals (rename_i hno; exact absurd h (hno s'))

theorem engine_step : ∀ (f : Nat) (c : HandCall) (s s' : Cache),
    engine f c s = Res.ok s' → EngineStep s s' := by
  intro f
  induction f with
  | zero => intro c s s' h; exact Res.noConfusion h
  | succ f ih =>
    intro c s s' h
    cases c with
    | evictC =>
      simp only [engine] at h
      split at h
      · split at h
        case h_1 t ht => exact (ih HandCall.coldC s t ht).trans (ih HandCall.evictC t s' h)
        all_goals (rename_i hno; exact absurd h (hno s'))
      · injection h with h2
        subst h2
        exact EngineStep.refl _
    | testLoopC =>
      simp only [engine] at h
      split at h
      · split at h
        case h_1 t ht => exact (ih HandCall.testC s t ht).trans (ih HandCall.testLoopC t s' h)
        all_goals (rename_i hno; exact absurd h (hno s'))
      · injection h with h2
        subst h2
        exact EngineStep.refl _
    | hotLoopC =>
      simp only [engine] at h
      split at h
      · split at h
        case h_1 t ht => exact (ih HandCall.hotC s t ht).trans (ih HandCall.hotLoopC t s' h)
        all_goals (rename_i hno; exact absurd h (hno s'))
      · injection h with h2
        subst h2
        exact EngineStep.refl _
    | hotC =>
      simp only [engine] at h
      split at h
      case h_1 s0 heq0 =>
        have e2 := hotBody_step s0 s' h
        split at heq0
        · exact (ih HandCall.testC s s0 heq0).trans e2
        · injection heq0 with h2
          subst h2
          exact e2
      all_goals (rename_i hno; exact absurd h (hno s'))
    | testC =>
      simp only [engine] at h
      split at h
      case h_1 s0 heq0 =>
        have e2 := testBody_step s0 s' h
        split at heq0
        · exact (ih HandCall.coldC s s0 heq0).trans e2
        · injection heq0 with h2
          subst h2
          exact e2
      all_goals (rename_i hno; exact absurd h (hno s'))
    | coldC =>
      simp only [engine] at h
      split at h
      case h_1 => exact Res.noConfusion h
      case h_2 cid hcid =>
        split at h
        case h_1 s1 heq1 =>
          have hrest : EngineStep s1 s' := by
            split at h
            case h_1 s2 hadv =>
              exact (coldAdvance_step s1 s2 hadv).trans (ih HandCall.hotLoopC s2 s' h)
            all_goals exact Res.noConfusion h
          have hfirst : EngineStep s s1 := by
            split at heq1
            · split at heq1
              · injection heq1 with h2
                subst h2
                refine engineStep_local rfl rfl rfl rfl ?_ rfl rfl ?_ <;>
                  (try simp only [setEntry, Dval]) <;> omega
              · have hd := ih HandCall.testLoopC _ s1 heq1
                have hx := testLoop_exit f _ s1 heq1
                refine demote_testLoop_step hd hx rfl rfl rfl ?_ rfl rfl ?_ <;>
                  (try simp only [setEntry, Dval]) <;> omega
            · injection heq1 with h2
              subst h2
              exact EngineStep.refl _
          exact hfirst.trans hrest
        all_goals (rename_i hno; exact absurd h (hno s'))

theorem fresh_mem_insertBeforeL (l : List Nat) (mark fresh : Nat) (h : mark ∈ l) :
    fresh ∈ insertBeforeL l mark fresh := by
  induction l with
  | nil => simp at h
  | cons a t ih =>
    by_cases ha : a = mark
    · rw [insertBeforeL, if_pos ha]
      exact List.mem_cons_self fresh (a :: t)
    · rw [insertBeforeL, if_neg ha]
      rcases List.mem_cons.mp h with h1 | h2
      · exact absurd h1.symm ha
      · exact List.mem_cons_of_mem a (ih h2)

theorem INV0.insert_facts (t : Cache) (l : List Nat) (k : String) (hI : INV0 t)
    (hm1 : ∀ x : Nat, x ∈ l → x ∈ t.meta ∨ x = t.nextId)
    (hm2 : t.nextId ∈ l) (hm3 : ∀ x ∈ t.meta, x ∈ l)
    (hnd : l.Nodup) (s' : Cache) (e1 : s'.meta = l)
    (e2 : s'.metaKeys = ains t.metaKeys k (some t.nextId))
    (e3 : s'.nextId = t.nextId + 1) : INV0 s' := by
  constructor
  · rw [e1]; exact hnd
  · intro i hi
    rw [e3]
    rw [e1] at hi
    rcases hm1 i hi with h1 | h1
    · have := hI.bound i h1
      omega
    · omega
  · rw [e2]; exact keys_nodup_ains _ _ _ hI.keysNodup
  · intro k' id hl
    rw [e2] at hl
    by_cases hk : k' = k
    · subst hk
      rw [alookup_ains_self] at hl
      injection hl with hl2
      injection hl2 with hl3
      refine ⟨by rw [e1, ← hl3]; exact hm2, by rw [e3]; omega⟩
    · rw [alookup_ains_ne _ _ _ _ hk] at hl
      have h2 := hI.stored k' id hl
      refine ⟨by rw [e1]; exact hm3 id h2.1, by rw [e3]; have := h2.2; omega⟩
  · intro k1 k2 id ha hb
    rw [e2] at ha hb
    by_cases hk1 : k1 = k
    · by_cases hk2 : k2 = k
      · rw [hk1, hk2]
      · subst hk1
        rw [alookup_ains_self] at ha
        rw [alookup_ains_ne _ _ _ _ hk2] at hb
        injection ha with ha2
        injection ha2 with ha3
        have h2 := hI.stored k2 id hb
        rw [← ha3] at h2
        have := h2.2
        omega
    · by_cases hk2 : k2 = k
      · subst hk2
        rw [alookup_ains_self] at hb
        rw [alookup_ains_ne _ _ _ _ hk1] at ha
        injection hb with hb2
        injection hb2 with hb3
        have h2 := hI.stored k1 id ha
        rw [← hb3] at h2
        have := h2.2
        omega
      · rw [alookup_ains_ne _ _ _ _ hk1] at ha
        rw [alookup_ains_ne _ _ _ _ hk2] at hb
        exact hI.inj k1 k2 id ha hb

theorem metaAddCore_step (t s' : Cache) (e : metaEntry) (hI : INV0 t)
    (h : metaAddCore t e = Res.ok s') :
    INV0 s' ∧ (s'.meta.length : Int) = (t.meta.length : Int) + 1 ∧
    s'.mem_max = t.mem_max ∧ s'.mem_cold = t.mem_cold ∧
    s'.count_hot = t.count_hot ∧ s'.count_cold = t.count_cold ∧
    s'.count_test = t.count_test ∧ s'.nextId = t.nextId + 1 := by
  have hfresh : t.nextId ∉ t.meta := by
    intro hmem
    have := hI.bound _ hmem
    omega
  simp only [metaAddCore] at h
  split at h
  case h_1 hpos =>
    obtain ⟨f1, f2, f3, f4, f5, f6, f7, f8, f9⟩ := metaAddTail_frame _ _ h
    refine ⟨?_, ?_, f1, f2, f6, f7, f8, f9⟩
    · refine INV0.insert_facts t (t.nextId :: t.meta) e.key hI ?_ ?_ ?_ ?_ s' f3 f5 f9
      · intro x hx
        rcases List.mem_cons.mp hx with h1 | h1
        · exact Or.inr h1
        · exact Or.inl h1
      · exact List.mem_cons_self _ _
      · intro x hx
        exact List.mem_cons_of_mem _ hx
      · exact List.nodup_cons.mpr ⟨hfresh, hI.nodup⟩
    · rw [f3]
      show (((t.nextId :: t.meta).length : Nat) : Int) = (t.meta.length : Int) + 1
      simp [List.length_cons]
  case h_2 hid hpos =>
    by_cases hin : hid ∈ t.meta
    · rw [if_pos hin] at h
      repeat' split at h
      all_goals first
        | exact Res.noConfusion h
        | (obtain ⟨f1, f2, f3, f4, f5, f6, f7, f8, f9⟩ := metaAddTail_frame _ _ h
           refine ⟨?_, ?_, f1, f2, f6, f7, f8, f9⟩
           · refine INV0.insert_facts t (insertBeforeL t.meta hid t.nextId) e.key hI
               ?_ ?_ ?_ ?_ s' f3 f5 f9
             · intro x hx
               exact mem_insertBeforeL _ _ _ hx
             · exact fresh_mem_insertBeforeL _ _ _ hin
             · intro x hx
               exact mem_insertBeforeL_of_mem _ _ _ hx
             · exact nodup_insertBeforeL _ _ _ hI.nodup hfresh
           · rw [f3]
             show (((insertBeforeL t.meta hid t.nextId).length : Nat) : Int)
               = (t.meta.length : Int) + 1
             rw [length_insertBeforeL _ _ _ hin]
             simp)
    · rw [if_neg hin] at h
      have hnone : listPrev t.meta hid = none := listPrev_of_not_mem _ _ hin
      repeat' split at h
      all_goals first
        | exact Res.noConfusion h
        | exact absurd h (metaAddTail_no_hot _ hnone s')

theorem C9_new_no_validation_witness :
    New 0 = { mem_max := 0, mem_cold := 0, meta := [], entries := [], metaKeys := [],
              hand_pos_hot := none, hand_pos_cold := none, hand_pos_test := none,
              hand_idx_hot := 0, hand_idx_cold := 0, hand_idx_test := 0,
              count_hot := 0, count_cold := 0, count_test := 0, nextId := 0 } ∧
    Set 3 (New 0) "x" (some 1) = Res.panic :=
  C9_new_no_validation 0 (by decide) "x" (some 1) 3 (by decide)

theorem meta_add_step (f : Nat) (s : Cache) (e : metaEntry) (s' : Cache)
    (h : meta_add f s e = Res.ok s') (hI : INV0 s) :
    INV0 s' ∧ Dval s' = Dval s + 1 ∧ s'.mem_max = s.mem_max ∧
    (1 ≤ s.mem_cold → 1 ≤ s'.mem_cold) ∧
    (s.mem_cold ≤ s.mem_max → s'.mem_cold ≤ s'.mem_max) ∧
    (s.count_test ≤ s.mem_max → s'.count_test ≤ s'.mem_max) ∧
    s'.count_hot + s'.count_cold < s'.mem_max := by
  match f with
  | 0 => exact Res.noConfusion h
  | f + 1 =>
    simp only [meta_add] at h
    split at h
    case h_1 t ht =>
      obtain ⟨e1, e2, e3, e4, e5, e6, e7⟩ := engine_step f HandCall.evictC s t ht
      have hx := evict_exit f s t ht
      obtain ⟨hIt, hD⟩ := e7 hI
      obtain ⟨g1, g2, g3, g4, g5, g6, g7, g8⟩ := metaAddCore_step t s' e hIt h
      refine ⟨g1, ?_, g3.trans e1, ?_, ?_, ?_, ?_⟩
      · simp only [Dval] at hD ⊢
        rw [g2, g5, g6, g7]
        omega
      · intro h1
        rw [g4]
        exact e3 h1
      · intro h1
        rw [g4, g3]
        exact e4 h1
      · intro h1
        rw [g7, g3]
        exact e5 h1
      · rw [g5, g6, g3]
        exact hx
    all_goals (rename_i hno; exact absurd h (hno s'))

theorem Get_callInv (s : Cache) (k : String) (hC : CallInv s) :
    CallInv (Get s k).1 ∧ (Get s k).1.mem_max = s.mem_max := by
  obtain ⟨hI, h1, h2, h3, h4, h5⟩ := hC
  simp only [Get]
  split
  · exact ⟨⟨hI, h1, h2, h3, h4, h5⟩, rfl⟩
  · split
    · exact ⟨⟨hI, h1, h2, h3, h4, h5⟩, rfl⟩
    · exact ⟨⟨hI.transport rfl rfl rfl, h1, h2, h3, h4, h5⟩, rfl⟩

theorem promote_finish (s sd se : Cache) (f : Nat) (e : metaEntry)
    (hadd : meta_add f sd e = Res.ok se) (hIsd : INV0 sd)
    (e1 : sd.mem_max = s.mem_max)
    (e2a : 1 ≤ sd.mem_cold) (e2b : sd.mem_cold ≤ s.mem_max)
    (e3 : sd.count_hot = s.count_hot) (e4 : sd.count_cold = s.count_cold)
    (e5 : sd.count_test = s.count_test - 1)
    (e6 : (sd.meta.length : Int) = (s.meta.length : Int) - 1)
    (hC : CallInv s) :
    CallInv { se with count_hot := se.count_hot + 1 } ∧ se.mem_max = s.mem_max := by
  obtain ⟨hI, h1, h2, h3, h4, h5⟩ := hC
  obtain ⟨hIse, hD, m1, m2, m3, m4, m5⟩ := meta_add_step f sd e se hadd hIsd
  refine ⟨⟨hIse.transport rfl rfl rfl, ?_, ?_, ?_, ?_, ?_⟩, m1.trans e1⟩
  · show se.count_hot + 1 + se.count_cold ≤ se.mem_max
    omega
  · show se.count_test ≤ se.mem_max
    refine m4 ?_
    rw [e5, e1]
    omega
  · show (se.meta.length : Int) - (se.count_hot + 1 + se.count_cold + se.count_test) = 0
    simp only [Dval] at hD h3
    omega
  · show 1 ≤ se.mem_cold
    exact m2 e2a
  · show se.mem_cold ≤ se.mem_max
    refine m3 ?_
    rw [e1]
    exact e2b

theorem Set_callInv (f : Nat) (s : Cache) (k : String) (v : Option Int) (s' : Cache)
    (h : Set f s k v = Res.ok s') (hC : CallInv s) :
    CallInv s' ∧ s'.mem_max = s.mem_max := by
  obtain ⟨hI, h1, h2, h3, h4, h5⟩ := hC
  simp only [Set] at h
  split at h
  case h_1 id hid =>
    split at h
    case isTrue hval =>
      by_cases hmc : s.mem_cold < s.mem_max
      · rw [if_pos hmc] at h
        split at h
        next sd hdel =>
          obtain ⟨hIsd, hlen⟩ := meta_del_INV0 _ _ _ hdel (hI.transport rfl rfl rfl)
          obtain ⟨d1, d2, d3, d4, d5, d6, _, _, _⟩ := meta_del_spec _ _ _ hdel
          have f1 : sd.mem_max = s.mem_max := d1
          have f2 : sd.mem_cold = s.mem_cold + 1 := d2
          have f3 : sd.count_hot = s.count_hot := d3
          have f4 : sd.count_cold = s.count_cold := d4
          have f5 : sd.count_test = s.count_test - 1 := d5
          have f6 : (sd.meta.length : Int) = (s.meta.length : Int) - 1 := hlen
          split at h
          case h_1 se hadd =>
            injection h with h2
            subst h2
            exact promote_finish s sd se f _ hadd hIsd f1 (by omega) (by omega)
              f3 f4 f5 f6 ⟨hI, h1, h2, h3, h4, h5⟩
          all_goals (rename_i hno; exact absurd h (hno s'))
        all_goals (rename_i hno; exact absurd h (hno s'))
      · rw [if_neg hmc] at h
        split at h
        next sd hdel =>
          obtain ⟨hIsd, hlen⟩ := meta_del_INV0 _ _ _ hdel (hI.transport rfl rfl rfl)
          obtain ⟨d1, d2, d3, d4, d5, d6, _, _, _⟩ := meta_del_spec _ _ _ hdel
          have f1 : sd.mem_max = s.mem_max := d1
          have f2 : sd.mem_cold = s.mem_cold := d2
          have f3 : sd.count_hot = s.count_hot := d3
          have f4 : sd.count_cold = s.count_cold := d4
          have f5 : sd.count_test = s.count_test - 1 := d5
          have f6 : (sd.meta.length : Int) = (s.meta.length : Int) - 1 := hlen
          split at h
          case h_1 se hadd =>
            injection h with h2
            subst h2
            exact promote_finish s sd se f _ hadd hIsd f1 (by omega) (by omega)
              f3 f4 f5 f6 ⟨hI, h1, h2, h3, h4, h5⟩
          all_goals (rename_i hno; exact absurd h (hno s'))
        all_goals (rename_i hno; exact absurd h (hno s'))
    case isFalse hval =>
      injection h with h2
      subst h2
      exact ⟨⟨hI.transport rfl rfl rfl, h1, h2, h3, h4, h5⟩, rfl⟩
  case h_2 hid =>
    split at h
    case h_1 s1 hadd =>
      obtain ⟨hIs1, hD, m1, m2, m3, m4, m5⟩ := meta_add_step f s _ s1 hadd hI
      injection h with h2
      subst h2
      refine ⟨⟨hIs1.transport rfl rfl rfl, ?_, ?_, ?_, ?_, ?_⟩, m1⟩
      · show s1.count_hot + (s1.count_cold + 1) ≤ s1.mem_max
        omega
      · show s1.count_test ≤ s1.mem_max
        exact m4 h2
      · show (s1.meta.length : Int) - (s1.count_hot + (s1.count_cold + 1) + s1.count_test) = 0
        simp only [Dval] at hD h3
        omega
      · show 1 ≤ s1.mem_cold
        exact m2 h4
      · show s1.mem_cold ≤ s1.mem_max
        exact m3 h5
    all_goals (rename_i hno; exact absurd h (hno s'))

theorem New_callInv (size : Int) (hsz : 1 ≤ size) : CallInv (New size) := by
  refine ⟨⟨?_, ?_, ?_, ?_, ?_⟩, ?_, ?_, ?_, ?_, ?_⟩
  · exact List.nodup_nil
  · intro i hi
    exact absurd hi (List.not_mem_nil i)
  · exact List.nodup_nil
  · intro k id hl
    exact Option.noConfusion hl
  · intro k1 k2 id ha hb
    exact Option.noConfusion ha
  · show (0 : Int) + 0 ≤ size
    omega
  · show (0 : Int) ≤ size
    omega
  · show (((List.nil : List Nat).length : Nat) : Int) - ((0 : Int) + 0 + 0) = 0
    simp
  · show (1 : Int) ≤ size
    exact hsz
  · show size ≤ size
    omega

theorem reaches_callInv_aux (a s : Cache) (h : Reaches a s) :
    ∀ size : Int, a = New size → 1 ≤ size → CallInv s ∧ s.mem_max = size := by
  induction h with
  | refl =>
    intro size hEq hsz
    subst hEq
    exact ⟨New_callInv size hsz, rfl⟩
  | get t k hr ih =>
    intro size hEq hsz
    obtain ⟨hC, hmm⟩ := ih size hEq hsz
    obtain ⟨hC2, hm2⟩ := Get_callInv t k hC
    exact ⟨hC2, hm2.trans hmm⟩
  | set t u f k v hr hset ih =>
    intro size hEq hsz
    obtain ⟨hC, hmm⟩ := ih size hEq hsz
    obtain ⟨hC2, hm2⟩ := Set_callInv f t k v u hset hC
    exact ⟨hC2, hm2.trans hmm⟩

theorem reaches_callInv (size : Int) (s : Cache) (hsz : 1 ≤ size)
    (h : Reaches (New size) s) : CallInv s ∧ s.mem_max = size :=
  reaches_callInv_aux (New size) s h size rfl hsz

/-- C1: on a cache built by `new(size)` with `size ≥ 1`, after every
sequence of public `get` and `set` calls that all return,
`count_hot + count_cold ≤ mem_max`, `count_test ≤ mem_max`, the number of
ring nodes equals `count_hot + count_cold + count_test`, and the ring
therefore holds at most `2·mem_max` nodes. -/
theorem C1_sizing (size : Int) (s : Cache) (hsz : 1 ≤ size)
    (h : Reaches (New size) s) :
    s.count_hot + s.count_cold ≤ s.mem_max ∧ s.count_test ≤ s.mem_max ∧
    (s.meta.length : Int) = s.count_hot + s.count_cold + s.count_test ∧
    (s.meta.length : Int) ≤ 2 * s.mem_max := by
  obtain ⟨⟨hI, h1, h2, h3, h4, h5⟩, hmm⟩ := reaches_callInv size s hsz h
  simp only [Dval] at h3
  exact ⟨h1, h2, by omega, by omega⟩

theorem C1_sizing_witness :
    (1 : Int) ≤ 2 ∧ Set 5 (New 2) "a" (some 1) = Res.ok c1w ∧
    (c1w.count_hot + c1w.count_cold ≤ c1w.mem_max ∧ c1w.count_test ≤ c1w.mem_max ∧
     (c1w.meta.length : Int) = c1w.count_hot + c1w.count_cold + c1w.count_test ∧
     (c1w.meta.length : Int) ≤ 2 * c1w.mem_max) :=
  ⟨by decide, by decide,
   C1_sizing 2 c1w (by decide)
     (Reaches.set (New 2) (New 2) c1w 5 "a" (some 1) (Reaches.refl (New 2)) (by decide))⟩

/-- C6: on a cache built by `new(size)` with `size ≥ 1`, after every
sequence of public `get` and `set` calls that all return,
`1 ≤ mem_cold ≤ mem_max`. -/
theorem C6_mem_cold_bounds (size : Int) (s : Cache) (hsz : 1 ≤ size)
    (h : Reaches (New size) s) : 1 ≤ s.mem_cold ∧ s.mem_cold ≤ s.mem_max := by
  obtain ⟨⟨hI, h1, h2, h3, h4, h5⟩, hmm⟩ := reaches_callInv size s hsz h
  exact ⟨h4, h5⟩

theorem C6_mem_cold_bounds_witness :
    (1 : Int) ≤ 3 ∧ 1 ≤ (New 3).mem_cold ∧ (New 3).mem_cold ≤ (New 3).mem_max :=
  ⟨by decide,
   (C6_mem_cold_bounds 3 (New 3) (by decide) (Reaches.refl (New 3))).1,
   (C6_mem_cold_bounds 3 (New 3) (by decide) (Reaches.refl (New 3))).2⟩

theorem evict_noop (f : Nat) (s : Cache) (hcap : s.count_hot + s.count_cold < s.mem_max) :
    engine (f + 1) HandCall.evictC s = Res.ok s := by
  simp only [engine]
  rw [if_neg (by omega)]

theorem metaAddCore_fields (t s' : Cache) (e : metaEntry)
    (h : metaAddCore t e = Res.ok s') :
    s'.entries = ains t.entries t.nextId e ∧
    s'.metaKeys = ains t.metaKeys e.key (some t.nextId) ∧
    t.nextId ∈ s'.meta ∧
    s'.count_cold = t.count_cold ∧
    (∀ x : Nat, x ∈ s'.meta → x ∈ t.meta ∨ x = t.nextId) ∧
    (∀ x : Nat, x ∈ t.meta → x ∈ s'.meta) ∧
    s'.meta.length = t.meta.length + 1 ∧
    s'.mem_max = t.mem_max ∧ s'.mem_cold = t.mem_cold ∧
    s'.count_hot = t.count_hot ∧ s'.count_test = t.count_test ∧
    s'.nextId = t.nextId + 1 := by
  simp only [metaAddCore] at h
  split at h
  case h_1 hpos =>
    obtain ⟨f1, f2, f3, f4, f5, f6, f7, f8, f9⟩ := metaAddTail_frame _ _ h
    refine ⟨f4, f5, by rw [f3]; exact List.mem_cons_self _ _, f7, ?_, ?_, ?_, f1, f2, f6, f8, f9⟩
    · intro x hx
      rw [f3] at hx
      rcases List.mem_cons.mp hx with h1 | h1
      · exact Or.inr h1
      · exact Or.inl h1
    · intro x hx
      rw [f3]
      exact List.mem_cons_of_mem _ hx
    · rw [f3]
      rfl
  case h_2 hid hpos =>
    by_cases hin : hid ∈ t.meta
    · rw [if_pos hin] at h
      repeat' split at h
      all_goals first
        | exact Res.noConfusion h
        | (obtain ⟨f1, f2, f3, f4, f5, f6, f7, f8, f9⟩ := metaAddTail_frame _ _ h
           refine ⟨f4, f5, by rw [f3]; exact fresh_mem_insertBeforeL _ _ _ hin, f7,
             ?_, ?_, ?_, f1, f2, f6, f8, f9⟩
           · intro x hx
             rw [f3] at hx
             exact mem_insertBeforeL _ _ _ hx
           · intro x hx
             rw [f3]
             exact mem_insertBeforeL_of_mem _ _ _ hx
           · rw [f3]
             exact length_insertBeforeL _ _ _ hin)
    · rw [if_neg hin] at h
      have hnone : listPrev t.meta hid = none := listPrev_of_not_mem _ _ hin
      repeat' split at h
      all_goals first
        | exact Res.noConfusion h
        | exact absurd h (metaAddTail_no_hot _ hnone s')

/-- C10: storing nil under a fresh key on a cache with free capacity leaves a
resident Cold node counted in `count_cold` whose stored value is nil; a
subsequent `get` of that key returns the miss sentinel and leaves the cache
unchanged, so the nil value is indistinguishable from absence at the `get`
interface. -/
theorem C10_nil_value (f : Nat) (s : Cache) (k : String) (s' : Cache)
    (hk : mapGet s k = none)
    (hcap : s.count_hot + s.count_cold < s.mem_max)
    (h : Set (f + 2) s k none = Res.ok s') :
    mapGet s' k = some s.nextId ∧
    (entryOf s' s.nextId).ptype = pageType.ptCold ∧
    (entryOf s' s.nextId).val = none ∧
    (entryOf s' s.nextId).ref = false ∧
    s.nextId ∈ s'.meta ∧
    s'.count_cold = s.count_cold + 1 ∧
    Get s' k = (s', none) := by
  simp only [Set, hk] at h
  split at h
  case h_1 s1 hadd =>
    injection h with h2
    subst h2
    have hstep : f + 2 = (f + 1) + 1 := rfl
    rw [hstep] at hadd
    simp only [meta_add, evict_noop f s hcap] at hadd
    obtain ⟨g1, g2, g3, g4, _, _, _, _, _, _, _, _⟩ :=
      metaAddCore_fields s s1 ⟨pageType.ptCold, k, none, false⟩ hadd
    have hm : mapGet { s1 with count_cold := s1.count_cold + 1 } k = some s.nextId := by
      show (alookup s1.metaKeys k).getD none = some s.nextId
      rw [g2, alookup_ains_self]
      rfl
    have he : entryOf { s1 with count_cold := s1.count_cold + 1 } s.nextId
        = ⟨pageType.ptCold, k, none, false⟩ := by
      show (alookup s1.entries s.nextId).getD defaultEntry = _
      rw [g1, alookup_ains_self]
      rfl
    refine ⟨hm, by rw [he], by rw [he], by rw [he], g3, by show s1.count_cold + 1 = _; rw [g4], ?_⟩
    simp only [Get, hm]
    rw [if_pos (by rw [he])]
  all_goals (rename_i hno; exact absurd h (hno s'))

theorem C10_nil_value_witness :
    (mapGet (New 2) "a" = none ∧
     (New 2).count_hot + (New 2).count_cold < (New 2).mem_max ∧
     Set 2 (New 2) "a" none = Res.ok c10w) ∧
    (mapGet c10w "a" = some (New 2).nextId ∧
     (entryOf c10w (New 2).nextId).ptype = pageType.ptCold ∧
     (entryOf c10w (New 2).nextId).val = none ∧
     (entryOf c10w (New 2).nextId).ref = false ∧
     (New 2).nextId ∈ c10w.meta ∧
     c10w.count_cold = (New 2).count_cold + 1 ∧
     Get c10w "a" = (c10w, none)) :=
  ⟨⟨by decide, by decide, by decide⟩,
   C10_nil_value 0 (New 2) "a" c10w (by decide) (by decide) (by decide)⟩

theorem listPrevAux_insert (t : List Nat) (p mark fresh : Nat) (hm : mark ∈ t)
    (hf : fresh ≠ mark) :
    listPrevAux p (insertBeforeL t mark fresh) mark = some fresh := by
  induction t generalizing p with
  | nil => simp at hm
  | cons b t2 ih =>
    by_cases hb : b = mark
    · rw [insertBeforeL, if_pos hb, listPrevAux, if_neg hf, listPrevAux, if_pos hb]
    · rw [insertBeforeL, if_neg hb, listPrevAux, if_neg hb]
      refine ih b ?_
      rcases List.mem_cons.mp hm with h1 | h1
      · exact absurd h1.symm hb
      · exact h1

theorem listPrev_insert (l : List Nat) (mark fresh : Nat) (hm : mark ∈ l)
    (hf : fresh ≠ mark) :
    listPrev (insertBeforeL l mark fresh) mark = some fresh := by
  cases l with
  | nil => simp at hm
  | cons a t =>
    by_cases ha : a = mark
    · rw [insertBeforeL, if_pos ha, listPrev, if_neg hf, listPrevAux, if_pos ha]
    · rw [insertBeforeL, if_neg ha, listPrev, if_neg ha]
      refine listPrevAux_insert t a mark fresh ?_ hf
      rcases List.mem_cons.mp hm with h1 | h1
      · exact absurd h1.symm ha
      · exact h1

theorem listPrevAux_mem (l : List Nat) (b x p : Nat) (h : listPrevAux b l x = some p) :
    p = b ∨ p ∈ l := by
  induction l generalizing b with
  | nil => exact Option.noConfusion h
  | cons c t ih =>
    rw [listPrevAux] at h
    by_cases hc : c = x
    · rw [if_pos hc] at h
      injection h with h2
      exact Or.inl h2.symm
    · rw [if_neg hc] at h
      rcases ih c h with h1 | h1
      · exact Or.inr (by rw [h1]; exact List.mem_cons_self c t)
      · exact Or.inr (List.mem_cons_of_mem c h1)

theorem listNext_of_listPrevAux (t : List Nat) (a x p : Nat) (hnd : (a :: t).Nodup)
    (h : listPrevAux a t x = some p) : listNext (a :: t) p = some x := by
  induction t generalizing a with
  | nil => exact Option.noConfusion h
  | cons b t2 ih =>
    rw [listPrevAux] at h
    by_cases hb : b = x
    · rw [if_pos hb] at h
      injection h with h2
      subst h2
      rw [listNext, if_pos rfl, hb]
    · rw [if_neg hb] at h
      have hpmem : p = b ∨ p ∈ t2 := listPrevAux_mem t2 b x p h
      have hane : ¬ a = p := by
        intro he
        refine (List.nodup_cons.mp hnd).1 ?_
        rcases hpmem with h1 | h1
        · rw [he, h1]
          exact List.mem_cons_self b t2
        · rw [he]
          exact List.mem_cons_of_mem b h1
      rw [listNext, if_neg hane]
      exact ih b (List.nodup_cons.mp hnd).2 h

theorem listNext_of_listPrev (l : List Nat) (x p : Nat) (hnd : l.Nodup)
    (h : listPrev l x = some p) : listNext l p = some x := by
  cases l with
  | nil => exact Option.noConfusion h
  | cons a t =>
    rw [listPrev] at h
    by_cases ha : a = x
    · rw [if_pos ha] at h
      exact Option.noConfusion h
    · rw [if_neg ha] at h
      exact listNext_of_listPrevAux t a x p hnd h

theorem tailAdvCold_frame2 (t t1 : Cache) (h : tailAdvCold t = Res.ok t1) :
    t1.meta = t.meta ∧ t1.hand_pos_hot = t.hand_pos_hot ∧
    t1.hand_pos_test = t.hand_pos_test ∧ t1.hand_idx_hot = t.hand_idx_hot ∧
    t1.hand_idx_test = t.hand_idx_test ∧
    ((¬ t.hand_idx_hot < t.hand_idx_cold ∧ t1.hand_pos_cold = t.hand_pos_cold) ∨
     (t.hand_idx_hot < t.hand_idx_cold ∧ ∃ cid p, t.hand_pos_cold = some cid ∧
        listNext t.meta cid = some p ∧ t1.hand_pos_cold = some p) ∨
     (t.hand_idx_hot < t.hand_idx_cold ∧ ∃ cid, t.hand_pos_cold = some cid ∧
        listNext t.meta cid = none ∧ t1.hand_pos_cold = front t)) := by
  simp only [tailAdvCold] at h
  split at h
  case isTrue hc =>
    split at h
    case h_1 hpc => exact Res.noConfusion h
    case h_2 cid hpc =>
      split at h
      case h_1 hn =>
        injection h with h2
        subst h2
        exact ⟨rfl, rfl, rfl, rfl, rfl, Or.inr (Or.inr ⟨hc, cid, hpc, hn, rfl⟩)⟩
      case h_2 q hn =>
        injection h with h2
        subst h2
        exact ⟨rfl, rfl, rfl, rfl, rfl, Or.inr (Or.inl ⟨hc, cid, q, hpc, hn, rfl⟩)⟩
  case isFalse hc =>
    injection h with h2
    subst h2
    exact ⟨rfl, rfl, rfl, rfl, rfl, Or.inl ⟨hc, rfl⟩⟩

theorem tailAdvTest_frame2 (t t1 : Cache) (h : tailAdvTest t = Res.ok t1) :
    t1.meta = t.meta ∧ t1.hand_pos_hot = t.hand_pos_hot ∧
    t1.hand_pos_cold = t.hand_pos_cold ∧ t1.hand_idx_hot = t.hand_idx_hot ∧
    ((¬ t.hand_idx_hot ≤ t.hand_idx_test ∧ t1.hand_pos_test = t.hand_pos_test) ∨
     (t.hand_idx_hot ≤ t.hand_idx_test ∧ ∃ tid p, t.hand_pos_test = some tid ∧
        listNext t.meta tid = some p ∧ t1.hand_pos_test = some p) ∨
     (t.hand_idx_hot ≤ t.hand_idx_test ∧ ∃ tid, t.hand_pos_test = some tid ∧
        listNext t.meta tid = none ∧ t1.hand_pos_test = front t)) := by
  simp only [tailAdvTest] at h
  split at h
  case isTrue hc =>
    split at h
    case h_1 hpt => exact Res.noConfusion h
    case h_2 tid hpt =>
      split at h
      case h_1 hn =>
        injection h with h2
        subst h2
        exact ⟨rfl, rfl, rfl, rfl, Or.inr (Or.inr ⟨hc, tid, hpt, hn, rfl⟩)⟩
      case h_2 q hn =>
        injection h with h2
        subst h2
        exact ⟨rfl, rfl, rfl, rfl, Or.inr (Or.inl ⟨hc, tid, q, hpt, hn, rfl⟩)⟩
  case isFalse hc =>
    injection h with h2
    subst h2
    exact ⟨rfl, rfl, rfl, rfl, Or.inl ⟨hc, rfl⟩⟩

theorem tailAdvHot_frame2 (t t1 : Cache) (h : tailAdvHot t = Res.ok t1) :
    t1.meta = t.meta ∧ t1.hand_pos_cold = t.hand_pos_cold ∧
    t1.hand_pos_test = t.hand_pos_test ∧
    ∃ hid, t.hand_pos_hot = some hid ∧
      ((∃ p, listNext t.meta hid = some p ∧ t1.hand_pos_hot = some p) ∨
       (listNext t.meta hid = none ∧ t1.hand_pos_hot = front t)) := by
  simp only [tailAdvHot] at h
  split at h
  case h_1 hph => exact Res.noConfusion h
  case h_2 hid hph =>
    split at h
    case h_1 hn =>
      injection h with h2
      subst h2
      exact ⟨rfl, rfl, rfl, hid, hph, Or.inr ⟨hn, rfl⟩⟩
    case h_2 q hn =>
      injection h with h2
      subst h2
      exact ⟨rfl, rfl, rfl, hid, hph, Or.inl ⟨q, hn, rfl⟩⟩

theorem metaAddTail_hands (T s' : Cache) (L : List Nat) (hh nid : Nat)
    (hmeta : T.meta = L) (hnd2 : L.Nodup)
    (hpv : listPrev L hh = some nid)
    (hhot : T.hand_pos_hot = some nid)
    (h : metaAddTail T = Res.ok s') :
    s'.meta = L ∧
    s'.hand_pos_hot = some hh ∧
    ((¬ T.hand_idx_hot ≤ T.hand_idx_test ∧ s'.hand_pos_test = T.hand_pos_test) ∨
     (T.hand_idx_hot ≤ T.hand_idx_test ∧ ∃ q, T.hand_pos_test = some q ∧
       ((∃ x, listNext L q = some x ∧ s'.hand_pos_test = some x) ∨
        (listNext L q = none ∧ s'.hand_pos_test = L.head?)))) ∧
    ((¬ T.hand_idx_hot < T.hand_idx_cold ∧ s'.hand_pos_cold = T.hand_pos_cold) ∨
     (T.hand_idx_hot < T.hand_idx_cold ∧ ∃ q, T.hand_pos_cold = some q ∧
       ((∃ x, listNext L q = some x ∧ s'.hand_pos_cold = some x) ∨
        (listNext L q = none ∧ s'.hand_pos_cold = L.head?)))) := by
  simp only [metaAddTail] at h
  split at h
  case h_1 t1 he1 =>
    split at h
    case h_1 t2 he2 =>
      obtain ⟨c1, c2, c3, c4, c5, hc⟩ := tailAdvCold_frame2 _ _ he1
      obtain ⟨d1, d2, d3, d4, hd⟩ := tailAdvTest_frame2 _ _ he2
      obtain ⟨e1, e2, e3, hid2, ehh, eh⟩ := tailAdvHot_frame2 _ _ h
      have hmt1 : t1.meta = L := by rw [c1, hmeta]
      have hmt2 : t2.meta = L := by rw [d1, hmt1]
      have hms : s'.meta = L := by rw [e1, hmt2]
      have hnxt : listNext L nid = some hh := listNext_of_listPrev L hh nid hnd2 hpv
      have hh2 : t2.hand_pos_hot = some nid := by rw [d2, c2, hhot]
      have hidr : nid = hid2 := by
        have hx := hh2.symm.trans ehh
        injection hx
      subst hidr
      refine ⟨hms, ?_, ?_, ?_⟩
      · rcases eh with ⟨p, hp1, hp2⟩ | ⟨hp1, hp2⟩
        · rw [hmt2] at hp1
          have hx : some hh = some p := hnxt.symm.trans hp1
          injection hx with hx2
          rw [hp2, ← hx2]
        · rw [hmt2, hnxt] at hp1
          exact Option.noConfusion hp1
      · rcases hd with ⟨hcnd, hres⟩ | ⟨hcnd, tid, p2, hq1, hq2, hq3⟩ | ⟨hcnd, tid, hq1, hq2, hq3⟩
        · rw [c4, c5] at hcnd
          exact Or.inl ⟨hcnd, by rw [e3, hres, c3]⟩
        · rw [c4, c5] at hcnd
          refine Or.inr ⟨hcnd, tid, by rw [← c3]; exact hq1,
            Or.inl ⟨p2, by rw [← hmt1]; exact hq2, by rw [e3]; exact hq3⟩⟩
        · rw [c4, c5] at hcnd
          refine Or.inr ⟨hcnd, tid, by rw [← c3]; exact hq1,
            Or.inr ⟨by rw [← hmt1]; exact hq2, ?_⟩⟩
          rw [e3, hq3]
          show t1.meta.head? = L.head?
          rw [hmt1]
      · rcases hc with ⟨hcnd, hres⟩ | ⟨hcnd, cid, p2, hq1, hq2, hq3⟩ | ⟨hcnd, cid, hq1, hq2, hq3⟩
        · exact Or.inl ⟨hcnd, by rw [e2, d3, hres]⟩
        · refine Or.inr ⟨hcnd, cid, hq1,
            Or.inl ⟨p2, by rw [← hmeta]; exact hq2, by rw [e2, d3]; exact hq3⟩⟩
        · refine Or.inr ⟨hcnd, cid, hq1,
            Or.inr ⟨by rw [← hmeta]; exact hq2, ?_⟩⟩
          rw [e2, d3, hq3]
          show T.meta.head? = L.head?
          rw [hmeta]
    all_goals (rename_i hno; exact absurd h (hno s'))
  all_goals (rename_i hno; exact absurd h (hno s'))

theorem metaAddCore_hands (s s' : Cache) (e : metaEntry) (hh : Nat)
    (hI : INV0 s)
    (hpos : s.hand_pos_hot = some hh)
    (hcc : s.hand_idx_cold = s.hand_idx_hot ↔ s.hand_pos_cold = s.hand_pos_hot)
    (h : metaAddCore s e = Res.ok s') :
    s'.meta = insertBeforeL s.meta hh s.nextId ∧
    s'.hand_pos_hot = some hh ∧
    s'.hand_pos_test = s.hand_pos_test ∧
    (s.hand_pos_cold = s.hand_pos_hot → s'.hand_pos_cold = some s.nextId) ∧
    (s.hand_pos_cold ≠ s.hand_pos_hot → s'.hand_pos_cold = s.hand_pos_cold) := by
  simp only [metaAddCore, hpos] at h
  by_cases hin : hh ∈ s.meta
  · rw [if_pos hin] at h
    have hfne : s.nextId ∉ s.meta := fun hm => by have := hI.bound _ hm; omega
    have hneq : s.nextId ≠ hh := fun he => hfne (by rw [he]; exact hin)
    have hnd2 : (insertBeforeL s.meta hh s.nextId).Nodup :=
      nodup_insertBeforeL _ _ _ hI.nodup hfne
    have hpv : listPrev (insertBeforeL s.meta hh s.nextId) hh = some s.nextId :=
      listPrev_insert _ _ _ hin hneq
    split at h
    rotate_left
    · exact Res.noConfusion h
    · exact Res.noConfusion h
    rename_i pc hr2
    split at h
    rotate_left
    · exact Res.noConfusion h
    · exact Res.noConfusion h
    rename_i pt hr3
    obtain ⟨hm, hhot2, htest, hcold⟩ :=
      metaAddTail_hands _ s' (insertBeforeL s.meta hh s.nextId) hh s.nextId
        rfl hnd2 hpv hpv h
    have hpcold : (s.hand_idx_hot ≤ s.hand_idx_cold ∧ ∃ cid,
        s.hand_pos_cold = some cid ∧
        pc = listPrev (insertBeforeL s.meta hh s.nextId) cid) ∨
        (¬ s.hand_idx_hot ≤ s.hand_idx_cold ∧ pc = s.hand_pos_cold) := by
      split at hr2
      · rename_i hAc
        split at hr2
        · exact Res.noConfusion hr2
        · rename_i cid hpc
          injection hr2 with hx
          exact Or.inl ⟨hAc, cid, hpc, hx.symm⟩
      · rename_i hAc
        injection hr2 with hx
        exact Or.inr ⟨hAc, hx.symm⟩
    have hptest : (s.hand_idx_hot ≤ s.hand_idx_test ∧ ∃ tid,
        s.hand_pos_test = some tid ∧
        pt = listPrev (insertBeforeL s.meta hh s.nextId) tid) ∨
        (¬ s.hand_idx_hot ≤ s.hand_idx_test ∧ pt = s.hand_pos_test) := by
      split at hr3
      · rename_i hBc
        split at hr3
        · exact Res.noConfusion hr3
        · rename_i tid hpt
          injection hr3 with hx
          exact Or.inl ⟨hBc, tid, hpt, hx.symm⟩
      · rename_i hBc
        injection hr3 with hx
        exact Or.inr ⟨hBc, hx.symm⟩
    have htest2 : s'.hand_pos_test = s.hand_pos_test := by
      rcases hptest with ⟨hBt, tid, hpt2, hptv⟩ | ⟨hBf, hptv⟩
      · rcases htest with ⟨hcnd, _⟩ | ⟨_, q, hq1, hq2⟩
        · exact absurd hBt hcnd
        · have hq1b : pt = some q := hq1
          rw [hptv] at hq1b
          have hnq := listNext_of_listPrev _ _ _ hnd2 hq1b
          rcases hq2 with ⟨x, hx1, hx2⟩ | ⟨hx1, _⟩
          · have hx : some tid = some x := hnq.symm.trans hx1
            injection hx with hx3
            rw [hx2, ← hx3]
            exact hpt2.symm
          · rw [hnq] at hx1
            exact Option.noConfusion hx1
      · rcases htest with ⟨_, hres⟩ | ⟨hcnd, _⟩
        · have hres2 : s'.hand_pos_test = pt := hres
          rw [hptv] at hres2
          exact hres2
        · exact absurd hcnd hBf
    refine ⟨hm, hhot2, htest2, ?_, ?_⟩
    · intro hpe
      have hceq : s.hand_idx_cold = s.hand_idx_hot := hcc.mpr hpe
      rcases hpcold with ⟨hAt, cid, hpc2, hpcv⟩ | ⟨hAf, hpcv⟩
      · have hcid : cid = hh := by
          have hx : some cid = some hh := hpc2.symm.trans (hpe.trans hpos)
          injection hx
        rcases hcold with ⟨_, hres⟩ | ⟨hcnd, _⟩
        · have hres2 : s'.hand_pos_cold = pc := hres
          rw [hpcv, hcid, hpv] at hres2
          exact hres2
        · have hlt : s.hand_idx_hot < s.hand_idx_cold := hcnd
          omega
      · omega
    · intro hpne
      have hceq : s.hand_idx_cold ≠ s.hand_idx_hot := fun hx => hpne (hcc.mp hx)
      rcases hpcold with ⟨hAt, cid, hpc2, hpcv⟩ | ⟨hAf, hpcv⟩
      · have hstr : s.hand_idx_hot < s.hand_idx_cold := by omega
        rcases hcold with ⟨hcnd, _⟩ | ⟨_, q, hq1, hq2⟩
        · exact absurd hstr hcnd
        · have hq1b : pc = some q := hq1
          rw [hpcv] at hq1b
          have hnq := listNext_of_listPrev _ _ _ hnd2 hq1b
          rcases hq2 with ⟨x, hx1, hx2⟩ | ⟨hx1, _⟩
          · have hx : some cid = some x := hnq.symm.trans hx1
            injection hx with hx3
            rw [hx2, ← hx3]
            exact hpc2.symm
          · rw [hnq] at hx1
            exact Option.noConfusion hx1
      · rcases hcold with ⟨_, hres⟩ | ⟨hcnd, _⟩
        · have hres2 : s'.hand_pos_cold = pc := hres
          rw [hpcv] at hres2
          exact hres2
        · have hlt : s.hand_idx_hot < s.hand_idx_cold := hcnd
          omega
  · rw [if_neg hin] at h
    have hnone : listPrev s.meta hh = none := listPrev_of_not_mem _ _ hin
    repeat' split at h
    all_goals first
      | exact Res.noConfusion h
      | exact absurd h (metaAddTail_no_hot _ hnone s')

theorem INV0_c1w : INV0 c1w := by
  constructor
  · decide
  · intro i hi
    have hi2 : i ∈ [0] := hi
    show i < 1
    simp only [List.mem_singleton] at hi2
    omega
  · decide
  · intro k id hl
    have hl2 : (if "a" = k then some (some 0) else none) = some (some id) := hl
    by_cases hk : "a" = k
    · rw [if_pos hk] at hl2
      injection hl2 with h1
      injection h1 with h2
      rw [← h2]
      exact ⟨by decide, by decide⟩
    · rw [if_neg hk] at hl2
      exact Option.noConfusion hl2
  · intro k1 k2 id h1 h2
    have h1b : (if "a" = k1 then some (some 0) else none) = some (some id) := h1
    have h2b : (if "a" = k2 then some (some 0) else none) = some (some id) := h2
    by_cases ha : "a" = k1
    · by_cases hb : "a" = k2
      · rw [← ha, ← hb]
      · rw [if_neg hb] at h2b
        exact Option.noConfusion h2b
    · rw [if_neg ha] at h1b
      exact Option.noConfusion h1b

/-- C8 (amended): `meta_add` on a cache with free capacity and a live hot
hand inserts the new node immediately before the node the hot hand points
at; afterwards `hand_pos_hot` and `hand_pos_test` denote the nodes they
denoted before the call, while `hand_pos_cold` denotes its old node only
when it did not coincide with the hot hand - when the two hands sat on the
same node the cold hand ends on the freshly inserted node instead. -/
theorem C8_meta_add_hands (f : Nat) (s : Cache) (e : metaEntry) (s' : Cache) (hh : Nat)
    (hI : INV0 s)
    (hcap : s.count_hot + s.count_cold < s.mem_max)
    (hpos : s.hand_pos_hot = some hh)
    (hcc : s.hand_idx_cold = s.hand_idx_hot ↔ s.hand_pos_cold = s.hand_pos_hot)
    (h : meta_add (f + 2) s e = Res.ok s') :
    s'.meta = insertBeforeL s.meta hh s.nextId ∧
    s'.hand_pos_hot = some hh ∧
    s'.hand_pos_test = s.hand_pos_test ∧
    (s.hand_pos_cold = s.hand_pos_hot → s'.hand_pos_cold = some s.nextId) ∧
    (s.hand_pos_cold ≠ s.hand_pos_hot → s'.hand_pos_cold = s.hand_pos_cold) := by
  have hstep : f + 2 = (f + 1) + 1 := rfl
  rw [hstep] at h
  simp only [meta_add, evict_noop f s hcap] at h
  exact metaAddCore_hands s s' e hh hI hpos hcc h

theorem C8_meta_add_hands_witness :
    (c1w.count_hot + c1w.count_cold < c1w.mem_max ∧
     c1w.hand_pos_hot = some 0 ∧
     (c1w.hand_idx_cold = c1w.hand_idx_hot ↔ c1w.hand_pos_cold = c1w.hand_pos_hot) ∧
     meta_add 2 c1w ⟨pageType.ptCold, "b", some 7, false⟩ = Res.ok c8w2) ∧
    (c8w2.meta = insertBeforeL c1w.meta 0 c1w.nextId ∧
     c8w2.hand_pos_hot = some 0 ∧
     c8w2.hand_pos_test = c1w.hand_pos_test ∧
     (c1w.hand_pos_cold = c1w.hand_pos_hot → c8w2.hand_pos_cold = some c1w.nextId) ∧
     (c1w.hand_pos_cold ≠ c1w.hand_pos_hot → c8w2.hand_pos_cold = c1w.hand_pos_cold)) :=
  ⟨⟨by decide, by decide, by decide, by decide⟩,
   C8_meta_add_hands 0 c1w ⟨pageType.ptCold, "b", some 7, false⟩ c8w2 0 INV0_c1w
     (by decide) (by decide) (by decide) (by decide)⟩

theorem C5_tail (f : Nat) (s sd se : Cache) (k : String) (E : metaEntry) (id : Nat)
    (hfr : id ∈ s.meta) (hlt : id < s.nextId) (hnd : s.meta.Nodup)
    (e3 : sd.count_hot = s.count_hot) (e4 : sd.count_cold = s.count_cold)
    (e5 : sd.count_test = s.count_test - 1)
    (e1 : sd.mem_max = s.mem_max)
    (e6 : sd.nextId = s.nextId)
    (e7 : sd.meta = s.meta.erase id)
    (hEk : E.key = k)
    (hcap : s.count_hot + s.count_cold < s.mem_max)
    (hadd : meta_add (f + 2) sd E = Res.ok se) :
    ({ se with count_hot := se.count_hot + 1 } : Cache).count_test = s.count_test - 1 ∧
    ({ se with count_hot := se.count_hot + 1 } : Cache).count_hot = s.count_hot + 1 ∧
    ({ se with count_hot := se.count_hot + 1 } : Cache).count_cold = s.count_cold ∧
    ({ se with count_hot := se.count_hot + 1 } : Cache).mem_cold = sd.mem_cold ∧
    mapGet { se with count_hot := se.count_hot + 1 } k = some s.nextId ∧
    entryOf { se with count_hot := se.count_hot + 1 } s.nextId = E ∧
    s.nextId ∈ ({ se with count_hot := se.count_hot + 1 } : Cache).meta ∧
    id ∉ ({ se with count_hot := se.count_hot + 1 } : Cache).meta ∧
    ({ se with count_hot := se.count_hot + 1 } : Cache).meta.length = s.meta.length := by
  have hcap2 : sd.count_hot + sd.count_cold < sd.mem_max := by
    rw [e3, e4, e1]
    exact hcap
  have hstep : f + 2 = (f + 1) + 1 := rfl
  rw [hstep] at hadd
  simp only [meta_add, evict_noop f sd hcap2] at hadd
  obtain ⟨g1, g2, g3, g4, gmem, _, glen, gm1, gm2, g5, g6, g7⟩ :=
    metaAddCore_fields sd se E hadd
  refine ⟨?_, ?_, ?_, ?_, ?_, ?_, ?_, ?_, ?_⟩
  · show se.count_test = s.count_test - 1
    rw [g6, e5]
  · show se.count_hot + 1 = s.count_hot + 1
    rw [g5, e3]
  · show se.count_cold = s.count_cold
    rw [g4, e4]
  · show se.mem_cold = sd.mem_cold
    exact gm2
  · show (alookup se.metaKeys k).getD none = some s.nextId
    rw [g2, hEk, alookup_ains_self]
    show some sd.nextId = some s.nextId
    rw [e6]
  · show (alookup se.entries s.nextId).getD defaultEntry = E
    rw [← e6, g1, alookup_ains_self]
    rfl
  · show s.nextId ∈ se.meta
    rw [← e6]
    exact g3
  · show id ∉ se.meta
    intro hmem
    rcases gmem id hmem with h1 | h1
    · rw [e7] at h1
      exact (hnd.mem_erase_iff.mp h1).1 rfl
    · rw [e6] at h1
      omega
  · show se.meta.length = s.meta.length
    have hpos : 0 < s.meta.length := List.length_pos.mpr (List.ne_nil_of_mem hfr)
    rw [glen, e7, List.length_erase_of_mem hfr]
    omega

/-- C5 (amended): `set` on a key whose node stores no value (in particular
a Test shadow), on a cache with free capacity and a sound ring: `mem_cold`
is incremented exactly when `mem_cold < mem_max`; the old element is
detached from the ring and a fresh element carrying
`{ptype = Hot, value = v, ref = false}` is linked in its stead (the ring
length is unchanged); net counter changes are `count_test - 1`,
`count_hot + 1`, `count_cold` unchanged. -/
theorem C5_promote (f : Nat) (s : Cache) (k : String) (v : Option Int) (id : Nat) (s' : Cache)
    (hid : mapGet s k = some id)
    (hval : (entryOf s id).val = none)
    (hkey : (entryOf s id).key = k)
    (hfr : id ∈ s.meta) (hlt : id < s.nextId) (hnd : s.meta.Nodup)
    (hcap : s.count_hot + s.count_cold < s.mem_max)
    (h : Set (f + 2) s k v = Res.ok s') :
    s'.mem_cold = (if s.mem_cold < s.mem_max then s.mem_cold + 1 else s.mem_cold) ∧
    s'.count_test = s.count_test - 1 ∧
    s'.count_hot = s.count_hot + 1 ∧
    s'.count_cold = s.count_cold ∧
    mapGet s' k = some s.nextId ∧
    entryOf s' s.nextId = ⟨pageType.ptHot, k, v, false⟩ ∧
    s.nextId ∈ s'.meta ∧
    id ∉ s'.meta ∧
    s'.meta.length = s.meta.length := by
  simp only [Set, hid] at h
  rw [if_pos hval] at h
  by_cases hmc : s.mem_cold < s.mem_max
  · rw [if_pos hmc] at h
    split at h
    next sd hdel =>
      obtain ⟨d1, d2, d3, d4, d5, d6, d7, d8, id2, hlook, hdm⟩ := meta_del_spec _ _ _ hdel
      have hlook2 : alookup s.metaKeys (entryOf s id).key = some (some id2) := hlook
      rw [hkey] at hlook2
      have hmg : mapGet s k = some id2 := by
        show (alookup s.metaKeys k).getD none = some id2
        rw [hlook2]
        rfl
      have hid2 : id2 = id := by
        have hx : some id2 = some id := hmg.symm.trans hid
        injection hx
      subst hid2
      have e1 : sd.mem_max = s.mem_max := d1
      have e3 : sd.count_hot = s.count_hot := d3
      have e4 : sd.count_cold = s.count_cold := d4
      have e5 : sd.count_test = s.count_test - 1 := d5
      have e6 : sd.nextId = s.nextId := d6
      have e7 : sd.meta = s.meta.erase id2 := hdm
      have emc : sd.mem_cold = s.mem_cold + 1 := d2
      split at h
      next se hadd =>
        injection h with h2
        subst h2
        obtain ⟨t1, t2, t3, t4, t5, t6, t7, t8, t9⟩ :=
          C5_tail f s sd se k ⟨pageType.ptHot, (entryOf s id2).key, v, false⟩ id2
            hfr hlt hnd e3 e4 e5 e1 e6 e7 hkey hcap hadd
        refine ⟨?_, t1, t2, t3, t5, ?_, t7, t8, t9⟩
        · rw [if_pos hmc]
          show se.mem_cold = s.mem_cold + 1
          rw [t4, emc]
        · rw [t6]
          show (⟨pageType.ptHot, (entryOf s id2).key, v, false⟩ : metaEntry)
            = ⟨pageType.ptHot, k, v, false⟩
          rw [hkey]
      all_goals (rename_i hno; exact absurd h (hno s'))
    all_goals (rename_i hno; exact absurd h (hno s'))
  · rw [if_neg hmc] at h
    split at h
    next sd hdel =>
      obtain ⟨d1, d2, d3, d4, d5, d6, d7, d8, id2, hlook, hdm⟩ := meta_del_spec _ _ _ hdel
      have hlook2 : alookup s.metaKeys (entryOf s id).key = some (some id2) := hlook
      rw [hkey] at hlook2
      have hmg : mapGet s k = some id2 := by
        show (alookup s.metaKeys k).getD none = some id2
        rw [hlook2]
        rfl
      have hid2 : id2 = id := by
        have hx : some id2 = some id := hmg.symm.trans hid
        injection hx
      subst hid2
      have e1 : sd.mem_max = s.mem_max := d1
      have e3 : sd.count_hot = s.count_hot := d3
      have e4 : sd.count_cold = s.count_cold := d4
      have e5 : sd.count_test = s.count_test - 1 := d5
      have e6 : sd.nextId = s.nextId := d6
      have e7 : sd.meta = s.meta.erase id2 := hdm
      have emc : sd.mem_cold = s.mem_cold := d2
      split at h
      next se hadd =>
        injection h with h2
        subst h2
        obtain ⟨t1, t2, t3, t4, t5, t6, t7, t8, t9⟩ :=
          C5_tail f s sd se k ⟨pageType.ptHot, (entryOf s id2).key, v, false⟩ id2
            hfr hlt hnd e3 e4 e5 e1 e6 e7 hkey hcap hadd
        refine ⟨?_, t1, t2, t3, t5, ?_, t7, t8, t9⟩
        · rw [if_neg hmc]
          show se.mem_cold = s.mem_cold
          rw [t4, emc]
        · rw [t6]
          show (⟨pageType.ptHot, (entryOf s id2).key, v, false⟩ : metaEntry)
            = ⟨pageType.ptHot, k, v, false⟩
          rw [hkey]
      all_goals (rename_i hno; exact absurd h (hno s'))
    all_goals (rename_i hno; exact absurd h (hno s'))

theorem C5_promote_witness :
    (mapGet c5wpre "a" = some 0 ∧
     (entryOf c5wpre 0).ptype = pageType.ptTest ∧
     (entryOf c5wpre 0).val = none ∧
     c5wpre.count_hot + c5wpre.count_cold < c5wpre.mem_max ∧
     Set 2 c5wpre "a" (some 55) = Res.ok c5wpost) ∧
    (c5wpost.mem_cold
       = (if c5wpre.mem_cold < c5wpre.mem_max then c5wpre.mem_cold + 1
          else c5wpre.mem_cold) ∧
     c5wpost.count_test = c5wpre.count_test - 1 ∧
     c5wpost.count_hot = c5wpre.count_hot + 1 ∧
     c5wpost.count_cold = c5wpre.count_cold ∧
     mapGet c5wpost "a" = some c5wpre.nextId ∧
     entryOf c5wpost c5wpre.nextId = ⟨pageType.ptHot, "a", some 55, false⟩ ∧
     c5wpre.nextId ∈ c5wpost.meta ∧
     (0 : Nat) ∉ c5wpost.meta ∧
     c5wpost.meta.length = c5wpre.meta.length) :=
  ⟨⟨by decide, by decide, by decide, by decide, by decide⟩,
   C5_promote 0 c5wpre "a" (some 55) 0 c5wpost (by decide) (by decide) (by decide)
     (by decide) (by decide) (by decide) (by decide) (by decide)⟩

theorem entryOf_setEntry_self (s : Cache) (id : Nat) (e : metaEntry) :
    entryOf (setEntry s id e) id = e := by
  show (alookup (ains s.entries id e) id).getD defaultEntry = e
  rw [alookup_ains_self]
  rfl

theorem entryOf_setEntry_ne (s : Cache) (id x : Nat) (e : metaEntry) (h : x ≠ id) :
    entryOf (setEntry s id e) x = entryOf s x := by
  show (alookup (ains s.entries id e) x).getD defaultEntry = _
  rw [alookup_ains_ne _ _ _ _ h]
  rfl

theorem entryOf_entries_eq (s s2 : Cache) (h : s2.entries = s.entries) (x : Nat) :
    entryOf s2 x = entryOf s x := by
  show (alookup s2.entries x).getD defaultEntry = _
  rw [h]
  rfl

theorem cntPL_entries_eq (s s2 : Cache) (h : s2.entries = s.entries) (p : pageType) :
    ∀ l : List Nat, cntPL s2 p l = cntPL s p l := by
  intro l
  induction l with
  | nil => rfl
  | cons a t ih =>
    simp only [cntPL]
    rw [entryOf_entries_eq s s2 h a, ih]

theorem cntPL_setEntry_not_mem (s : Cache) (id : Nat) (e : metaEntry) (p : pageType) :
    ∀ l : List Nat, id ∉ l → cntPL (setEntry s id e) p l = cntPL s p l := by
  intro l
  induction l with
  | nil => intro _; rfl
  | cons a t ih =>
    intro hnm
    have hne : a ≠ id := fun he => hnm (he ▸ List.mem_cons_self a t)
    simp only [cntPL]
    rw [entryOf_setEntry_ne s id a e hne, ih (fun hm => hnm (List.mem_cons_of_mem a hm))]

theorem cntPL_setEntry_mem (s : Cache) (id : Nat) (e : metaEntry) (p : pageType) :
    ∀ l : List Nat, l.Nodup → id ∈ l →
    cntPL (setEntry s id e) p l
      = cntPL s p l - (if (entryOf s id).ptype = p then 1 else 0)
        + (if e.ptype = p then 1 else 0) := by
  intro l
  induction l with
  | nil => intro _ hm; simp at hm
  | cons a t ih =>
    intro hnd hm
    by_cases ha : a = id
    · subst ha
      have hnm : a ∉ t := (List.nodup_cons.mp hnd).1
      simp only [cntPL]
      rw [entryOf_setEntry_self, cntPL_setEntry_not_mem s a e p t hnm]
      omega
    · have hmt : id ∈ t := by
        rcases List.mem_cons.mp hm with h1 | h1
        · exact absurd h1.symm ha
        · exact h1
      simp only [cntPL]
      rw [entryOf_setEntry_ne s id a e ha,
        ih (List.nodup_cons.mp hnd).2 hmt]
      omega

theorem cntPL_erase (s : Cache) (id : Nat) (p : pageType) :
    ∀ l : List Nat, l.Nodup → id ∈ l →
    cntPL s p (l.erase id) = cntPL s p l - (if (entryOf s id).ptype = p then 1 else 0) := by
  intro l
  induction l with
  | nil => intro _ hm; simp at hm
  | cons a t ih =>
    intro hnd hm
    by_cases ha : a = id
    · subst ha
      rw [List.erase_cons_head]
      simp only [cntPL]
      omega
    · rw [List.erase_cons, if_neg (by simpa using ha)]
      have hmt : id ∈ t := by
        rcases List.mem_cons.mp hm with h1 | h1
        · exact absurd h1.symm ha
        · exact h1
      simp only [cntPL]
      rw [ih (List.nodup_cons.mp hnd).2 hmt]
      omega

theorem cntPL_entries_ains_not_mem (s s2 : Cache) (fresh : Nat) (e : metaEntry)
    (h2 : s2.entries = ains s.entries fresh e) (p : pageType) :
    ∀ l : List Nat, fresh ∉ l → cntPL s2 p l = cntPL s p l := by
  intro l
  induction l with
  | nil => intro _; rfl
  | cons a t ih =>
    intro hnm
    have hne : a ≠ fresh := fun he => hnm (he ▸ List.mem_cons_self a t)
    have hea : entryOf s2 a = entryOf s a := by
      show (alookup s2.entries a).getD defaultEntry = _
      rw [h2, alookup_ains_ne _ _ _ _ hne]
      rfl
    simp only [cntPL]
    rw [hea, ih (fun hm => hnm (List.mem_cons_of_mem a hm))]

theorem cntPL_insert (s s2 : Cache) (mark fresh : Nat) (e : metaEntry)
    (h2 : s2.entries = ains s.entries fresh e) (p : pageType) :
    ∀ l : List Nat, fresh ∉ l → mark ∈ l →
    cntPL s2 p (insertBeforeL l mark fresh)
      = cntPL s p l + (if e.ptype = p then 1 else 0) := by
  intro l
  induction l with
  | nil => intro _ hm; simp at hm
  | cons a t ih =>
    intro hf hm
    have hafr : a ≠ fresh := fun he => hf (he ▸ List.mem_cons_self a t)
    have hea : entryOf s2 a = entryOf s a := by
      show (alookup s2.entries a).getD defaultEntry = _
      rw [h2, alookup_ains_ne _ _ _ _ hafr]
      rfl
    have hft : fresh ∉ t := fun hm2 => hf (List.mem_cons_of_mem a hm2)
    by_cases ha : a = mark
    · rw [insertBeforeL, if_pos ha]
      have hef : entryOf s2 fresh = e := by
        show (alookup s2.entries fresh).getD defaultEntry = e
        rw [h2, alookup_ains_self]
        rfl
      simp only [cntPL]
      rw [hef, hea, cntPL_entries_ains_not_mem s s2 fresh e h2 p t hft]
      omega
    · rw [insertBeforeL, if_neg ha]
      have hmt : mark ∈ t := by
        rcases List.mem_cons.mp hm with h1 | h1
        · exact absurd h1.symm ha
        · exact h1
      simp only [cntPL]
      rw [hea, ih hft hmt]
      omega

theorem listNext_mem : ∀ (l : List Nat) (x q : Nat), listNext l x = some q → q ∈ l := by
  intro l
  induction l with
  | nil => intro x q h; exact Option.noConfusion h
  | cons a t ih =>
    intro x q h
    cases t with
    | nil =>
      have h2 : (if a = x then (none : Option Nat) else none) = some q := h
      split at h2 <;> exact Option.noConfusion h2
    | cons b t2 =>
      rw [listNext] at h
      by_cases hax : a = x
      · rw [if_pos hax] at h
        injection h with h2
        rw [← h2]
        exact List.mem_cons_of_mem a (List.mem_cons_self b t2)
      · rw [if_neg hax] at h
        exact List.mem_cons_of_mem a (ih x q h)

theorem head?_mem (l : List Nat) (q : Nat) (h : l.head? = some q) : q ∈ l := by
  cases l with
  | nil => exact Option.noConfusion h
  | cons a t =>
    injection h with h2
    rw [← h2]
    exact List.mem_cons_self a t

theorem getLast?_mem : ∀ (l : List Nat) (q : Nat), l.getLast? = some q → q ∈ l := by
  intro l
  induction l with
  | nil => intro q h; exact Option.noConfusion h
  | cons a t ih =>
    intro q h
    cases t with
    | nil =>
      rw [List.getLast?_singleton] at h
      injection h with h2
      rw [← h2]
      exact List.mem_cons_self _ _
    | cons b t2 =>
      rw [List.getLast?_cons_cons] at h
      exact List.mem_cons_of_mem a (ih q h)

theorem listPrevAux_ne (t : List Nat) : ∀ (a e q : Nat), a ≠ e →
    listPrevAux a t e = some q → q ≠ e := by
  induction t with
  | nil => intro a e q _ h; exact Option.noConfusion h
  | cons b t2 ih =>
    intro a e q hae h
    rw [listPrevAux] at h
    by_cases hb : b = e
    · rw [if_pos hb] at h
      injection h with h2
      rw [← h2]
      exact hae
    · rw [if_neg hb] at h
      exact ih b e q hb h

theorem listPrev_mem_ne (l : List Nat) (e q : Nat) (h : listPrev l e = some q) :
    q ∈ l ∧ q ≠ e := by
  cases l with
  | nil => exact Option.noConfusion h
  | cons a t =>
    rw [listPrev] at h
    by_cases ha : a = e
    · rw [if_pos ha] at h
      exact Option.noConfusion h
    · rw [if_neg ha] at h
      refine ⟨?_, listPrevAux_ne t a e q ha h⟩
      rcases listPrevAux_mem t a e q h with h1 | h1
      · rw [h1]
        exact List.mem_cons_self a t
      · exact List.mem_cons_of_mem a h1

theorem listPrevAux_none_not_mem (t : List Nat) : ∀ (a e : Nat),
    listPrevAux a t e = none → e ∉ t := by
  induction t with
  | nil => intro a e _ hm; simp at hm
  | cons b t2 ih =>
    intro a e h hm
    rw [listPrevAux] at h
    by_cases hb : b = e
    · rw [if_pos hb] at h
      exact Option.noConfusion h
    · rw [if_neg hb] at h
      rcases List.mem_cons.mp hm with h1 | h1
      · exact hb h1.symm
      · exact ih b e h h1

theorem listPrev_none_head (l : List Nat) (e : Nat) (hm : e ∈ l)
    (h : listPrev l e = none) : ∃ t, l = e :: t := by
  cases l with
  | nil => simp at hm
  | cons a t =>
    rw [listPrev] at h
    by_cases ha : a = e
    · exact ⟨t, by rw [ha]⟩
    · rw [if_neg ha] at h
      have hnm := listPrevAux_none_not_mem t a e h
      rcases List.mem_cons.mp hm with h1 | h1
      · exact absurd h1.symm ha
      · exact absurd h1 hnm

theorem ACCe_hands_update (T s2 : Cache) (hA : ACCe T)
    (hmeta : s2.meta = T.meta) (hent : s2.entries = T.entries)
    (hmk : s2.metaKeys = T.metaKeys) (hnid : s2.nextId = T.nextId)
    (hch : s2.count_hot = T.count_hot) (hcc : s2.count_cold = T.count_cold)
    (hct : s2.count_test = T.count_test)
    (hlh : ∀ x, s2.hand_pos_hot = some x →
      x ∈ T.meta ∨ (T.meta = [] ∧ (entryOf T x).ptype = pageType.ptTest))
    (hlc : ∀ x, s2.hand_pos_cold = some x →
      x ∈ T.meta ∨ (T.meta = [] ∧ (entryOf T x).ptype = pageType.ptTest))
    (hlt : ∀ x, s2.hand_pos_test = some x →
      x ∈ T.meta ∨ (T.meta = [] ∧ (entryOf T x).ptype = pageType.ptTest)) :
    ACCe s2 := by
  have hcnt : ∀ p, cntP s2 p = cntP T p := by
    intro p
    show cntPL s2 p s2.meta = cntPL T p T.meta
    rw [hmeta, cntPL_entries_eq T s2 hent]
  have hEq : ∀ x, entryOf s2 x = entryOf T x := entryOf_entries_eq T s2 hent
  constructor
  · exact hA.inv.transport hmeta hmk hnid
  · intro id hm
    rw [hmeta] at hm
    rw [hEq]
    exact hA.tv id hm
  · rw [hch, hcnt, hA.ch]
  · rw [hcc, hcnt, hA.cc]
  · rw [hct, hcnt, hA.ct]
  · intro id hm
    rw [hmeta] at hm
    rw [hmk, hEq]
    exact hA.ki id hm
  · intro x hx
    rw [hmeta, hEq]
    exact hlh x hx
  · intro x hx
    rw [hmeta, hEq]
    exact hlc x hx
  · intro x hx
    rw [hmeta, hEq]
    exact hlt x hx

theorem advanceHand_live (T : Cache) (hOpt : Option Nat) (i : Int)
    (p1 : Option Nat) (p2 : Int)
    (h : advanceHand T hOpt i = Res.ok (p1, p2)) :
    ∀ x, p1 = some x → x ∈ T.meta := by
  cases hOpt with
  | none => exact Res.noConfusion h
  | some id2 =>
    simp only [advanceHand] at h
    split at h
    · rename_i hq
      injection h with h2
      injection h2 with ha hb
      intro x hx
      rw [← ha] at hx
      exact head?_mem T.meta x hx
    · rename_i q hq
      injection h with h2
      injection h2 with ha hb
      intro x hx
      rw [← ha] at hx
      injection hx with hx2
      rw [← hx2]
      exact listNext_mem T.meta id2 q hq

theorem ACCe_advance (T s2 : Cache) (hA : ACCe T) (hOpt : Option Nat) (i : Int)
    (p1 : Option Nat) (p2 : Int)
    (hadv : advanceHand T hOpt i = Res.ok (p1, p2))
    (hmeta : s2.meta = T.meta) (hent : s2.entries = T.entries)
    (hmk : s2.metaKeys = T.metaKeys) (hnid : s2.nextId = T.nextId)
    (hch : s2.count_hot = T.count_hot) (hcc : s2.count_cold = T.count_cold)
    (hct : s2.count_test = T.count_test)
    (hlh : s2.hand_pos_hot = T.hand_pos_hot ∨ s2.hand_pos_hot = p1)
    (hlc : s2.hand_pos_cold = T.hand_pos_cold ∨ s2.hand_pos_cold = p1)
    (hlt : s2.hand_pos_test = T.hand_pos_test ∨ s2.hand_pos_test = p1) :
    ACCe s2 := by
  have hlive := advanceHand_live T hOpt i p1 p2 hadv
  refine ACCe_hands_update T s2 hA hmeta hent hmk hnid hch hcc hct ?_ ?_ ?_
  · intro x hx
    rcases hlh with he | he
    · rw [he] at hx
      exact hA.lh x hx
    · rw [he] at hx
      exact Or.inl (hlive x hx)
  · intro x hx
    rcases hlc with he | he
    · rw [he] at hx
      exact hA.lc x hx
    · rw [he] at hx
      exact Or.inl (hlive x hx)
  · intro x hx
    rcases hlt with he | he
    · rw [he] at hx
      exact hA.lt x hx
    · rw [he] at hx
      exact Or.inl (hlive x hx)

theorem ACCe_setEntry_gen (s s2 : Cache) (cid : Nat) (eNew : metaEntry)
    (hA : ACCe s) (hmem : cid ∈ s.meta)
    (hmeta : s2.meta = s.meta) (hent : s2.entries = ains s.entries cid eNew)
    (hmk : s2.metaKeys = s.metaKeys) (hnid : s2.nextId = s.nextId)
    (hph : s2.hand_pos_hot = s.hand_pos_hot) (hpc : s2.hand_pos_cold = s.hand_pos_cold)
    (hpt : s2.hand_pos_test = s.hand_pos_test)
    (htv : eNew.ptype = pageType.ptTest ↔ eNew.val = none)
    (hkey : eNew.key = (entryOf s cid).key)
    (hch : s2.count_hot = s.count_hot
      + ((if eNew.ptype = pageType.ptHot then (1:Int) else 0)
         - (if (entryOf s cid).ptype = pageType.ptHot then 1 else 0)))
    (hcc : s2.count_cold = s.count_cold
      + ((if eNew.ptype = pageType.ptCold then (1:Int) else 0)
         - (if (entryOf s cid).ptype = pageType.ptCold then 1 else 0)))
    (hct : s2.count_test = s.count_test
      + ((if eNew.ptype = pageType.ptTest then (1:Int) else 0)
         - (if (entryOf s cid).ptype = pageType.ptTest then 1 else 0))) :
    ACCe s2 := by
  have hne : s.meta ≠ [] := List.ne_nil_of_mem hmem
  have hEq : ∀ x, entryOf s2 x = entryOf (setEntry s cid eNew) x := by
    intro x
    show (alookup s2.entries x).getD defaultEntry = (alookup (ains s.entries cid eNew) x).getD defaultEntry
    rw [hent]
  have hEself : entryOf s2 cid = eNew := by
    rw [hEq]
    exact entryOf_setEntry_self s cid eNew
  have hEne : ∀ x, x ≠ cid → entryOf s2 x = entryOf s x := by
    intro x hx
    rw [hEq]
    exact entryOf_setEntry_ne s cid x eNew hx
  have hcnt : ∀ p, cntP s2 p
      = cntP s p - (if (entryOf s cid).ptype = p then 1 else 0)
        + (if eNew.ptype = p then 1 else 0) := by
    intro p
    show cntPL s2 p s2.meta = _
    rw [hmeta, cntPL_entries_eq (setEntry s cid eNew) s2 hent,
      cntPL_setEntry_mem s cid eNew p s.meta hA.inv.nodup hmem]
    rfl
  constructor
  · exact hA.inv.transport hmeta hmk hnid
  · intro id hm
    rw [hmeta] at hm
    by_cases hc : id = cid
    · rw [hc, hEself]
      exact htv
    · rw [hEne id hc]
      exact hA.tv id hm
  · rw [hch, hcnt, hA.ch]
    omega
  · rw [hcc, hcnt, hA.cc]
    omega
  · rw [hct, hcnt, hA.ct]
    omega
  · intro id hm
    rw [hmeta] at hm
    rw [hmk]
    by_cases hc : id = cid
    · rw [hc, hEself, hkey]
      exact hA.ki cid (hc ▸ hm)
    · rw [hEne id hc]
      exact hA.ki id hm
  · intro x hx
    rw [hph] at hx
    rcases hA.lh x hx with h1 | ⟨h1, _⟩
    · exact Or.inl (by rw [hmeta]; exact h1)
    · exact absurd h1 hne
  · intro x hx
    rw [hpc] at hx
    rcases hA.lc x hx with h1 | ⟨h1, _⟩
    · exact Or.inl (by rw [hmeta]; exact h1)
    · exact absurd h1 hne
  · intro x hx
    rw [hpt] at hx
    rcases hA.lt x hx with h1 | ⟨h1, _⟩
    · exact Or.inl (by rw [hmeta]; exact h1)
    · exact absurd h1 hne

theorem fixDelHand_spec (s : Cache) (e : Nat) (hOpt h2 : Option Nat)
    (hr : fixDelHand s (some e) hOpt = Res.ok h2)
    (hnd : s.meta.Nodup) (he : e ∈ s.meta)
    (hlive : ∀ x, hOpt = some x → x ∈ s.meta) :
    ∀ x, h2 = some x → (x ∈ s.meta ∧ x ≠ e) ∨ (s.meta = [e] ∧ x = e) := by
  intro x hx
  rw [fixDelHand.eq_def] at hr
  cases hOpt with
  | none =>
    rw [if_neg (by simp)] at hr
    injection hr with hx2
    rw [← hx2] at hx
    exact Option.noConfusion hx
  | some y =>
    by_cases hey : (some e : Option Nat) = some y
    · rw [if_pos hey] at hr
      have hye : y = e := by
        injection hey with h3
        exact h3.symm
      subst hye
      have hr2 : (match listPrev s.meta y with
          | none => Res.ok (back s)
          | some q => Res.ok (some q)) = Res.ok h2 := hr
      split at hr2
      · rename_i hlp
        injection hr2 with hx2
        rw [← hx2] at hx
        obtain ⟨t, hlt⟩ := listPrev_none_head s.meta y he hlp
        cases t with
        | nil =>
          right
          refine ⟨hlt, ?_⟩
          have hback : back s = some y := by
            show s.meta.getLast? = some y
            rw [hlt, List.getLast?_singleton]
          rw [hback] at hx
          injection hx with hx4
          exact hx4.symm
        | cons b t2 =>
          left
          have hback : back s = (b :: t2).getLast? := by
            show s.meta.getLast? = _
            rw [hlt, List.getLast?_cons_cons]
          rw [hback] at hx
          have hxm : x ∈ b :: t2 := getLast?_mem _ x hx
          have hnm : y ∉ b :: t2 := by
            rw [hlt] at hnd
            exact (List.nodup_cons.mp hnd).1
          refine ⟨by rw [hlt]; exact List.mem_cons_of_mem _ hxm, ?_⟩
          intro hxe
          rw [hxe] at hxm
          exact hnm hxm
      · rename_i q hlp
        injection hr2 with hx2
        rw [← hx2] at hx
        injection hx with hx3
        rw [← hx3]
        exact Or.inl (listPrev_mem_ne s.meta y q hlp)
    · rw [if_neg hey] at hr
      injection hr with hx2
      rw [← hx2] at hx
      refine Or.inl ⟨hlive x hx, ?_⟩
      intro hxe
      rw [hxe] at hx
      exact hey hx.symm

theorem meta_del_hands (s : Cache) (k : String) (sd : Cache)
    (h : meta_del s k = Res.ok sd) (hnd : s.meta.Nodup)
    (hstored : ∀ id, alookup s.metaKeys k = some (some id) → id ∈ s.meta)
    (lh : ∀ x, s.hand_pos_hot = some x → x ∈ s.meta)
    (lc : ∀ x, s.hand_pos_cold = some x → x ∈ s.meta)
    (lt2 : ∀ x, s.hand_pos_test = some x → x ∈ s.meta) :
    ∃ e : Nat, alookup s.metaKeys k = some (some e) ∧ sd.meta = s.meta.erase e ∧
      (∀ x, sd.hand_pos_hot = some x → x ∈ sd.meta ∨ (sd.meta = [] ∧ x = e)) ∧
      (∀ x, sd.hand_pos_cold = some x → x ∈ sd.meta ∨ (sd.meta = [] ∧ x = e)) ∧
      (∀ x, sd.hand_pos_test = some x → x ∈ sd.meta ∨ (sd.meta = [] ∧ x = e)) := by
  simp only [meta_del] at h
  split at h
  · exact Res.noConfusion h
  rename_i elt helt
  split at h
  rotate_left
  · exact Res.noConfusion h
  · exact Res.noConfusion h
  rename_i ph hph
  split at h
  rotate_left
  · exact Res.noConfusion h
  · exact Res.noConfusion h
  rename_i pc hpc
  split at h
  rotate_left
  · exact Res.noConfusion h
  · exact Res.noConfusion h
  rename_i pt hpt
  split at h
  · exact Res.noConfusion h
  rename_i e
  injection h with h2
  subst h2
  have hmem : e ∈ s.meta := hstored e helt
  refine ⟨e, helt, rfl, ?_, ?_, ?_⟩
  · intro x hx
    have hx2 : ph = some x := hx
    rcases fixDelHand_spec _ e _ ph hph hnd hmem lh x hx2 with ⟨hm1, hne1⟩ | ⟨hsing, hxe⟩
    · left
      show x ∈ s.meta.erase e
      have hm1b : x ∈ s.meta := hm1
      exact (List.mem_erase_of_ne hne1).mpr hm1b
    · right
      have hsing2 : s.meta = [e] := hsing
      refine ⟨?_, hxe⟩
      show s.meta.erase e = []
      rw [hsing2, List.erase_cons_head]
  · intro x hx
    have hx2 : pc = some x := hx
    rcases fixDelHand_spec _ e _ pc hpc hnd hmem lc x hx2 with ⟨hm1, hne1⟩ | ⟨hsing, hxe⟩
    · left
      show x ∈ s.meta.erase e
      have hm1b : x ∈ s.meta := hm1
      exact (List.mem_erase_of_ne hne1).mpr hm1b
    · right
      have hsing2 : s.meta = [e] := hsing
      refine ⟨?_, hxe⟩
      show s.meta.erase e = []
      rw [hsing2, List.erase_cons_head]
  · intro x hx
    have hx2 : pt = some x := hx
    rcases fixDelHand_spec _ e _ pt hpt hnd hmem lt2 x hx2 with ⟨hm1, hne1⟩ | ⟨hsing, hxe⟩
    · left
      show x ∈ s.meta.erase e
      have hm1b : x ∈ s.meta := hm1
      exact (List.mem_erase_of_ne hne1).mpr hm1b
    · right
      have hsing2 : s.meta = [e] := hsing
      refine ⟨?_, hxe⟩
      show s.meta.erase e = []
      rw [hsing2, List.erase_cons_head]

theorem coldAdvance_ACC (s1 s2 : Cache) (hA : ACCe s1) (h : coldAdvance s1 = Res.ok s2) :
    ACCe s2 ∧ s2.metaKeys = s1.metaKeys := by
  simp only [coldAdvance] at h
  split at h
  rotate_left
  · exact Res.noConfusion h
  · exact Res.noConfusion h
  rename_i pi hadv
  injection h with h2
  subst h2
  exact ⟨ACCe_advance s1 _ hA s1.hand_pos_cold s1.hand_idx_cold pi.1 pi.2 hadv
    rfl rfl rfl rfl rfl rfl rfl (Or.inl rfl) (Or.inr rfl) (Or.inl rfl), rfl⟩

theorem coldPromote_ACC (s : Cache) (cid : Nat) (hA : ACCe s)
    (hmem : cid ∈ s.meta) (hty : (entryOf s cid).ptype = pageType.ptCold) :
    ACCe (setEntry { s with count_cold := s.count_cold - 1, count_hot := s.count_hot + 1 }
      cid { entryOf s cid with ptype := pageType.ptHot, ref := false }) := by
  refine ACCe_setEntry_gen s _ cid _ hA hmem rfl rfl rfl rfl rfl rfl rfl ?_ rfl ?_ ?_ ?_
  · show pageType.ptHot = pageType.ptTest ↔ (entryOf s cid).val = none
    constructor
    · intro hc
      exact absurd hc (by decide)
    · intro hc
      have h3 := (hA.tv cid hmem).mpr hc
      rw [hty] at h3
      exact absurd h3 (by decide)
  · show s.count_hot + 1 = s.count_hot
      + ((if pageType.ptHot = pageType.ptHot then (1:Int) else 0)
         - (if (entryOf s cid).ptype = pageType.ptHot then 1 else 0))
    rw [hty, if_pos rfl, if_neg (by decide)]
    omega
  · show s.count_cold - 1 = s.count_cold
      + ((if pageType.ptHot = pageType.ptCold then (1:Int) else 0)
         - (if (entryOf s cid).ptype = pageType.ptCold then 1 else 0))
    rw [hty, if_neg (by decide), if_pos rfl]
    omega
  · show s.count_test = s.count_test
      + ((if pageType.ptHot = pageType.ptTest then (1:Int) else 0)
         - (if (entryOf s cid).ptype = pageType.ptTest then 1 else 0))
    rw [hty, if_neg (by decide), if_neg (by decide)]
    omega

theorem coldDemote_ACC (s : Cache) (cid : Nat) (hA : ACCe s)
    (hmem : cid ∈ s.meta) (hty : (entryOf s cid).ptype = pageType.ptCold) :
    ACCe (setEntry { s with count_cold := s.count_cold - 1, count_test := s.count_test + 1 }
      cid { entryOf s cid with ptype := pageType.ptTest, val := none }) := by
  refine ACCe_setEntry_gen s _ cid _ hA hmem rfl rfl rfl rfl rfl rfl rfl ?_ rfl ?_ ?_ ?_
  · show pageType.ptTest = pageType.ptTest ↔ (none : Option Int) = none
    simp
  · show s.count_hot = s.count_hot
      + ((if pageType.ptTest = pageType.ptHot then (1:Int) else 0)
         - (if (entryOf s cid).ptype = pageType.ptHot then 1 else 0))
    rw [hty, if_neg (by decide), if_neg (by decide)]
    omega
  · show s.count_cold - 1 = s.count_cold
      + ((if pageType.ptTest = pageType.ptCold then (1:Int) else 0)
         - (if (entryOf s cid).ptype = pageType.ptCold then 1 else 0))
    rw [hty, if_neg (by decide), if_pos rfl]
    omega
  · show s.count_test + 1 = s.count_test
      + ((if pageType.ptTest = pageType.ptTest then (1:Int) else 0)
         - (if (entryOf s cid).ptype = pageType.ptTest then 1 else 0))
    rw [hty, if_pos rfl, if_neg (by decide)]
    omega

theorem hotBody_ACC (s0 s' : Cache) (hA : ACCe s0) (h : hotBody s0 = Res.ok s') :
    ACCe s' ∧ s'.metaKeys = s0.metaKeys := by
  simp only [hotBody] at h
  split at h
  · exact Res.noConfusion h
  rename_i hid hhid
  by_cases hty : (entryOf s0 hid).ptype = pageType.ptHot
  · rw [if_pos hty] at h
    have hmem : hid ∈ s0.meta := by
      rcases hA.lh hid hhid with h1 | ⟨_, h2⟩
      · exact h1
      · rw [hty] at h2
        exact absurd h2 (by decide)
    by_cases href : (entryOf s0 hid).ref = true
    · rw [if_pos href] at h
      have hS1 : ACCe (setEntry s0 hid { entryOf s0 hid with ref := false }) := by
        refine ACCe_setEntry_gen s0 _ hid _ hA hmem rfl rfl rfl rfl rfl rfl rfl ?_ rfl ?_ ?_ ?_
        · show ((entryOf s0 hid).ptype = pageType.ptTest ↔ (entryOf s0 hid).val = none)
          exact hA.tv hid hmem
        · show s0.count_hot = s0.count_hot
            + ((if (entryOf s0 hid).ptype = pageType.ptHot then (1:Int) else 0)
               - (if (entryOf s0 hid).ptype = pageType.ptHot then 1 else 0))
          omega
        · show s0.count_cold = s0.count_cold
            + ((if (entryOf s0 hid).ptype = pageType.ptCold then (1:Int) else 0)
               - (if (entryOf s0 hid).ptype = pageType.ptCold then 1 else 0))
          omega
        · show s0.count_test = s0.count_test
            + ((if (entryOf s0 hid).ptype = pageType.ptTest then (1:Int) else 0)
               - (if (entryOf s0 hid).ptype = pageType.ptTest then 1 else 0))
          omega
      split at h
      rotate_left
      · exact Res.noConfusion h
      · exact Res.noConfusion h
      rename_i pi hadv
      injection h with h2
      subst h2
      exact ⟨ACCe_advance _ _ hS1 _ _ pi.1 pi.2 hadv rfl rfl rfl rfl rfl rfl rfl
        (Or.inr rfl) (Or.inl rfl) (Or.inl rfl), rfl⟩
    · rw [if_neg href] at h
      have hS1 : ACCe (setEntry { s0 with count_hot := s0.count_hot - 1, count_cold := s0.count_cold + 1 } hid { entryOf s0 hid with ptype := pageType.ptCold }) := by
        refine ACCe_setEntry_gen s0 _ hid _ hA hmem rfl rfl rfl rfl rfl rfl rfl ?_ rfl ?_ ?_ ?_
        · show pageType.ptCold = pageType.ptTest ↔ (entryOf s0 hid).val = none
          constructor
          · intro hc
            exact absurd hc (by decide)
          · intro hc
            have h3 := (hA.tv hid hmem).mpr hc
            rw [hty] at h3
            exact absurd h3 (by decide)
        · show s0.count_hot - 1 = s0.count_hot
            + ((if pageType.ptCold = pageType.ptHot then (1:Int) else 0)
               - (if (entryOf s0 hid).ptype = pageType.ptHot then 1 else 0))
          rw [hty, if_neg (by decide), if_pos rfl]
          omega
        · show s0.count_cold + 1 = s0.count_cold
            + ((if pageType.ptCold = pageType.ptCold then (1:Int) else 0)
               - (if (entryOf s0 hid).ptype = pageType.ptCold then 1 else 0))
          rw [hty, if_pos rfl, if_neg (by decide)]
          omega
        · show s0.count_test = s0.count_test
            + ((if pageType.ptCold = pageType.ptTest then (1:Int) else 0)
               - (if (entryOf s0 hid).ptype = pageType.ptTest then 1 else 0))
          rw [hty, if_neg (by decide), if_neg (by decide)]
          omega
      split at h
      rotate_left
      · exact Res.noConfusion h
      · exact Res.noConfusion h
      rename_i pi hadv
      injection h with h2
      subst h2
      exact ⟨ACCe_advance _ _ hS1 _ _ pi.1 pi.2 hadv rfl rfl rfl rfl rfl rfl rfl
        (Or.inr rfl) (Or.inl rfl) (Or.inl rfl), rfl⟩
  · rw [if_neg hty] at h
    split at h
    rotate_left
    · exact Res.noConfusion h
    · exact Res.noConfusion h
    rename_i pi hadv
    injection h with h2
    subst h2
    exact ⟨ACCe_advance _ _ hA _ _ pi.1 pi.2 hadv rfl rfl rfl rfl rfl rfl rfl
      (Or.inr rfl) (Or.inl rfl) (Or.inl rfl), rfl⟩

theorem testBody_ACC (s0 s' : Cache) (hA : ACCe s0) (h : testBody s0 = Res.ok s') :
    ACCe s' ∧ (∀ k, mapGet s0 k = none → mapGet s' k = none) := by
  simp only [testBody] at h
  split at h
  · exact Res.noConfusion h
  rename_i tid htid
  by_cases hty : (entryOf s0 tid).ptype = pageType.ptTest
  · rw [if_pos hty] at h
    rcases hA.lt tid htid with hmem | ⟨hemp, _⟩
    · -- live test node: it gets deleted
      have hki := hA.ki tid hmem
      split at h
      rotate_left
      · rename_i hno
        exact absurd h (hno s')
      rename_i s1 heq1
      split at heq1
      rotate_left
      · rename_i hno
        exact absurd heq1 (hno s1)
      rename_i s2 hdel
      injection heq1 with h3
      subst h3
      obtain ⟨d1, d2, d3, d4, d5, d6, d7, d8, id2, hlook, hdme⟩ := meta_del_spec _ _ _ hdel
      have hid2 : id2 = tid := by
        rw [hki] at hlook
        injection hlook with h4
        injection h4 with h5
        exact h5.symm
      rw [hid2] at hdme
      have hstrict : ∀ (hand : Option Nat), (∀ x, hand = some x →
          x ∈ s0.meta ∨ (s0.meta = [] ∧ (entryOf s0 x).ptype = pageType.ptTest)) →
          ∀ x, hand = some x → x ∈ s0.meta := by
        intro hand hcl x hx
        rcases hcl x hx with h1 | ⟨h1, _⟩
        · exact h1
        · rw [h1] at hmem
          exact absurd hmem (List.not_mem_nil tid)
      obtain ⟨e2, helt2, hdm2, hhH, hhC, hhT⟩ := meta_del_hands s0 _ s2 hdel hA.inv.nodup
        (fun id hl => (hA.inv.stored _ id hl).1)
        (hstrict _ hA.lh) (hstrict _ hA.lc) (hstrict _ hA.lt)
      have he2 : e2 = tid := by
        rw [hki] at helt2
        injection helt2 with h4
        injection h4 with h5
        exact h5.symm
      rw [he2] at hdm2 hhH hhC hhT
      have hent2 : s2.entries = s0.entries := d7
      have hmk2 : s2.metaKeys = aerase s0.metaKeys ((entryOf s0 tid).key) := d8
      have hEqR : ∀ x : Nat, (alookup s2.entries x).getD defaultEntry = entryOf s0 x := by
        intro x
        rw [hent2]
        rfl
      have hnd0 := hA.inv.nodup
      have hREC : ACCe { s2 with
          hand_pos_test := match listPrev s0.meta tid with | none => back s0 | some q => some q,
          hand_idx_test := match listPrev s0.meta tid with
            | none => (s0.meta.length : Int) | some _ => s0.hand_idx_test - 1,
          count_test := s2.count_test - 1,
          mem_cold := if 1 < s2.mem_cold then s2.mem_cold - 1 else s2.mem_cold } := by
        constructor
        · exact (meta_del_INV0 _ _ _ hdel hA.inv).1.transport rfl rfl rfl
        · intro id hm
          have hm2 : id ∈ s2.meta := hm
          rw [hdm2] at hm2
          have hm0 : id ∈ s0.meta := List.mem_of_mem_erase hm2
          show ((alookup s2.entries id).getD defaultEntry).ptype = pageType.ptTest
            ↔ ((alookup s2.entries id).getD defaultEntry).val = none
          rw [hEqR]
          exact hA.tv id hm0
        · show s2.count_hot = cntPL _ pageType.ptHot s2.meta
          have hcnt : cntPL { s2 with
              hand_pos_test := match listPrev s0.meta tid with | none => back s0 | some q => some q,
              hand_idx_test := match listPrev s0.meta tid with
                | none => (s0.meta.length : Int) | some _ => s0.hand_idx_test - 1,
              count_test := s2.count_test - 1,
              mem_cold := if 1 < s2.mem_cold then s2.mem_cold - 1 else s2.mem_cold }
              pageType.ptHot s2.meta = cntPL s0 pageType.ptHot (s0.meta.erase tid) := by
            rw [hdm2]
            apply cntPL_entries_eq
            exact hent2
          rw [hcnt, cntPL_erase s0 tid _ s0.meta hnd0 hmem, hty, if_neg (by decide)]
          have e3 : s2.count_hot = s0.count_hot := d3
          have hch0 : s0.count_hot = cntPL s0 pageType.ptHot s0.meta := hA.ch
          omega
        · show s2.count_cold = cntPL _ pageType.ptCold s2.meta
          have hcnt : cntPL { s2 with
              hand_pos_test := match listPrev s0.meta tid with | none => back s0 | some q => some q,
              hand_idx_test := match listPrev s0.meta tid with
                | none => (s0.meta.length : Int) | some _ => s0.hand_idx_test - 1,
              count_test := s2.count_test - 1,
              mem_cold := if 1 < s2.mem_cold then s2.mem_cold - 1 else s2.mem_cold }
              pageType.ptCold s2.meta = cntPL s0 pageType.ptCold (s0.meta.erase tid) := by
            rw [hdm2]
            apply cntPL_entries_eq
            exact hent2
          rw [hcnt, cntPL_erase s0 tid _ s0.meta hnd0 hmem, hty, if_neg (by decide)]
          have e4 : s2.count_cold = s0.count_cold := d4
          have hcc0 : s0.count_cold = cntPL s0 pageType.ptCold s0.meta := hA.cc
          omega
        · show s2.count_test - 1 = cntPL _ pageType.ptTest s2.meta
          have hcnt : cntPL { s2 with
              hand_pos_test := match listPrev s0.meta tid with | none => back s0 | some q => some q,
              hand_idx_test := match listPrev s0.meta tid with
                | none => (s0.meta.length : Int) | some _ => s0.hand_idx_test - 1,
              count_test := s2.count_test - 1,
              mem_cold := if 1 < s2.mem_cold then s2.mem_cold - 1 else s2.mem_cold }
              pageType.ptTest s2.meta = cntPL s0 pageType.ptTest (s0.meta.erase tid) := by
            rw [hdm2]
            apply cntPL_entries_eq
            exact hent2
          rw [hcnt, cntPL_erase s0 tid _ s0.meta hnd0 hmem, hty, if_pos rfl]
          have e5 : s2.count_test = s0.count_test := d5
          have hct0 : s0.count_test = cntPL s0 pageType.ptTest s0.meta := hA.ct
          omega
        · intro id hm
          have hm2 : id ∈ s2.meta := hm
          rw [hdm2] at hm2
          have hm0 : id ∈ s0.meta := List.mem_of_mem_erase hm2
          have hne : id ≠ tid := (hnd0.mem_erase_iff.mp hm2).1
          have hkne : (entryOf s0 id).key ≠ (entryOf s0 tid).key := by
            intro he
            have h4 := hA.ki id hm0
            rw [he, hki] at h4
            injection h4 with h5
            injection h5 with h6
            exact hne h6.symm
          show alookup s2.metaKeys ((alookup s2.entries id).getD defaultEntry).key
            = some (some id)
          rw [hEqR, hmk2, alookup_aerase_ne _ _ _ hkne]
          exact hA.ki id hm0
        · intro x hx
          have hx2 : s2.hand_pos_hot = some x := hx
          rcases hhH x hx2 with h1 | ⟨h1, h2⟩
          · exact Or.inl h1
          · subst h2
            refine Or.inr ⟨h1, ?_⟩
            show ((alookup s2.entries x).getD defaultEntry).ptype = pageType.ptTest
            rw [hEqR]
            exact hty
        · intro x hx
          have hx2 : s2.hand_pos_cold = some x := hx
          rcases hhC x hx2 with h1 | ⟨h1, h2⟩
          · exact Or.inl h1
          · subst h2
            refine Or.inr ⟨h1, ?_⟩
            show ((alookup s2.entries x).getD defaultEntry).ptype = pageType.ptTest
            rw [hEqR]
            exact hty
        · intro x hx
          have hx2 : (match listPrev s0.meta tid with
              | none => back s0 | some q => some q) = some x := hx
          cases hp0 : listPrev s0.meta tid with
          | some q =>
            rw [hp0] at hx2
            injection hx2 with hx3
            obtain ⟨hqm, hqne⟩ := listPrev_mem_ne s0.meta tid q hp0
            left
            show x ∈ s2.meta
            rw [hdm2, ← hx3]
            exact (List.mem_erase_of_ne hqne).mpr hqm
          | none =>
            rw [hp0] at hx2
            obtain ⟨t, hlt3⟩ := listPrev_none_head s0.meta tid hmem hp0
            cases t with
            | nil =>
              have hback : back s0 = some tid := by
                show s0.meta.getLast? = some tid
                rw [hlt3, List.getLast?_singleton]
              rw [hback] at hx2
              injection hx2 with hx3
              right
              constructor
              · show s2.meta = []
                rw [hdm2, hlt3, List.erase_cons_head]
              · show ((alookup s2.entries x).getD defaultEntry).ptype = pageType.ptTest
                rw [hEqR, ← hx3]
                exact hty
            | cons b t2 =>
              have hback : back s0 = (b :: t2).getLast? := by
                show s0.meta.getLast? = _
                rw [hlt3, List.getLast?_cons_cons]
              rw [hback] at hx2
              have hxm : x ∈ b :: t2 := getLast?_mem _ x hx2
              left
              show x ∈ s2.meta
              rw [hdm2, hlt3, List.erase_cons_head]
              exact hxm
      split at h
      rotate_left
      · exact Res.noConfusion h
      · exact Res.noConfusion h
      rename_i pi hadv
      injection h with h2
      subst h2
      refine ⟨ACCe_advance _ _ hREC _ _ pi.1 pi.2 hadv rfl rfl rfl rfl rfl rfl rfl
        (Or.inl rfl) (Or.inl rfl) (Or.inr rfl), ?_⟩
      intro k hmk
      show (alookup s2.metaKeys k).getD none = none
      rw [hmk2]
      by_cases hk : k = (entryOf s0 tid).key
      · subst hk
        rw [alookup_aerase_self _ _ hA.inv.keysNodup]
        rfl
      · rw [alookup_aerase_ne _ _ _ hk]
        exact hmk
    · -- dangling test hand on an emptied ring: meta_del cannot return
      cases hd : meta_del s0 ((entryOf s0 tid).key) with
      | ok s2 =>
        obtain ⟨-, -, -, -, -, -, -, -, id2, hlook, -⟩ := meta_del_spec _ _ _ hd
        have hidm := (hA.inv.stored _ id2 hlook).1
        rw [hemp] at hidm
        exact absurd hidm (List.not_mem_nil id2)
      | panic =>
        rw [hd] at h
        exact Res.noConfusion h
      | timeout =>
        rw [hd] at h
        exact Res.noConfusion h
  · rw [if_neg hty] at h
    have h2 : (match advanceHand s0 s0.hand_pos_test s0.hand_idx_test with
        | Res.ok pi => Res.ok { s0 with hand_pos_test := pi.1, hand_idx_test := pi.2 }
        | Res.panic => Res.panic
        | Res.timeout => Res.timeout) = Res.ok s' := h
    split at h2
    rotate_left
    · exact Res.noConfusion h2
    · exact Res.noConfusion h2
    rename_i pi hadv
    injection h2 with h3
    subst h3
    exact ⟨ACCe_advance _ _ hA _ _ pi.1 pi.2 hadv rfl rfl rfl rfl rfl rfl rfl
      (Or.inl rfl) (Or.inl rfl) (Or.inr rfl), fun k hmk => hmk⟩

theorem engine_ACC : ∀ (f : Nat) (c : HandCall) (s s' : Cache),
    engine f c s = Res.ok s' → ACCe s →
    ACCe s' ∧ (∀ k, mapGet s k = none → mapGet s' k = none) := by
  intro f
  induction f with
  | zero => intro c s s' h hA; exact Res.noConfusion h
  | succ f ih =>
    intro c s s' h hA
    cases c with
    | evictC =>
      simp only [engine] at h
      split at h
      · split at h
        case h_1 t ht =>
          obtain ⟨hA1, hm1⟩ := ih HandCall.coldC s t ht hA
          obtain ⟨hA2, hm2⟩ := ih HandCall.evictC t s' h hA1
          exact ⟨hA2, fun k hk => hm2 k (hm1 k hk)⟩
        all_goals (rename_i hno; exact absurd h (hno s'))
      · injection h with h2
        subst h2
        exact ⟨hA, fun k hk => hk⟩
    | testLoopC =>
      simp only [engine] at h
      split at h
      · split at h
        case h_1 t ht =>
          obtain ⟨hA1, hm1⟩ := ih HandCall.testC s t ht hA
          obtain ⟨hA2, hm2⟩ := ih HandCall.testLoopC t s' h hA1
          exact ⟨hA2, fun k hk => hm2 k (hm1 k hk)⟩
        all_goals (rename_i hno; exact absurd h (hno s'))
      · injection h with h2
        subst h2
        exact ⟨hA, fun k hk => hk⟩
    | hotLoopC =>
      simp only [engine] at h
      split at h
      · split at h
        case h_1 t ht =>
          obtain ⟨hA1, hm1⟩ := ih HandCall.hotC s t ht hA
          obtain ⟨hA2, hm2⟩ := ih HandCall.hotLoopC t s' h hA1
          exact ⟨hA2, fun k hk => hm2 k (hm1 k hk)⟩
        all_goals (rename_i hno; exact absurd h (hno s'))
      · injection h with h2
        subst h2
        exact ⟨hA, fun k hk => hk⟩
    | hotC =>
      simp only [engine] at h
      split at h
      case h_1 s0 heq0 =>
        have hpre : ACCe s0 ∧ (∀ k, mapGet s k = none → mapGet s0 k = none) := by
          split at heq0
          · exact ih HandCall.testC s s0 heq0 hA
          · injection heq0 with h2
            subst h2
            exact ⟨hA, fun k hk => hk⟩
        obtain ⟨hB, hm2⟩ := hotBody_ACC s0 s' hpre.1 h
        refine ⟨hB, fun k hk => ?_⟩
        show (alookup s'.metaKeys k).getD none = none
        rw [hm2]
        exact hpre.2 k hk
      all_goals (rename_i hno; exact absurd h (hno s'))
    | testC =>
      simp only [engine] at h
      split at h
      case h_1 s0 heq0 =>
        have hpre : ACCe s0 ∧ (∀ k, mapGet s k = none → mapGet s0 k = none) := by
          split at heq0
          · exact ih HandCall.coldC s s0 heq0 hA
          · injection heq0 with h2
            subst h2
            exact ⟨hA, fun k hk => hk⟩
        obtain ⟨hB, hm2⟩ := testBody_ACC s0 s' hpre.1 h
        exact ⟨hB, fun k hk => hm2 k (hpre.2 k hk)⟩
      all_goals (rename_i hno; exact absurd h (hno s'))
    | coldC =>
      simp only [engine] at h
      split at h
      case h_1 => exact Res.noConfusion h
      case h_2 cid hcid =>
        split at h
        case h_1 s1 heq1 =>
          have hfirst : ACCe s1 ∧ (∀ k, mapGet s k = none → mapGet s1 k = none) := by
            split at heq1
            · rename_i hty
              have htyc : (entryOf s cid).ptype = pageType.ptCold := hty
              have hmem : cid ∈ s.meta := by
                rcases hA.lc cid hcid with h1 | ⟨_, h2⟩
                · exact h1
                · rw [htyc] at h2
                  exact absurd h2 (by decide)
              split at heq1
              · injection heq1 with h2
                subst h2
                exact ⟨coldPromote_ACC s cid hA hmem htyc, fun k hk => hk⟩
              · obtain ⟨hAd, hmd⟩ := ih HandCall.testLoopC _ s1 heq1
                  (coldDemote_ACC s cid hA hmem htyc)
                exact ⟨hAd, fun k hk => hmd k hk⟩
            · injection heq1 with h2
              subst h2
              exact ⟨hA, fun k hk => hk⟩
          split at h
          case h_1 s2 hadv =>
            obtain ⟨hA2, hm2⟩ := coldAdvance_ACC s1 s2 hfirst.1 hadv
            obtain ⟨hA3, hm3⟩ := ih HandCall.hotLoopC s2 s' h hA2
            refine ⟨hA3, fun k hk => ?_⟩
            refine hm3 k ?_
            show (alookup s2.metaKeys k).getD none = none
            rw [hm2]
            exact hfirst.2 k hk
          all_goals exact Res.noConfusion h
        all_goals (rename_i hno; exact absurd h (hno s'))

theorem metaAddTail_live (T s' : Cache) (h : metaAddTail T = Res.ok s')
    (hc : ∀ x, T.hand_pos_cold = some x → x ∈ T.meta)
    (ht : ∀ x, T.hand_pos_test = some x → x ∈ T.meta) :
    (∀ x, s'.hand_pos_hot = some x → x ∈ s'.meta) ∧
    (∀ x, s'.hand_pos_cold = some x → x ∈ s'.meta) ∧
    (∀ x, s'.hand_pos_test = some x → x ∈ s'.meta) := by
  simp only [metaAddTail] at h
  split at h
  case h_1 t1 he1 =>
    split at h
    case h_1 t2 he2 =>
      obtain ⟨c1, c2, c3, c4, c5, hcold⟩ := tailAdvCold_frame2 _ _ he1
      obtain ⟨d1, d2, d3, d4, htest⟩ := tailAdvTest_frame2 _ _ he2
      obtain ⟨e1, e2, e3, hid, ehid, ehot⟩ := tailAdvHot_frame2 _ _ h
      have hm1 : t1.meta = T.meta := c1
      have hm2 : t2.meta = T.meta := by rw [d1, c1]
      have hm3 : s'.meta = T.meta := by rw [e1, hm2]
      refine ⟨?_, ?_, ?_⟩
      · intro x hx
        rw [hm3]
        rcases ehot with ⟨p, hp1, hp2⟩ | ⟨hp1, hp2⟩
        · rw [hp2] at hx
          injection hx with hx2
          rw [← hx2]
          have hmm := listNext_mem t2.meta hid p hp1
          rw [hm2] at hmm
          exact hmm
        · rw [hp2] at hx
          have hx3 : t2.meta.head? = some x := hx
          rw [hm2] at hx3
          exact head?_mem _ x hx3
      · intro x hx
        rw [hm3]
        rw [e2, d3] at hx
        rcases hcold with ⟨_, hres⟩ | ⟨_, cid, p, hq1, hq2, hq3⟩ | ⟨_, cid, hq1, hq2, hq3⟩
        · rw [hres] at hx
          exact hc x hx
        · rw [hq3] at hx
          injection hx with hx2
          rw [← hx2]
          exact listNext_mem T.meta cid p hq2
        · rw [hq3] at hx
          have hx3 : T.meta.head? = some x := hx
          exact head?_mem _ x hx3
      · intro x hx
        rw [hm3]
        rw [e3] at hx
        rcases htest with ⟨_, hres⟩ | ⟨_, tid, p, hq1, hq2, hq3⟩ | ⟨_, tid, hq1, hq2, hq3⟩
        · rw [hres, c3] at hx
          exact ht x hx
        · rw [hq3] at hx
          injection hx with hx2
          rw [← hx2]
          have hmm := listNext_mem t1.meta tid p hq2
          rw [hm1] at hmm
          exact hmm
        · rw [hq3] at hx
          have hx3 : t1.meta.head? = some x := hx
          rw [hm1] at hx3
          exact head?_mem _ x hx3
    all_goals (rename_i hno; exact absurd h (hno s'))
  all_goals (rename_i hno; exact absurd h (hno s'))

theorem metaAddCore_ACC (t s' : Cache) (e : metaEntry) (hI : INV0 t)
    (htv : ∀ id ∈ t.meta, ((entryOf t id).ptype = pageType.ptTest ↔ (entryOf t id).val = none))
    (hkin : ∀ id ∈ t.meta, alookup t.metaKeys (entryOf t id).key = some (some id))
    (hetv : e.ptype = pageType.ptTest ↔ e.val = none)
    (hkey : ∀ id ∈ t.meta, (entryOf t id).key ≠ e.key)
    (hhc : ∀ x, t.hand_pos_cold = some x → x ∈ t.meta ∨ t.meta = [])
    (hht : ∀ x, t.hand_pos_test = some x → x ∈ t.meta ∨ t.meta = [])
    (h : metaAddCore t e = Res.ok s') :
    INV0 s' ∧
    (∀ id ∈ s'.meta, ((entryOf s' id).ptype = pageType.ptTest ↔ (entryOf s' id).val = none)) ∧
    (∀ id ∈ s'.meta, alookup s'.metaKeys (entryOf s' id).key = some (some id)) ∧
    ((∀ x, s'.hand_pos_hot = some x → x ∈ s'.meta) ∧
     (∀ x, s'.hand_pos_cold = some x → x ∈ s'.meta) ∧
     (∀ x, s'.hand_pos_test = some x → x ∈ s'.meta)) ∧
    (∀ p, cntP s' p = cntP t p + (if e.ptype = p then 1 else 0)) := by
  obtain ⟨hInv, hlen2, hmm1, hmc1, hch1, hcc1, hct1, hnid1⟩ :=
    metaAddCore_step t s' e hI h
  obtain ⟨g1, g2, g3, g4, gmem, gsup, glen, gm1, gm2, g5, g6, g7⟩ :=
    metaAddCore_fields t s' e h
  have hfne : t.nextId ∉ t.meta := fun hm => by have := hI.bound _ hm; omega
  have hEfresh : entryOf s' t.nextId = e := by
    show (alookup s'.entries t.nextId).getD defaultEntry = e
    rw [g1, alookup_ains_self]
    rfl
  have hEold : ∀ x, x ≠ t.nextId → entryOf s' x = entryOf t x := by
    intro x hx
    show (alookup s'.entries x).getD defaultEntry = _
    rw [g1, alookup_ains_ne _ _ _ _ hx]
    rfl
  refine ⟨hInv, ?_, ?_, ?_⟩
  · intro id hm
    by_cases hid : id = t.nextId
    · rw [hid, hEfresh]
      exact hetv
    · rw [hEold id hid]
      rcases gmem id hm with h1 | h1
      · exact htv id h1
      · exact absurd h1 hid
  · intro id hm
    by_cases hid : id = t.nextId
    · rw [hid, hEfresh, g2, alookup_ains_self]
    · rw [hEold id hid, g2]
      rcases gmem id hm with h1 | h1
      · rw [alookup_ains_ne _ _ _ _ (hkey id h1)]
        exact hkin id h1
      · exact absurd h1 hid
  · cases hpos : t.hand_pos_hot with
    | none =>
      simp only [metaAddCore, hpos] at h
      obtain ⟨f1, f2, f3, f4, f5, f6, f7, f8, f9⟩ := metaAddTail_frame _ _ h
      constructor
      · refine metaAddTail_live _ s' h ?_ ?_
        · intro x hx
          have hx3 : (some t.nextId : Option Nat) = some x := hx
          injection hx3 with hx4
          rw [← hx4]
          exact List.mem_cons_self _ _
        · intro x hx
          have hx3 : (some t.nextId : Option Nat) = some x := hx
          injection hx3 with hx4
          rw [← hx4]
          exact List.mem_cons_self _ _
      · intro p
        show cntPL s' p s'.meta = cntPL t p t.meta + (if e.ptype = p then 1 else 0)
        rw [f3]
        show (if (entryOf s' t.nextId).ptype = p then (1:Int) else 0) + cntPL s' p t.meta
          = cntPL t p t.meta + (if e.ptype = p then 1 else 0)
        rw [hEfresh, cntPL_entries_ains_not_mem t s' t.nextId e g1 p t.meta hfne]
        omega
    | some hh =>
      simp only [metaAddCore, hpos] at h
      by_cases hin : hh ∈ t.meta
      · rw [if_pos hin] at h
        have hstrictc : ∀ x, t.hand_pos_cold = some x → x ∈ t.meta := by
          intro x hx
          rcases hhc x hx with h1 | h1
          · exact h1
          · rw [h1] at hin
            exact absurd hin (List.not_mem_nil hh)
        have hstrictt : ∀ x, t.hand_pos_test = some x → x ∈ t.meta := by
          intro x hx
          rcases hht x hx with h1 | h1
          · exact h1
          · rw [h1] at hin
            exact absurd hin (List.not_mem_nil hh)
        split at h
        rotate_left
        · exact Res.noConfusion h
        · exact Res.noConfusion h
        rename_i pc hr2
        split at h
        rotate_left
        · exact Res.noConfusion h
        · exact Res.noConfusion h
        rename_i pt hr3
        obtain ⟨f1, f2, f3, f4, f5, f6, f7, f8, f9⟩ := metaAddTail_frame _ _ h
        have hpclive : ∀ x, pc = some x → x ∈ insertBeforeL t.meta hh t.nextId := by
          split at hr2
          · rename_i hAc
            split at hr2
            · exact Res.noConfusion hr2
            · rename_i cid hpc2
              injection hr2 with hx
              intro x hx2
              have hx3 : listPrev (insertBeforeL t.meta hh t.nextId) cid = some x := by
                rw [hx]
                exact hx2
              exact (listPrev_mem_ne _ cid x hx3).1
          · rename_i hAc
            injection hr2 with hx
            intro x hx2
            rw [← hx] at hx2
            have hx3 : t.hand_pos_cold = some x := hx2
            exact mem_insertBeforeL_of_mem _ _ _ (hstrictc x hx3)
        have hptlive : ∀ x, pt = some x → x ∈ insertBeforeL t.meta hh t.nextId := by
          split at hr3
          · rename_i hBc
            split at hr3
            · exact Res.noConfusion hr3
            · rename_i tid hpt2
              injection hr3 with hx
              intro x hx2
              have hx3 : listPrev (insertBeforeL t.meta hh t.nextId) tid = some x := by
                rw [hx]
                exact hx2
              exact (listPrev_mem_ne _ tid x hx3).1
          · rename_i hBc
            injection hr3 with hx
            intro x hx2
            rw [← hx] at hx2
            have hx3 : t.hand_pos_test = some x := hx2
            exact mem_insertBeforeL_of_mem _ _ _ (hstrictt x hx3)
        constructor
        · exact metaAddTail_live _ s' h (fun x hx => hpclive x hx) (fun x hx => hptlive x hx)
        · intro p
          show cntPL s' p s'.meta = cntPL t p t.meta + (if e.ptype = p then 1 else 0)
          rw [f3]
          show cntPL s' p (insertBeforeL t.meta hh t.nextId)
            = cntPL t p t.meta + (if e.ptype = p then 1 else 0)
          rw [cntPL_insert t s' hh t.nextId e g1 p t.meta hfne hin]
      · rw [if_neg hin] at h
        have hnone : listPrev t.meta hh = none := listPrev_of_not_mem _ _ hin
        repeat' split at h
        all_goals first
          | exact Res.noConfusion h
          | exact absurd h (metaAddTail_no_hot _ hnone s')

theorem mapGet_some (s : Cache) (k : String) (id : Nat) (h : mapGet s k = some id) :
    alookup s.metaKeys k = some (some id) := by
  have h0 : (alookup s.metaKeys k).getD none = some id := h
  cases halt : alookup s.metaKeys k with
  | none =>
    rw [halt] at h0
    exact Option.noConfusion h0
  | some o =>
    rw [halt, Option.getD_some] at h0
    rw [h0]

theorem meta_add_ACC (f : Nat) (s se : Cache) (e : metaEntry)
    (hA : ACCe s)
    (hetv : e.ptype = pageType.ptTest ↔ e.val = none)
    (hk : mapGet s e.key = none)
    (h : meta_add f s e = Res.ok se) :
    INV0 se ∧
    (∀ id ∈ se.meta, ((entryOf se id).ptype = pageType.ptTest ↔ (entryOf se id).val = none)) ∧
    (∀ id ∈ se.meta, alookup se.metaKeys (entryOf se id).key = some (some id)) ∧
    ((∀ x, se.hand_pos_hot = some x → x ∈ se.meta) ∧
     (∀ x, se.hand_pos_cold = some x → x ∈ se.meta) ∧
     (∀ x, se.hand_pos_test = some x → x ∈ se.meta)) ∧
    se.count_hot + (if e.ptype = pageType.ptHot then (1:Int) else 0) = cntP se pageType.ptHot ∧
    se.count_cold + (if e.ptype = pageType.ptCold then (1:Int) else 0) = cntP se pageType.ptCold ∧
    se.count_test + (if e.ptype = pageType.ptTest then (1:Int) else 0) = cntP se pageType.ptTest := by
  cases f with
  | zero => exact Res.noConfusion h
  | succ f =>
    simp only [meta_add] at h
    split at h
    case h_1 s0 hev =>
      obtain ⟨hA0, hm0⟩ := engine_ACC f HandCall.evictC s s0 hev hA
      have hk0 : mapGet s0 e.key = none := hm0 e.key hk
      have hkey : ∀ id ∈ s0.meta, (entryOf s0 id).key ≠ e.key := by
        intro id hm hke
        have hki := hA0.ki id hm
        rw [hke] at hki
        have h2 : mapGet s0 e.key = some id := by
          show (alookup s0.metaKeys e.key).getD none = some id
          rw [hki]
          rfl
        rw [hk0] at h2
        exact Option.noConfusion h2
      obtain ⟨hI, htv, hki, hhands, hcnt⟩ :=
        metaAddCore_ACC s0 se e hA0.inv hA0.tv hA0.ki hetv hkey
          (fun x hx => (hA0.lc x hx).imp_right And.left)
          (fun x hx => (hA0.lt x hx).imp_right And.left)
          h
      obtain ⟨g1, g2, g3, g4, gmem, gsup, glen, gm1, gm2, g5, g6, g7⟩ :=
        metaAddCore_fields s0 se e h
      refine ⟨hI, htv, hki, hhands, ?_, ?_, ?_⟩
      · rw [g5, hA0.ch, hcnt pageType.ptHot]
      · rw [g4, hA0.cc, hcnt pageType.ptCold]
      · rw [g6, hA0.ct, hcnt pageType.ptTest]
    all_goals (rename_i hno; exact absurd h (hno se))

theorem ACCe_bump_hot (se : Cache) (hI : INV0 se)
    (htv : ∀ id ∈ se.meta, ((entryOf se id).ptype = pageType.ptTest ↔ (entryOf se id).val = none))
    (hki : ∀ id ∈ se.meta, alookup se.metaKeys (entryOf se id).key = some (some id))
    (hlh : ∀ x, se.hand_pos_hot = some x → x ∈ se.meta)
    (hlc : ∀ x, se.hand_pos_cold = some x → x ∈ se.meta)
    (hlt : ∀ x, se.hand_pos_test = some x → x ∈ se.meta)
    (hch : se.count_hot + 1 = cntP se pageType.ptHot)
    (hcc : se.count_cold = cntP se pageType.ptCold)
    (hct : se.count_test = cntP se pageType.ptTest) :
    ACCe { se with count_hot := se.count_hot + 1 } := by
  have hcnt : ∀ (p : pageType) (l : List Nat),
      cntPL { se with count_hot := se.count_hot + 1 } p l = cntPL se p l :=
    fun p l => cntPL_entries_eq se { se with count_hot := se.count_hot + 1 } rfl p l
  refine ⟨hI.transport rfl rfl rfl, ?_, ?_, ?_, ?_, ?_, ?_, ?_, ?_⟩
  · exact htv
  · show se.count_hot + 1 = cntPL { se with count_hot := se.count_hot + 1 } pageType.ptHot se.meta
    rw [hcnt pageType.ptHot se.meta]
    exact hch
  · show se.count_cold = cntPL { se with count_hot := se.count_hot + 1 } pageType.ptCold se.meta
    rw [hcnt pageType.ptCold se.meta]
    exact hcc
  · show se.count_test = cntPL { se with count_hot := se.count_hot + 1 } pageType.ptTest se.meta
    rw [hcnt pageType.ptTest se.meta]
    exact hct
  · exact hki
  · exact fun x hx => Or.inl (hlh x hx)
  · exact fun x hx => Or.inl (hlc x hx)
  · exact fun x hx => Or.inl (hlt x hx)

theorem ACCe_bump_cold (se : Cache) (hI : INV0 se)
    (htv : ∀ id ∈ se.meta, ((entryOf se id).ptype = pageType.ptTest ↔ (entryOf se id).val = none))
    (hki : ∀ id ∈ se.meta, alookup se.metaKeys (entryOf se id).key = some (some id))
    (hlh : ∀ x, se.hand_pos_hot = some x → x ∈ se.meta)
    (hlc : ∀ x, se.hand_pos_cold = some x → x ∈ se.meta)
    (hlt : ∀ x, se.hand_pos_test = some x → x ∈ se.meta)
    (hch : se.count_hot = cntP se pageType.ptHot)
    (hcc : se.count_cold + 1 = cntP se pageType.ptCold)
    (hct : se.count_test = cntP se pageType.ptTest) :
    ACCe { se with count_cold := se.count_cold + 1 } := by
  have hcnt : ∀ (p : pageType) (l : List Nat),
      cntPL { se with count_cold := se.count_cold + 1 } p l = cntPL se p l :=
    fun p l => cntPL_entries_eq se { se with count_cold := se.count_cold + 1 } rfl p l
  refine ⟨hI.transport rfl rfl rfl, ?_, ?_, ?_, ?_, ?_, ?_, ?_, ?_⟩
  · exact htv
  · show se.count_hot = cntPL { se with count_cold := se.count_cold + 1 } pageType.ptHot se.meta
    rw [hcnt pageType.ptHot se.meta]
    exact hch
  · show se.count_cold + 1 = cntPL { se with count_cold := se.count_cold + 1 } pageType.ptCold se.meta
    rw [hcnt pageType.ptCold se.meta]
    exact hcc
  · show se.count_test = cntPL { se with count_cold := se.count_cold + 1 } pageType.ptTest se.meta
    rw [hcnt pageType.ptTest se.meta]
    exact hct
  · exact hki
  · exact fun x hx => Or.inl (hlh x hx)
  · exact fun x hx => Or.inl (hlc x hx)
  · exact fun x hx => Or.inl (hlt x hx)

theorem promote_ACC (s sc sd se : Cache) (k : String) (id : Nat) (eH : metaEntry) (f : Nat)
    (hA : ACCe s) (hmm : 1 ≤ s.mem_max)
    (halk : alookup s.metaKeys k = some (some id))
    (hvnil : (entryOf s id).val = none)
    (heptype : eH.ptype = pageType.ptHot)
    (hekey : eH.key = (entryOf s id).key)
    (hev : eH.val ≠ none)
    (pce : sc.entries = ains s.entries id eH)
    (pcm : sc.meta = s.meta) (pck : sc.metaKeys = s.metaKeys) (pcn : sc.nextId = s.nextId)
    (pmx : sc.mem_max = s.mem_max)
    (pmh : sc.count_hot = s.count_hot) (pmc : sc.count_cold = s.count_cold)
    (pmt : sc.count_test = s.count_test - 1)
    (pph : sc.hand_pos_hot = s.hand_pos_hot) (ppc : sc.hand_pos_cold = s.hand_pos_cold)
    (ppt : sc.hand_pos_test = s.hand_pos_test)
    (hdel : meta_del sc (entryOf s id).key = Res.ok sd)
    (hadd : meta_add f sd eH = Res.ok se) :
    ACCe { se with count_hot := se.count_hot + 1 } := by
  have hmem : id ∈ s.meta := (hA.inv.stored k id halk).1
  have hetvH : eH.ptype = pageType.ptTest ↔ eH.val = none := by
    rw [heptype]
    exact ⟨fun hq => pageType.noConfusion hq, fun hq => absurd hq hev⟩
  obtain ⟨d1, d2, d3, d4, d5, d6, d7, d8, id0, hlook0, hdm⟩ := meta_del_spec sc _ sd hdel
  have t1 : alookup s.metaKeys (entryOf s id).key = some (some id0) := by
    rw [← pck]
    exact hlook0
  rw [hA.ki id hmem] at t1
  injection t1 with t2
  injection t2 with t3
  have hdmeta : sd.meta = s.meta.erase id := by
    rw [hdm, pcm, ← t3]
  have hIsc : INV0 sc := hA.inv.transport pcm pck pcn
  obtain ⟨hIsd, hlensd⟩ := meta_del_INV0 sc _ sd hdel hIsc
  have hEsd : ∀ x, x ≠ id → entryOf sd x = entryOf s x := by
    intro x hx
    show (alookup sd.entries x).getD defaultEntry = (alookup s.entries x).getD defaultEntry
    rw [d7, pce, alookup_ains_ne _ _ _ _ hx]
  have hxid : ∀ x ∈ sd.meta, x ≠ id ∧ x ∈ s.meta := by
    intro x hx
    rw [hdmeta] at hx
    exact ⟨(hA.inv.nodup.mem_erase_iff.mp hx).1, List.mem_of_mem_erase hx⟩
  have dtv : ∀ x ∈ sd.meta,
      ((entryOf sd x).ptype = pageType.ptTest ↔ (entryOf sd x).val = none) := by
    intro x hx
    obtain ⟨hne, hms⟩ := hxid x hx
    rw [hEsd x hne]
    exact hA.tv x hms
  have dki : ∀ x ∈ sd.meta, alookup sd.metaKeys (entryOf sd x).key = some (some x) := by
    intro x hx
    obtain ⟨hne, hms⟩ := hxid x hx
    have hkne : (entryOf s x).key ≠ (entryOf s id).key := by
      intro hq
      have u1 := hA.ki x hms
      rw [hq, hA.ki id hmem] at u1
      injection u1 with u2
      injection u2 with u3
      exact hne u3.symm
    rw [hEsd x hne, d8, pck, alookup_aerase_ne _ _ _ hkne]
    exact hA.ki x hms
  have hidnotin : id ∉ sd.meta := by
    rw [hdmeta]
    intro hq
    exact (hA.inv.nodup.mem_erase_iff.mp hq).1 rfl
  have dcnt : ∀ p, cntP sd p
      = cntPL s p s.meta - (if (entryOf s id).ptype = p then (1:Int) else 0) := by
    intro p
    have w1 : cntPL sd p sd.meta = cntPL s p sd.meta :=
      cntPL_entries_ains_not_mem s sd id eH (by rw [d7, pce]) p sd.meta hidnotin
    show cntPL sd p sd.meta = _
    rw [w1, hdmeta, cntPL_erase s id p s.meta hA.inv.nodup hmem]
  have hty : (entryOf s id).ptype = pageType.ptTest := (hA.tv id hmem).mpr hvnil
  have dch : sd.count_hot = cntP sd pageType.ptHot := by
    rw [dcnt pageType.ptHot, hty, if_neg (by decide), d3, pmh, hA.ch]
    show cntPL s pageType.ptHot s.meta = cntPL s pageType.ptHot s.meta - 0
    omega
  have dcc : sd.count_cold = cntP sd pageType.ptCold := by
    rw [dcnt pageType.ptCold, hty, if_neg (by decide), d4, pmc, hA.cc]
    show cntPL s pageType.ptCold s.meta = cntPL s pageType.ptCold s.meta - 0
    omega
  have dct : sd.count_test = cntP sd pageType.ptTest := by
    rw [dcnt pageType.ptTest, hty, if_pos rfl, d5, pmt, hA.ct]
    rfl
  have hsne : s.meta ≠ [] := List.ne_nil_of_mem hmem
  have lhS : ∀ x, sc.hand_pos_hot = some x → x ∈ sc.meta := by
    intro x hx
    rw [pph] at hx
    rw [pcm]
    rcases hA.lh x hx with h1 | h1
    · exact h1
    · exact absurd h1.1 hsne
  have lcS : ∀ x, sc.hand_pos_cold = some x → x ∈ sc.meta := by
    intro x hx
    rw [ppc] at hx
    rw [pcm]
    rcases hA.lc x hx with h1 | h1
    · exact h1
    · exact absurd h1.1 hsne
  have ltS : ∀ x, sc.hand_pos_test = some x → x ∈ sc.meta := by
    intro x hx
    rw [ppt] at hx
    rw [pcm]
    rcases hA.lt x hx with h1 | h1
    · exact h1
    · exact absurd h1.1 hsne
  have hstored : ∀ id', alookup sc.metaKeys (entryOf s id).key = some (some id') →
      id' ∈ sc.meta := by
    intro id' hl
    rw [pck] at hl
    rw [pcm]
    exact (hA.inv.stored _ id' hl).1
  obtain ⟨e0, _, _, wh, wc, wt⟩ := meta_del_hands sc _ sd hdel
    (by rw [pcm]; exact hA.inv.nodup) hstored lhS lcS ltS
  have hmgd : mapGet sd (entryOf s id).key = none := by
    show (alookup sd.metaKeys (entryOf s id).key).getD none = none
    rw [d8, pck, alookup_aerase_self _ _ hA.inv.keysNodup]
    rfl
  have hmge : mapGet sd eH.key = none := by
    rw [hekey]
    exact hmgd
  by_cases hempty : sd.meta = []
  · have zh : cntP sd pageType.ptHot = 0 := by
      show cntPL sd pageType.ptHot sd.meta = 0
      rw [hempty]
      rfl
    have zc : cntP sd pageType.ptCold = 0 := by
      show cntPL sd pageType.ptCold sd.meta = 0
      rw [hempty]
      rfl
    have zt : cntP sd pageType.ptTest = 0 := by
      show cntPL sd pageType.ptTest sd.meta = 0
      rw [hempty]
      rfl
    have zch : sd.count_hot = 0 := by rw [dch, zh]
    have zcc : sd.count_cold = 0 := by rw [dcc, zc]
    have zct : sd.count_test = 0 := by rw [dct, zt]
    have hmxd : sd.mem_max = s.mem_max := by rw [d1, pmx]
    cases f with
    | zero => exact Res.noConfusion hadd
    | succ f2 =>
      simp only [meta_add] at hadd
      split at hadd
      rotate_left
      · rename_i hno
        exact absurd hadd (hno se)
      rename_i s0 hev
      · have hs0 : s0 = sd := by
          cases f2 with
          | zero => exact Res.noConfusion hev
          | succ f3 =>
            have hnoev := evict_noop f3 sd (by rw [zch, zcc, hmxd]; omega)
            rw [hnoev] at hev
            injection hev with hq
            exact hq.symm
        rw [hs0] at hadd
        obtain ⟨hIse, etv, eki, ⟨sh, sc2, st⟩, ecnt⟩ :=
          metaAddCore_ACC sd se eH hIsd
            (by intro x hx; rw [hempty] at hx; exact absurd hx (List.not_mem_nil x))
            (by intro x hx; rw [hempty] at hx; exact absurd hx (List.not_mem_nil x))
            hetvH
            (by intro x hx; rw [hempty] at hx; exact absurd hx (List.not_mem_nil x))
            (fun x _ => Or.inr hempty) (fun x _ => Or.inr hempty)
            hadd
        obtain ⟨g1, g2, g3, g4, _, _, _, gm1, gm2, g5, g6, g7⟩ :=
          metaAddCore_fields sd se eH hadd
        have q1 : cntP se pageType.ptHot = 1 := by
          rw [ecnt pageType.ptHot, heptype, if_pos rfl, zh]
          omega
        have q2 : cntP se pageType.ptCold = 0 := by
          rw [ecnt pageType.ptCold, heptype, if_neg (by decide), zc]
          omega
        have q3 : cntP se pageType.ptTest = 0 := by
          rw [ecnt pageType.ptTest, heptype, if_neg (by decide), zt]
          omega
        exact ACCe_bump_hot se hIse etv eki sh sc2 st
          (by rw [q1, g5, zch]; omega)
          (by rw [q2, g4]; exact zcc)
          (by rw [q3, g6]; exact zct)
  · have hAsd : ACCe sd :=
      ⟨hIsd, dtv, dch, dcc, dct, dki,
       fun x hx => Or.inl ((wh x hx).resolve_right (fun hq => absurd hq.1 hempty)),
       fun x hx => Or.inl ((wc x hx).resolve_right (fun hq => absurd hq.1 hempty)),
       fun x hx => Or.inl ((wt x hx).resolve_right (fun hq => absurd hq.1 hempty))⟩
    obtain ⟨hIse, etv, eki, ⟨sh, sc2, st⟩, ech, ecc, ect⟩ :=
      meta_add_ACC f sd se eH hAsd hetvH hmge hadd
    rw [heptype, if_pos rfl] at ech
    rw [heptype, if_neg (by decide)] at ecc
    rw [heptype, if_neg (by decide)] at ect
    exact ACCe_bump_hot se hIse etv eki sh sc2 st ech (by omega) (by omega)

theorem Get_ACC (s : Cache) (k : String) (hA : ACCe s) : ACCe (Get s k).1 := by
  simp only [Get]
  split
  · exact hA
  · rename_i id hid
    split
    · exact hA
    · rename_i hval
      have halk : alookup s.metaKeys k = some (some id) := mapGet_some s k id hid
      have hmem : id ∈ s.meta := (hA.inv.stored k id halk).1
      refine ACCe_setEntry_gen s _ id _ hA hmem rfl rfl rfl rfl rfl rfl rfl ?_ rfl ?_ ?_ ?_
      · exact hA.tv id hmem
      · show s.count_hot = s.count_hot
          + ((if (entryOf s id).ptype = pageType.ptHot then (1:Int) else 0)
             - (if (entryOf s id).ptype = pageType.ptHot then (1:Int) else 0))
        omega
      · show s.count_cold = s.count_cold
          + ((if (entryOf s id).ptype = pageType.ptCold then (1:Int) else 0)
             - (if (entryOf s id).ptype = pageType.ptCold then (1:Int) else 0))
        omega
      · show s.count_test = s.count_test
          + ((if (entryOf s id).ptype = pageType.ptTest then (1:Int) else 0)
             - (if (entryOf s id).ptype = pageType.ptTest then (1:Int) else 0))
        omega

theorem Set_ACC (f : Nat) (s se : Cache) (k : String) (v : Int)
    (hA : ACCe s) (hmm : 1 ≤ s.mem_max)
    (h : Set f s k (some v) = Res.ok se) : ACCe se := by
  simp only [Set] at h
  split at h
  case h_1 id hid =>
    have halk : alookup s.metaKeys k = some (some id) := mapGet_some s k id hid
    have hmem : id ∈ s.meta := (hA.inv.stored k id halk).1
    split at h
    case isTrue hval =>
      by_cases hmc : s.mem_cold < s.mem_max
      · rw [if_pos hmc] at h
        split at h
        next sd hdel =>
          split at h
          case h_1 se2 hadd =>
            injection h with h2
            subst h2
            exact promote_ACC s _ sd se2 k id _ f hA hmm halk hval (by rfl) (by rfl)
              (by exact fun hq => Option.noConfusion (show (some v : Option Int) = none from hq))
              (by rfl) (by rfl) (by rfl) (by rfl) (by rfl) (by rfl) (by rfl) (by rfl)
              (by rfl) (by rfl) (by rfl) hdel hadd
          all_goals (rename_i hno; exact absurd h (hno se))
        all_goals (rename_i hno; exact absurd h (hno se))
      · rw [if_neg hmc] at h
        split at h
        next sd hdel =>
          split at h
          case h_1 se2 hadd =>
            injection h with h2
            subst h2
            exact promote_ACC s _ sd se2 k id _ f hA hmm halk hval (by rfl) (by rfl)
              (by exact fun hq => Option.noConfusion (show (some v : Option Int) = none from hq))
              (by rfl) (by rfl) (by rfl) (by rfl) (by rfl) (by rfl) (by rfl) (by rfl)
              (by rfl) (by rfl) (by rfl) hdel hadd
          all_goals (rename_i hno; exact absurd h (hno se))
        all_goals (rename_i hno; exact absurd h (hno se))
    case isFalse hval =>
      injection h with h2
      subst h2
      refine ACCe_setEntry_gen s _ id _ hA hmem rfl rfl rfl rfl rfl rfl rfl ?_ rfl ?_ ?_ ?_
      · constructor
        · intro hq
          have hq2 : (entryOf s id).ptype = pageType.ptTest := hq
          exact absurd ((hA.tv id hmem).mp hq2) hval
        · intro hq
          have hq2 : (some v : Option Int) = none := hq
          exact Option.noConfusion hq2
      · show s.count_hot = s.count_hot
          + ((if (entryOf s id).ptype = pageType.ptHot then (1:Int) else 0)
             - (if (entryOf s id).ptype = pageType.ptHot then (1:Int) else 0))
        omega
      · show s.count_cold = s.count_cold
          + ((if (entryOf s id).ptype = pageType.ptCold then (1:Int) else 0)
             - (if (entryOf s id).ptype = pageType.ptCold then (1:Int) else 0))
        omega
      · show s.count_test = s.count_test
          + ((if (entryOf s id).ptype = pageType.ptTest then (1:Int) else 0)
             - (if (entryOf s id).ptype = pageType.ptTest then (1:Int) else 0))
        omega
  case h_2 hid =>
    split at h
    case h_1 s1 hadd =>
      injection h with h2
      subst h2
      have hetv : (⟨pageType.ptCold, k, some v, false⟩ : metaEntry).ptype = pageType.ptTest
          ↔ (⟨pageType.ptCold, k, some v, false⟩ : metaEntry).val = none := by
        constructor
        · intro hq
          exact pageType.noConfusion hq
        · intro hq
          exact Option.noConfusion hq
      have hmk : mapGet s (⟨pageType.ptCold, k, some v, false⟩ : metaEntry).key = none := hid
      obtain ⟨hI, htv, hki, ⟨sh, sc2, st⟩, ech, ecc, ect⟩ :=
        meta_add_ACC f s s1 _ hA hetv hmk hadd
      have hpt : (⟨pageType.ptCold, k, some v, false⟩ : metaEntry).ptype = pageType.ptCold := rfl
      rw [hpt, if_neg (by decide)] at ech
      rw [hpt, if_pos rfl] at ecc
      rw [hpt, if_neg (by decide)] at ect
      exact ACCe_bump_cold s1 hI htv hki sh sc2 st (by omega) ecc (by omega)
    all_goals (rename_i hno; exact absurd h (hno se))

theorem New_ACC (size : Int) : ACCe (New size) := by
  refine ⟨⟨List.nodup_nil, ?_, List.nodup_nil, ?_, ?_⟩, ?_, rfl, rfl, rfl, ?_, ?_, ?_, ?_⟩
  · intro i hi
    exact absurd hi (List.not_mem_nil i)
  · intro k id hl
    exact Option.noConfusion hl
  · intro k1 k2 id ha hb
    exact Option.noConfusion ha
  · intro id hid
    exact absurd hid (List.not_mem_nil id)
  · intro id hid
    exact absurd hid (List.not_mem_nil id)
  · intro x hx
    exact Option.noConfusion hx
  · intro x hx
    exact Option.noConfusion hx
  · intro x hx
    exact Option.noConfusion hx

theorem reachesNN_toReaches (a s : Cache) (h : ReachesNN a s) : Reaches a s := by
  induction h with
  | refl => exact Reaches.refl _
  | get t k hr ih => exact Reaches.get a t k ih
  | set t u f k v hr hset ih => exact Reaches.set a t u f k (some v) ih hset

theorem reachesNN_ACC_aux (a s : Cache) (h : ReachesNN a s) :
    ∀ size : Int, a = New size → 1 ≤ size → ACCe s := by
  induction h with
  | refl =>
    intro size hEq hsz
    subst hEq
    exact New_ACC size
  | get t k hr ih =>
    intro size hEq hsz
    exact Get_ACC t k (ih size hEq hsz)
  | set t u f k v hr hset ih =>
    intro size hEq hsz
    have hRt : Reaches a t := reachesNN_toReaches a t hr
    subst hEq
    obtain ⟨hC, hmmax⟩ := reaches_callInv size t hsz hRt
    obtain ⟨_, _, _, _, hc4, hc5⟩ := hC
    exact Set_ACC f t u k v (ih size rfl hsz) (by rw [hmmax]; exact hsz) hset

/-- C7: after every public call on a cache built by `new(size)` with `size ≥ 1`
returns — restricted to `set` calls that store non-nil values, since storing
nil creates a Cold node with an absent value — every ring node has
`ptype = Test` exactly when its value is absent, and `count_hot`,
`count_cold`, `count_test` each equal the number of ring nodes of the
corresponding page type. -/
theorem C7_type_value_counts (size : Int) (s : Cache) (hsz : 1 ≤ size)
    (h : ReachesNN (New size) s) :
    (∀ id ∈ s.meta, ((entryOf s id).ptype = pageType.ptTest ↔ (entryOf s id).val = none)) ∧
    s.count_hot = cntP s pageType.ptHot ∧
    s.count_cold = cntP s pageType.ptCold ∧
    s.count_test = cntP s pageType.ptTest := by
  have hA := reachesNN_ACC_aux (New size) s h size rfl hsz
  exact ⟨hA.tv, hA.ch, hA.cc, hA.ct⟩

theorem C7_type_value_counts_witness :
    (1 : Int) ≤ 2 ∧
    ((∀ id ∈ c1w.meta, ((entryOf c1w id).ptype = pageType.ptTest ↔ (entryOf c1w id).val = none)) ∧
     c1w.count_hot = cntP c1w pageType.ptHot ∧
     c1w.count_cold = cntP c1w pageType.ptCold ∧
     c1w.count_test = cntP c1w pageType.ptTest) :=
  ⟨by decide,
   C7_type_value_counts 2 c1w (by decide)
     (ReachesNN.set (New 2) (New 2) c1w 5 "a" 1 (ReachesNN.refl (New 2)) (by decide))⟩

end Clockpro
